import Mathlib

/-!
# github-release-manager (`cmd/grm/application.go`)

A shallow embedding of the fetch workflow of `grm` and proofs about it.

* Go strings are byte sequences (`GoString`); `str` turns a literal into its UTF-8 bytes.
* A Go `error` is represented by the text of its `Error()` method, which is how the
  repository's tests compare errors.
* A function that can stop with a run-time panic (index out of range, nil dereference)
  returns an `Outcome`.
* The operating system and the network are explicit: a `World` holds the file system and
  the log of external calls, a `Remote` holds the answers of the release directory
  service and of the HTTP servers.
-/

namespace Grm

/-! ## Strings, errors, outcomes -/

abbrev Byte := UInt8

/-- A Go `string`: an arbitrary sequence of bytes. -/
abbrev GoString := List Byte

/-- The bytes (UTF-8) of a string literal. -/
def str (s : String) : GoString := s.toUTF8.data.toList

/-- A Go `error`, identified with its message. -/
abbrev GoError := GoString

/-- The byte `/`, `os.PathSeparator` on Unix and the separator of `owner/repo`. -/
def Separator : Byte := 47

/-- The byte `.`. -/
def Dot : Byte := 46

/-- Result of a call that either returns a value or panics. -/
inductive Outcome (α : Type) where
  | done (val : α)
  | panic
  deriving DecidableEq, Repr

deriving instance DecidableEq for Except

namespace strings

/-- Go `strings.Split(s, sep)` for a separator of one byte (the program only splits on
`"/"`): the pieces of `s` between successive occurrences of `sep`, in order. -/
def Split (s : GoString) (sep : Byte) : List GoString :=
  match s with
  | [] => [[]]
  | c :: cs =>
    if c = sep then [] :: Split cs sep
    else
      match Split cs sep with
      | [] => [[c]]
      | p :: ps => (c :: p) :: ps

/-- Go `strings.Join(elems, sep)`. -/
def Join (elems : List GoString) (sep : GoString) : GoString :=
  match elems with
  | [] => []
  | [e] => e
  | e :: es => e ++ sep ++ Join es sep

end strings

/-! ## Release metadata (the fields of `go-github` the program reads) -/

/-- The `github.ReleaseAsset` fields that are read; `none` is a nil pointer. -/
structure ReleaseAsset where
  Name : Option GoString
  BrowserDownloadURL : Option GoString
  deriving DecidableEq, Repr

/-- The `github.RepositoryRelease` fields that are read; `none` is a nil pointer. -/
structure RepositoryRelease where
  TagName : Option GoString
  TarballURL : Option GoString
  Assets : List ReleaseAsset
  deriving DecidableEq, Repr

/-- Accessor `(*ReleaseAsset).GetName`: the empty string for a nil field. -/
def ReleaseAsset.GetName (r : ReleaseAsset) : GoString := r.Name.getD []

/-- Accessor `(*ReleaseAsset).GetBrowserDownloadURL`. -/
def ReleaseAsset.GetBrowserDownloadURL (r : ReleaseAsset) : GoString :=
  r.BrowserDownloadURL.getD []

/-- Accessor `(*RepositoryRelease).GetTagName`, safe on a nil release. -/
def GetTagName (release : Option RepositoryRelease) : GoString :=
  match release with
  | none => []
  | some r => r.TagName.getD []

/-- Accessor `(*RepositoryRelease).GetTarballURL`, safe on a nil release. -/
def GetTarballURL (release : Option RepositoryRelease) : GoString :=
  match release with
  | none => []
  | some r => r.TarballURL.getD []

/-! ## The application: pure helpers -/

/-- The configuration fields of `application`. The `writer`, `client` and `context`
fields are the effects modelled by `World` and `Remote`. -/
structure application where
  requestedAsset : GoString
  requestedOutput : GoString
  ownerAndRepo : GoString
  workingDir : GoString
  deriving DecidableEq, Repr

/-- Constructor `newApplication`: the working directory of the tag markers is `.grm`. -/
def newApplication (ownerAndRepo requestedAsset requestedOutput : GoString) : application :=
  { requestedAsset := requestedAsset
    requestedOutput := requestedOutput
    ownerAndRepo := ownerAndRepo
    workingDir := str ".grm" }

/-- Method `findOwnerAndRepo`: split on `/`, exactly two parts are required. -/
def findOwnerAndRepo (_a : application) (input : GoString) :
    Outcome (GoString × GoString × Option GoError) :=
  let parts := strings.Split input Separator
  if parts.length ≠ 2 then
    .done ([], [], some (str "Expected owner/repo format"))
  else
    match parts[0]?, parts[1]? with
    | some owner, some repo => .done (owner, repo, none)
    | _, _ => .panic

/-- Method `findReleaseAsset`: the first asset, in order, with the given name. -/
def findReleaseAsset (a : application) (name : GoString) (assets : List ReleaseAsset) :
    ReleaseAsset × Option GoError :=
  match assets with
  | [] => ({ Name := none, BrowserDownloadURL := none },
           some (str "Can\x27t find \x27" ++ name ++ str "\x27 in release assets"))
  | asset :: rest =>
    if name = asset.GetName then (asset, none) else findReleaseAsset a name rest

/-- Method `findDownloadURL`. Reading `release.Assets` through a nil release panics. -/
def findDownloadURL (a : application) (release : Option RepositoryRelease) :
    Outcome (GoString × Option GoError) :=
  if a.requestedAsset = [] then
    .done (GetTarballURL release, none)
  else
    match release with
    | none => .panic
    | some r =>
      match findReleaseAsset a a.requestedAsset r.Assets with
      | (_, some err) => .done ([], some err)
      | (asset, none) => .done (asset.GetBrowserDownloadURL, none)

/-- Method `findOutputPath`: `parts[len(parts)-1]` panics when the index is out of range. -/
def findOutputPath (a : application) (downloadURL : GoString) : Outcome GoString :=
  if a.requestedOutput = [] then
    let parts := strings.Split downloadURL Separator
    match parts[parts.length - 1]? with
    | some output => .done output
    | none => .panic
  else
    .done a.requestedOutput

/-! ## Paths (`path/filepath`, Unix) -/

namespace filepath

/-- The test `r == n || os.IsPathSeparator(path[r])` on the unread input `path[r:]`. -/
def atElemEnd (rest : GoString) : Bool :=
  match rest with
  | [] => true
  | c :: _ => c == Separator

/-- The bytes of the path element that starts the unread input. -/
def takeElem (rest : GoString) : GoString := rest.takeWhile (fun c => c != Separator)

/-- The unread input after the path element that starts it. -/
def dropElem (rest : GoString) : GoString := rest.dropWhile (fun c => c != Separator)

/-- The inner loop of the `..` case of `Clean`, entered after `out.w--` with write index `w`:
`for out.w > dotdot && !os.IsPathSeparator(out.index(out.w)) { out.w-- }`. -/
def backtrack (buf : GoString) (dotdot : Nat) : Nat → Nat
  | 0 => 0
  | w + 1 =>
    if dotdot < w + 1 ∧ buf[w + 1]? ≠ some Separator then backtrack buf dotdot w else w + 1

/-- The main loop of `Clean`. `rest` is the unread input `path[r:]`, `out` the bytes the
`lazybuf` holds (`out.w` is `out.length`), `dotdot` the index where `..` must stop. Every
turn reads at least one byte, so `len(path)` turns of fuel suffice. -/
def cleanLoop (rooted : Bool) : Nat → GoString → GoString → Nat → GoString
  | 0, _, out, _ => out
  | _ + 1, [], out, _ => out
  | fuel + 1, c :: rest, out, dotdot =>
    if c = Separator then
      -- empty path element
      cleanLoop rooted fuel rest out dotdot
    else if c = Dot ∧ atElemEnd rest = true then
      -- . element
      cleanLoop rooted fuel rest out dotdot
    else if c = Dot ∧ rest.head? = some Dot ∧ atElemEnd rest.tail = true then
      -- .. element: remove to last separator
      if dotdot < out.length then
        cleanLoop rooted fuel rest.tail
          (out.take (backtrack out dotdot (out.length - 1))) dotdot
      else if rooted = false then
        let out1 := if 0 < out.length then out ++ [Separator] else out
        let out2 := out1 ++ [Dot, Dot]
        cleanLoop rooted fuel rest.tail out2 out2.length
      else
        cleanLoop rooted fuel rest.tail out dotdot
    else
      -- real path element: add slash if needed, copy element
      let out1 :=
        if (rooted = true ∧ out.length ≠ 1) ∨ (rooted = false ∧ out.length ≠ 0) then
          out ++ [Separator]
        else out
      cleanLoop rooted fuel (dropElem (c :: rest)) (out1 ++ takeElem (c :: rest)) dotdot

/-- Go `filepath.Clean` on Unix (no volume name, `FromSlash` is the identity). -/
def Clean (path : GoString) : GoString :=
  if path = [] then [Dot]
  else
    let out :=
      if path.head? = some Separator then
        cleanLoop true path.length path.tail [Separator] 1
      else
        cleanLoop false path.length path [] 0
    -- Turn empty string into "."
    if out.length = 0 then [Dot] else out

/-- Go `filepath.Join`: the elements from the first non-empty one on, joined by the
separator and cleaned; `""` when every element is empty. -/
def Join (elem : List GoString) : GoString :=
  match elem with
  | [] => []
  | e :: es => if e ≠ [] then Clean (strings.Join (e :: es) [Separator]) else Join es

/-- Length of the longest prefix of `path[:n]` that is empty or ends with a separator:
`i+1` after `for i >= 0 && !os.IsPathSeparator(path[i]) { i-- }` started at `i = n-1`. -/
def dirLen (path : GoString) : Nat → Nat
  | 0 => 0
  | i + 1 => if path[i]? = some Separator then i + 1 else dirLen path i

/-- Go `filepath.Dir` on Unix. -/
def Dir (path : GoString) : GoString := Clean (path.take (dirLen path path.length))

end filepath

/-! ## The file system and the network

An entry of the file system is named by its `Key`, the list of directory names from the
root down to it; the root is `[]` and is always a directory. A path string is resolved to
a key the way the kernel does it without links: from the root for a path that starts with
a separator, else from the working directory, one element at a time, and every element is
looked up in a directory that must exist. Two spellings of one path (`x`, `./x`,
`a/../x`, the absolute path) resolve to one key. A regular file records whether the
process may read it and write it; a file that `os.Create` makes is readable and writable;
directories can be searched and written by the process. `free` is the number of bytes the
device still accepts; a write that needs more stores what fits and fails. -/

abbrev Key := List GoString

/-- What a key names. -/
inductive Node where
  | file (content : GoString) (readable : Bool) (writable : Bool)
  | dir
  deriving DecidableEq, Repr

structure FileSystem where
  node : Key → Option Node
  cwd : Key
  free : Nat

/-- The entry at a key; the root is a directory. -/
def FileSystem.entry (fs : FileSystem) (k : Key) : Option Node :=
  if k = [] then some Node.dir else fs.node k

/-- The file system with the entry at `k` replaced. -/
def FileSystem.set (fs : FileSystem) (k : Key) (n : Node) : FileSystem :=
  { fs with node := fun q => if q = k then some n else fs.node q }

/-- Where one path element leads from the directory `cur`: an empty element and `.` stay,
`..` goes to the parent (the root is its own parent), a name goes down. -/
def stepKey (cur : Key) (comp : GoString) : Key :=
  if comp = [] ∨ comp = [Dot] then cur
  else if comp = [Dot, Dot] then cur.dropLast
  else cur ++ [comp]

/-- Path resolution from `cur` along the elements of a path: each element is looked up in
`cur`, which must be a directory. The entry reached by the last element is not looked at. -/
def FileSystem.walk (fs : FileSystem) : Key → List GoString → Except GoError Key
  | cur, [] => .ok cur
  | cur, comp :: rest =>
    match fs.entry cur with
    | some Node.dir => walk fs (stepKey cur comp) rest
    | some (Node.file _ _ _) => .error (str "not a directory")
    | none => .error (str "no such file or directory")

/-- The key a path string resolves to. -/
def FileSystem.resolve (fs : FileSystem) (name : GoString) : Except GoError Key :=
  if name = [] then .error (str "no such file or directory")
  else
    fs.walk (if name.head? = some Separator then [] else fs.cwd)
      (strings.Split name Separator)

/-- The entry a path string names, if it resolves and the entry exists. -/
def FileSystem.lookup (fs : FileSystem) (name : GoString) : Option Node :=
  match fs.resolve name with
  | .ok k => fs.entry k
  | .error _ => none

/-- A file system as the kernel keeps it: the working directory exists, and every entry
lies in a directory. -/
def FileSystem.WellFormed (fs : FileSystem) : Prop :=
  fs.entry fs.cwd = some Node.dir ∧
    ∀ k, fs.node k ≠ none → k ≠ [] → fs.entry k.dropLast = some Node.dir

/-- The text of an `*os.PathError`. -/
def pathError (op path msg : GoString) : GoError := op ++ str " " ++ path ++ str ": " ++ msg

/-- An open file (`*os.File`): the name it was opened with and the entry it refers to. -/
structure File where
  name : GoString
  key : Key
  deriving DecidableEq, Repr

/-- The body of an HTTP response as a stream: `body` is read, then the stream ends with
`EOF` (`readErr = none`) or with a read error. -/
structure Response where
  body : GoString
  readErr : Option GoError
  deriving DecidableEq, Repr

/-- The world outside the process, as it answers: `GetLatestRelease owner repo` is the
answer of the release directory service to `Repositories.GetLatestRelease` (release and
error), `Get url` that of `http.Get`. -/
structure Remote where
  GetLatestRelease : GoString → GoString → Option RepositoryRelease × Option GoError
  Get : GoString → Except GoError Response

/-- The external calls the process makes. -/
inductive Call where
  | getLatestRelease (owner repo : GoString)
  | readFile (name : GoString)
  | mkdirAll (path : GoString)
  | create (name : GoString)
  | write (name : GoString) (data : GoString)
  | httpGet (url : GoString)
  | report (message : GoString)
  deriving DecidableEq, Repr

/-- The state a run acts on: the file system and the calls made so far, oldest first. -/
structure World where
  fs : FileSystem
  calls : List Call

namespace ioutil

/-- Go `ioutil.ReadFile`: the content of a readable regular file. -/
def ReadFile (fs : FileSystem) (name : GoString) : Except GoError GoString :=
  match fs.resolve name with
  | .error e => .error (pathError (str "open") name e)
  | .ok k =>
    match fs.entry k with
    | some (Node.file content true _) => .ok content
    | some (Node.file _ false _) =>
      .error (pathError (str "open") name (str "permission denied"))
    | some Node.dir => .error (pathError (str "read") name (str "is a directory"))
    | none => .error (pathError (str "open") name (str "no such file or directory"))

end ioutil

namespace os

/-- Length of `path[:n]` without its trailing separators:
`for i > 0 && os.IsPathSeparator(path[i-1]) { i-- }`. -/
def trimSep (path : GoString) : Nat → Nat
  | 0 => 0
  | i + 1 => if path[i]? = some Separator then trimSep path i else i + 1

/-- The error of `open` with `O_CREAT` for a path that does not resolve. The kernel looks
at trailing separators before it looks up the last element: when the path ends in a
separator and the part before the trailing separators resolves, the path is refused with
`is a directory`; otherwise the error is that of the resolution. -/
def createErrno (fs : FileSystem) (name : GoString) (e : GoError) : GoError :=
  match fs.resolve (name.take (trimSep name name.length)) with
  | .ok _ => if name.getLast? = some Separator then str "is a directory" else e
  | .error _ => e

/-- Go `os.Create` (`O_RDWR|O_CREATE|O_TRUNC`, mode 0666): truncates a file the process
may read and write, or makes a new empty file in an existing directory. -/
def Create (fs : FileSystem) (name : GoString) : Except GoError (FileSystem × File) :=
  match fs.resolve name with
  | .error e => .error (pathError (str "open") name (createErrno fs name e))
  | .ok k =>
    match fs.entry k with
    | some Node.dir => .error (pathError (str "open") name (str "is a directory"))
    | some (Node.file content readable writable) =>
      if readable = true ∧ writable = true then
        .ok ({ (fs.set k (Node.file [] readable writable)) with
               free := fs.free + content.length }, { name := name, key := k })
      else .error (pathError (str "open") name (str "permission denied"))
    | none =>
      if fs.entry k.dropLast = some Node.dir then
        .ok (fs.set k (Node.file [] true true), { name := name, key := k })
      else .error (pathError (str "open") name (str "no such file or directory"))

/-- A write through an open file: the bytes are appended to the file; when the device is
full the bytes that fit are stored and the write fails. -/
def Write (fs : FileSystem) (f : File) (data : GoString) : FileSystem × Option GoError :=
  match fs.node f.key with
  | some (Node.file content readable writable) =>
    if data.length ≤ fs.free then
      ({ (fs.set f.key (Node.file (content ++ data) readable writable)) with
         free := fs.free - data.length }, none)
    else
      ({ (fs.set f.key (Node.file (content ++ data.take fs.free) readable writable)) with
         free := 0 },
       some (pathError (str "write") f.name (str "no space left on device")))
  | _ => (fs, some (pathError (str "write") f.name (str "bad file descriptor")))

/-- The path without its trailing separators, which `mkdir` accepts; a path of separators
only is the root and is kept. -/
def dropTrailingSep (name : GoString) : GoString :=
  if trimSep name name.length = 0 then name else name.take (trimSep name name.length)

/-- Go `os.Mkdir`: a new directory in an existing directory. -/
def Mkdir (fs : FileSystem) (name : GoString) : FileSystem × Option GoError :=
  match fs.resolve (dropTrailingSep name) with
  | .error e => (fs, some (pathError (str "mkdir") name e))
  | .ok k =>
    match fs.entry k with
    | some _ => (fs, some (pathError (str "mkdir") name (str "file exists")))
    | none =>
      if fs.entry k.dropLast = some Node.dir then (fs.set k Node.dir, none)
      else (fs, some (pathError (str "mkdir") name (str "no such file or directory")))

/-- The last step of `os.MkdirAll`: `Mkdir(path)`, and when it fails the check (`Lstat`)
that the directory is not there after all. -/
def mkdirLast (fs : FileSystem) (path : GoString) : FileSystem × Option GoError :=
  match Mkdir fs path with
  | (fs1, none) => (fs1, none)
  | (fs1, some err) =>
    if fs1.lookup path = some Node.dir then (fs1, none) else (fs1, some err)

/-- The recursion of `os.MkdirAll`: an existing directory is kept, an existing file is an
error, otherwise the parent is made first and then the directory. The recursive call is on
a strictly shorter path, so `len(path) + 1` calls of fuel suffice. -/
def mkdirAllAux : Nat → FileSystem → GoString → FileSystem × Option GoError
  | 0, fs, path => (fs, some (pathError (str "mkdir") path (str "file name too long")))
  | fuel + 1, fs, path =>
    match fs.lookup path with
    | some Node.dir => (fs, none)
    | some (Node.file _ _ _) => (fs, some (pathError (str "mkdir") path (str "not a directory")))
    | none =>
      let i := trimSep path path.length
      let j := filepath.dirLen path i
      if 1 < j then
        match mkdirAllAux fuel fs (path.take (j - 1)) with
        | (fs1, some err) => (fs1, some err)
        | (fs1, none) => mkdirLast fs1 path
      else mkdirLast fs path

/-- Go `os.MkdirAll`. -/
def MkdirAll (fs : FileSystem) (path : GoString) : FileSystem × Option GoError :=
  mkdirAllAux (path.length + 1) fs path

end os

/-! ### Calls on the world: the operation, and its entry in the log -/

def World.logged (w : World) (c : Call) : World := { w with calls := w.calls ++ [c] }

def World.ReadFile (w : World) (name : GoString) : Except GoError GoString × World :=
  (ioutil.ReadFile w.fs name, w.logged (.readFile name))

def World.MkdirAll (w : World) (path : GoString) : Option GoError × World :=
  ((os.MkdirAll w.fs path).2,
   { fs := (os.MkdirAll w.fs path).1, calls := w.calls ++ [.mkdirAll path] })

def World.Create (w : World) (name : GoString) : Except GoError File × World :=
  match os.Create w.fs name with
  | .error err => (.error err, w.logged (.create name))
  | .ok (fs, f) => (.ok f, { fs := fs, calls := w.calls ++ [.create name] })

def World.Write (w : World) (f : File) (data : GoString) : Option GoError × World :=
  ((os.Write w.fs f data).2,
   { fs := (os.Write w.fs f data).1, calls := w.calls ++ [.write f.name data] })

def World.Get (w : World) (env : Remote) (url : GoString) :
    Except GoError Response × World :=
  (env.Get url, w.logged (.httpGet url))

/-- A call of the `writer` field with the formatted message. -/
def World.report (w : World) (message : GoString) : World := w.logged (.report message)

/-- Go `io.Copy(out, resp.Body)`: what is read from the body is written to the file; a
failed write ends the copy, otherwise the result is the read error of the stream. -/
def ioCopy (w : World) (dst : File) (src : Response) : Option GoError × World :=
  match w.Write dst src.body with
  | (some err, w1) => (some err, w1)
  | (none, w1) => (src.readErr, w1)

/-! ## The application: methods with effects -/

/-- Method `assertTag`. -/
def assertTag (a : application) (owner repo tag : GoString) (w : World) :
    Option GoError × World :=
  let file := filepath.Join [a.workingDir, owner, repo]
  -- If the file exists and has content, check it
  match w.ReadFile file with
  | (.ok content, w1) =>
    if content = tag then (some (str "Already up to date, nothing to download"), w1)
    else (none, w1)
  | (.error _, w1) => (none, w1)

/-- Method `writeTag`. -/
def writeTag (a : application) (owner repo tag : GoString) (w : World) :
    Option GoError × World :=
  let file := filepath.Join [a.workingDir, owner, repo]
  match w.MkdirAll (filepath.Dir file) with
  | (some err, w1) => (some err, w1)
  | (none, w1) =>
    match w1.Create file with
    | (.error err, w2) => (some err, w2)
    | (.ok out, w2) =>
      match w2.Write out tag with
      | (some err, w3) =>
        (some (str "Failed to write tag to " ++ file ++ str ": " ++ err), w3)
      | (none, w3) => (none, w3)

/-- Method `downloadFile`. -/
def downloadFile (_a : application) (env : Remote) (filepath url : GoString) (w : World) :
    Option GoError × World :=
  match w.Create filepath with
  | (.error err, w1) => (some err, w1)
  | (.ok out, w1) =>
    match w1.Get env url with
    | (.error err, w2) => (some err, w2)
    | (.ok resp, w2) => ioCopy w2 out resp

/-- Method `Fetch`. The error of `GetLatestRelease` is assigned and never read. -/
def Fetch (a : application) (env : Remote) (w : World) : Outcome (Option GoError) × World :=
  match findOwnerAndRepo a a.ownerAndRepo with
  | .panic => (.panic, w)
  | .done (_, _, some err) => (.done (some err), w)
  | .done (owner, repo, none) =>
    let release := (env.GetLatestRelease owner repo).1
    let w1 := w.logged (.getLatestRelease owner repo)
    let tag := GetTagName release
    match assertTag a owner repo tag w1 with
    | (some err, w2) => (.done (some err), w2)
    | (none, w2) =>
      match findDownloadURL a release with
      | .panic => (.panic, w2)
      | .done (_, some err) => (.done (some err), w2)
      | .done (downloadURL, none) =>
        match findOutputPath a downloadURL with
        | .panic => (.panic, w2)
        | .done output =>
          let w3 := w2.report
            (str "Downloading \x27" ++ downloadURL ++ str "\x27 to " ++ output ++ str "...")
          match downloadFile a env output downloadURL w3 with
          | (some err, w4) => (.done (some err), w4)
          | (none, w4) =>
            match writeTag a owner repo tag w4 with
            | (some err, w5) => (.done (some err), w5)
            | (none, w5) => (.done none, w5.report (str "Done.\n"))

/-- The world in which `Fetch` calls `downloadFile`: the file system is as at the start, the
release lookup, the read of the marker and the progress message have been logged. -/
def atDownload (a : application) (w : World) (owner repo url output : GoString) : World :=
  ((w.logged (.getLatestRelease owner repo)).logged
      (.readFile (filepath.Join [a.workingDir, owner, repo]))).report
    (str "Downloading \x27" ++ url ++ str "\x27 to " ++ output ++ str "...")

/-! ### The state changes of one turn of the loop of `Clean`, named for the proofs -/

/-- The buffer after "add slash if needed". -/
def addSep (rooted : Bool) (out : GoString) : GoString :=
  if (rooted = true ∧ out.length ≠ 1) ∨ (rooted = false ∧ out.length ≠ 0) then
    out ++ [Separator]
  else out

/-- The buffer after a `..` element. -/
def dotdotOut (rooted : Bool) (out : GoString) (dotdot : Nat) : GoString :=
  if dotdot < out.length then out.take (filepath.backtrack out dotdot (out.length - 1))
  else if rooted = false then
    (if 0 < out.length then out ++ [Separator] else out) ++ [Dot, Dot]
  else out

/-- The index `dotdot` after a `..` element. -/
def dotdotIdx (rooted : Bool) (out : GoString) (dotdot : Nat) : Nat :=
  if dotdot < out.length then dotdot
  else if rooted = false then
    ((if 0 < out.length then out ++ [Separator] else out) ++ [Dot, Dot]).length
  else dotdot

/-- A path element that `Clean` copies: not empty, without separator, neither `.` nor
`..`. -/
def RealElem (e : GoString) : Prop :=
  e ≠ [] ∧ Separator ∉ e ∧ e ≠ [Dot] ∧ e ≠ [Dot, Dot]

/-- What the loop of `Clean` maintains: `dotdot` is an index into the buffer, and a rooted
path keeps its leading separator. -/
def CleanInv (rooted : Bool) (out : GoString) (dotdot : Nat) : Prop :=
  dotdot ≤ out.length ∧ (rooted = true → 1 ≤ dotdot)

/-- An entry is kept, or it was absent and is now a directory. -/
def Grown (fs fs' : FileSystem) : Prop :=
  fs'.cwd = fs.cwd ∧
    ∀ k, fs'.node k = fs.node k ∨ (fs.node k = none ∧ fs'.node k = some Node.dir)

/-- Two file systems with the same working directory and the same directories: path
resolution succeeds in one exactly when it does in the other. -/
def DirEquiv (fs fs' : FileSystem) : Prop :=
  fs'.cwd = fs.cwd ∧ ∀ k, fs'.entry k = some Node.dir ↔ fs.entry k = some Node.dir

/-- Two file systems that differ at most at the entry `k`, which is a directory in
neither. -/
def Sim (k : Key) (fs fs' : FileSystem) : Prop :=
  fs'.cwd = fs.cwd ∧ k ≠ [] ∧ (∀ q, q ≠ k → fs'.node q = fs.node q) ∧
    fs.node k ≠ some Node.dir ∧ fs'.node k ≠ some Node.dir

/-- The path with the given elements: a leading separator when rooted, then the elements
joined by separators. -/
def render (rooted : Bool) (comps : List GoString) : GoString :=
  (if rooted = true then [Separator] else []) ++ strings.Join comps [Separator]

/-- The buffer of `Clean` is a path of `n` elements `..` (none when rooted) followed by
real elements, and `dotdot` is the length of the part with the `..` elements. -/
def CleanShape (rooted : Bool) (out : GoString) (dotdot : Nat) : Prop :=
  ∃ (n : Nat) (names : List GoString),
    (rooted = true → n = 0) ∧ (∀ x ∈ names, RealElem x) ∧
    out = render rooted (List.replicate n [Dot, Dot] ++ names) ∧
    dotdot = (render rooted (List.replicate n [Dot, Dot])).length

/-! ## Concrete configurations, releases and worlds -/

/-- The configuration `grm -a asset.file -o output.file owner/repo`, that of the tests
(`newMockApplication`) with `.grm` for the temporary directory. -/
def mockApplication : application :=
  newApplication (str "owner/repo") (str "asset.file") (str "output.file")

/-- A release with two assets of the same name and different URLs. -/
def duplicateRelease : RepositoryRelease :=
  { TagName := some (str "v1")
    TarballURL := some (str "http://github.com/release/tarball.tar")
    Assets := [ { Name := some (str "B"), BrowserDownloadURL := some (str "http://h/b") },
                { Name := some (str "A"), BrowserDownloadURL := some (str "http://h/first") },
                { Name := some (str "A"), BrowserDownloadURL := some (str "http://h/second") } ] }

/-- The release served in `Test_AnApplicationCanFetchAReleaseAsset`, with a tag. -/
def testRelease : RepositoryRelease :=
  { TagName := some (str "tag1")
    TarballURL := some (str "http://github.com/release/tarball.tar")
    Assets := [ { Name := some (str "asset.file"),
                  BrowserDownloadURL := some (str "http://github.com/release/asset.file") } ] }

/-- A remote whose directory service knows `testRelease` and whose HTTP server answers every
GET with the body `ASSET`. -/
def testRemote : Remote :=
  { GetLatestRelease := fun _ _ => (some testRelease, none)
    Get := fun _ => .ok { body := str "ASSET", readErr := none } }

/-- A remote whose directory service knows `testRelease` and whose HTTP server is down. -/
def downRemote : Remote :=
  { GetLatestRelease := fun _ _ => (some testRelease, none)
    Get := fun url =>
      .error (str "Get " ++ url ++ str ": dial tcp: connection refused") }

/-- A remote whose directory service knows `testRelease` and whose HTTP server sends `ASS`
and then drops the connection. -/
def brokenStreamRemote : Remote :=
  { GetLatestRelease := fun _ _ => (some testRelease, none)
    Get := fun _ => .ok { body := str "ASS", readErr := some (str "unexpected EOF") } }

/-- A remote whose directory service fails; `http.Get` of the empty URL fails as in Go. -/
def lookupFailsRemote : Remote :=
  { GetLatestRelease := fun _ _ => (none, some (str "GET releases/latest: 404 Not Found"))
    Get := fun url =>
      if url = [] then .error (str "Get : unsupported protocol scheme \"\"")
      else .ok { body := str "ASSET", readErr := none } }

/-- The working directory `/work` with nothing in it, and room for a thousand bytes. -/
def emptyFS : FileSystem :=
  { node := fun k => if k = [str "work"] then some Node.dir else none
    cwd := [str "work"]
    free := 1000 }

/-- The working directory `/work` where the marker of `owner/repo` under `.grm` holds
`content`. -/
def markedFS (content : GoString) : FileSystem :=
  { node := fun k =>
      if k = [str "work"] then some Node.dir
      else if k = [str "work", str ".grm"] then some Node.dir
      else if k = [str "work", str ".grm", str "owner"] then some Node.dir
      else if k = [str "work", str ".grm", str "owner", str "repo"] then
        some (Node.file content true true)
      else none
    cwd := [str "work"]
    free := 1000 }

/-- The configuration `grm -o .grm/owner/repo owner/repo`: the requested output path is the
path of the tag marker. -/
def aliasedApplication : application :=
  newApplication (str "owner/repo") [] (str ".grm/owner/repo")

/-- The configuration `grm -o ./.grm/owner/repo owner/repo`: the requested output path is
another spelling of the path of the tag marker. -/
def dotAliasedApplication : application :=
  newApplication (str "owner/repo") [] (str "./.grm/owner/repo")

/-- The configuration `grm -o /work/.grm/owner/repo owner/repo`: the requested output path
is the absolute path of the tag marker. -/
def absAliasedApplication : application :=
  newApplication (str "owner/repo") [] (str "/work/.grm/owner/repo")

/-- The configuration `grm -o missing-dir/output.file owner/repo`. -/
def missingDirApplication : application :=
  newApplication (str "owner/repo") [] (str "missing-dir/output.file")

/-- The configuration `grm -o out.bin owner/repo`. -/
def tarballApplication : application :=
  newApplication (str "owner/repo") [] (str "out.bin")

/-- The configuration `grm -o . owner/repo`: the requested output path is a directory. -/
def dotOutputApplication : application :=
  newApplication (str "owner/repo") [] (str ".")

/-- The working directory `/work` with an earlier download at `out.bin` and no marker. -/
def downloadedFS : FileSystem :=
  { node := fun k =>
      if k = [str "work"] then some Node.dir
      else if k = [str "work", str "out.bin"] then
        some (Node.file (str "previous download") true true)
      else none
    cwd := [str "work"]
    free := 1000 }

/-- A file system whose marker of `owner/repo` under `.grm` is an empty file. -/
def emptyMarkerFS : FileSystem := markedFS []

/-- The empty working directory `/work` on a device with room for three bytes. -/
def fullFS : FileSystem := { emptyFS with free := 3 }

/-- The working directory `/work` where `.grm` is a regular file, so that no directory can
be made there. -/
def blockedFS : FileSystem :=
  { node := fun k =>
      if k = [str "work"] then some Node.dir
      else if k = [str "work", str ".grm"] then some (Node.file [] true true)
      else none
    cwd := [str "work"]
    free := 1000 }

/-- The configuration `grm -o .grm owner/repo`: the requested output path is the directory
under which the tag marker is kept. -/
def dirAliasedApplication : application :=
  newApplication (str "owner/repo") [] (str ".grm")

/-- A release tagged `tag1` that has no asset named `asset.file`. -/
def otherAssetRelease : RepositoryRelease :=
  { TagName := some (str "tag1")
    TarballURL := some (str "http://github.com/release/tarball.tar")
    Assets := [ { Name := some (str "other.file"),
                  BrowserDownloadURL := some (str "http://github.com/release/other.file") } ] }

/-- A remote whose directory service knows `otherAssetRelease`. -/
def otherAssetRemote : Remote :=
  { GetLatestRelease := fun _ _ => (some otherAssetRelease, none)
    Get := fun _ => .ok { body := str "ASSET", readErr := none } }

/-- The working directory `/work` where the marker path of `owner/repo` under `.grm` is a
directory. -/
def markerDirFS : FileSystem :=
  { node := fun k =>
      if k = [str "work"] then some Node.dir
      else if k = [str "work", str ".grm"] then some Node.dir
      else if k = [str "work", str ".grm", str "owner"] then some Node.dir
      else if k = [str "work", str ".grm", str "owner", str "repo"] then some Node.dir
      else none
    cwd := [str "work"]
    free := 1000 }

/-! ## Facts about `strings.Split` -/

theorem Split_ne_nil (s : GoString) (sep : Byte) : strings.Split s sep ≠ [] := by
  cases s with
  | nil => simp [strings.Split]
  | cons c cs =>
    unfold strings.Split
    split
    · simp
    · split <;> simp

theorem Split_of_not_mem (sep : Byte) :
    ∀ s : GoString, sep ∉ s → strings.Split s sep = [s] := by
  intro s
  induction s with
  | nil => intro _; rfl
  | cons c cs ih =>
    intro h
    have hc : ¬ c = sep := fun e => h (by simp [e])
    have hcs : sep ∉ cs := fun e => h (List.mem_cons_of_mem _ e)
    unfold strings.Split
    simp [hc, ih hcs]

theorem Split_cons_sep (sep : Byte) (cs : GoString) :
    strings.Split (sep :: cs) sep = [] :: strings.Split cs sep := by
  rw [strings.Split]; simp

theorem Split_cons_ne (sep c : Byte) (cs p : GoString) (ps : List GoString)
    (hc : c ≠ sep) (h : strings.Split cs sep = p :: ps) :
    strings.Split (c :: cs) sep = (c :: p) :: ps := by
  rw [strings.Split]; simp [hc, h]

theorem Split_append_sep (sep : Byte) (y : GoString) :
    ∀ x : GoString,
      strings.Split (x ++ sep :: y) sep = strings.Split x sep ++ strings.Split y sep := by
  intro x
  induction x with
  | nil => simp [Split_cons_sep, strings.Split]
  | cons c xs ih =>
    by_cases hc : c = sep
    · subst hc
      simp [Split_cons_sep, ih]
    · cases hx : strings.Split xs sep with
      | nil => exact absurd hx (Split_ne_nil xs sep)
      | cons p ps =>
        rw [hx] at ih
        rw [List.cons_append, Split_cons_ne sep c _ p (ps ++ strings.Split y sep) hc ih,
          Split_cons_ne sep c xs p ps hc hx]
        rfl

theorem Split_length (sep : Byte) :
    ∀ s : GoString, (strings.Split s sep).length = s.count sep + 1 := by
  intro s
  induction s with
  | nil => simp [strings.Split]
  | cons c cs ih =>
    unfold strings.Split
    by_cases hc : c = sep
    · subst hc
      simp [ih]
    · have hne : (c == sep) = false := by simpa using hc
      simp only [hc, if_false, List.count_cons, hne]
      cases hx : strings.Split cs sep with
      | nil => exact absurd hx (Split_ne_nil cs sep)
      | cons p ps =>
        rw [hx] at ih
        simpa using ih

/-- A string that contains `sep` is cut at its last occurrence. -/
theorem exists_last_sep (sep : Byte) (s : GoString) (h : sep ∈ s) :
    ∃ pre out, s = pre ++ sep :: out ∧ sep ∉ out := by
  have h2 : sep ∈ s.reverse := by simpa using h
  obtain ⟨xs, ys, hxy, hx⟩ := List.eq_append_cons_of_mem h2
  refine ⟨ys.reverse, xs.reverse, ?_, by simpa using hx⟩
  have := congrArg List.reverse hxy
  simpa using this

/-- Cutting at a separator is unambiguous when the left parts contain none. -/
theorem append_sep_inj (sep : Byte) :
    ∀ (o₁ o₂ r₁ r₂ : GoString), sep ∉ o₁ → sep ∉ o₂ →
      o₁ ++ sep :: r₁ = o₂ ++ sep :: r₂ → o₁ = o₂ ∧ r₁ = r₂ := by
  intro o₁
  induction o₁ with
  | nil =>
    intro o₂ r₁ r₂ _ h₂ h
    cases o₂ with
    | nil => simpa using h
    | cons c cs =>
      simp only [List.nil_append, List.cons_append, List.cons.injEq] at h
      exact absurd (by simp [h.1]) h₂
  | cons c cs ih =>
    intro o₂ r₁ r₂ h₁ h₂ h
    cases o₂ with
    | nil =>
      simp only [List.nil_append, List.cons_append, List.cons.injEq] at h
      exact absurd (by simp [h.1]) h₁
    | cons d ds =>
      simp only [List.cons_append, List.cons.injEq] at h
      have := ih ds r₁ r₂ (fun e => h₁ (List.mem_cons_of_mem _ e))
        (fun e => h₂ (List.mem_cons_of_mem _ e)) h.2
      exact ⟨by rw [h.1, this.1], this.2⟩

/-- Joining the pieces with the separator gives the string back. -/
theorem Join_Split (sep : Byte) :
    ∀ s : GoString, strings.Join (strings.Split s sep) [sep] = s := by
  intro s
  induction s with
  | nil => rfl
  | cons c cs ih =>
    cases hx : strings.Split cs sep with
    | nil => exact absurd hx (Split_ne_nil cs sep)
    | cons p ps =>
      rw [hx] at ih
      by_cases hc : c = sep
      · subst hc
        rw [Split_cons_sep, hx, strings.Join]
        · simp [ih]
        · simp
      · rw [Split_cons_ne sep c cs p ps hc hx]
        cases ps with
        | nil =>
          simp only [strings.Join] at ih ⊢
          rw [ih]
        | cons q qs =>
          rw [strings.Join] at ih ⊢
          · simp only [List.cons_append, List.append_assoc] at ih ⊢
            rw [ih]
          · simp
          · simp

/-! ## Facts about the pure helpers -/

theorem Split_of_count_one (s : GoString) (h : s.count Separator = 1) :
    ∃ owner repo, s = owner ++ Separator :: repo ∧
      strings.Split s Separator = [owner, repo] := by
  have hmem : Separator ∈ s := List.count_pos_iff.mp (by omega)
  obtain ⟨pre, out, hs, hout⟩ := exists_last_sep Separator s hmem
  have hpre : Separator ∉ pre := by
    intro hin
    have h1 : 0 < pre.count Separator := List.count_pos_iff.mpr hin
    rw [hs] at h
    simp [List.count_append, List.count_cons] at h
    omega
  refine ⟨pre, out, hs, ?_⟩
  rw [hs, Split_append_sep, Split_of_not_mem _ _ hpre, Split_of_not_mem _ _ hout]
  rfl

theorem Split_last (s : GoString) :
    ∃ out, (strings.Split s Separator)[(strings.Split s Separator).length - 1]? = some out ∧
      Separator ∉ out ∧
      (Separator ∉ s → out = s) ∧
      (Separator ∈ s → ∃ pre, s = pre ++ Separator :: out) := by
  by_cases hmem : Separator ∈ s
  · obtain ⟨pre, out, hs, hout⟩ := exists_last_sep Separator s hmem
    refine ⟨out, ?_, hout, fun h => absurd hmem h, fun _ => ⟨pre, hs⟩⟩
    rw [hs, Split_append_sep, Split_of_not_mem _ _ hout]
    simp
  · refine ⟨s, ?_, hmem, fun _ => rfl, fun h => absurd h hmem⟩
    rw [Split_of_not_mem _ _ hmem]
    simp

theorem findReleaseAsset_none (a : application) (name : GoString) :
    ∀ assets : List ReleaseAsset, (∀ x ∈ assets, x.GetName ≠ name) →
      findReleaseAsset a name assets =
        ({ Name := none, BrowserDownloadURL := none },
         some (str "Can\x27t find \x27" ++ name ++ str "\x27 in release assets")) := by
  intro assets
  induction assets with
  | nil => intro _; rfl
  | cons x xs ih =>
    intro h
    have hx : ¬ name = x.GetName := fun e => h x (by simp) e.symm
    rw [findReleaseAsset]
    simp only [hx, if_false]
    exact ih (fun y hy => h y (List.mem_cons_of_mem _ hy))

theorem findReleaseAsset_first (a : application) (name : GoString) (asset : ReleaseAsset)
    (post : List ReleaseAsset) (hname : asset.GetName = name) :
    ∀ pre : List ReleaseAsset, (∀ x ∈ pre, x.GetName ≠ name) →
      findReleaseAsset a name (pre ++ asset :: post) = (asset, none) := by
  intro pre
  induction pre with
  | nil =>
    intro _
    rw [List.nil_append, findReleaseAsset]
    simp [hname]
  | cons x xs ih =>
    intro h
    have hx : ¬ name = x.GetName := fun e => h x (by simp) e.symm
    rw [List.cons_append, findReleaseAsset]
    simp only [hx, if_false]
    exact ih (fun y hy => h y (List.mem_cons_of_mem _ hy))

/-- A list with a matching asset is cut at the first match. -/
theorem exists_first_asset (name : GoString) :
    ∀ assets : List ReleaseAsset, (∃ x ∈ assets, x.GetName = name) →
      ∃ pre asset post, assets = pre ++ asset :: post ∧
        (∀ x ∈ pre, x.GetName ≠ name) ∧ asset.GetName = name := by
  intro assets
  induction assets with
  | nil => rintro ⟨x, hx, _⟩; cases hx
  | cons y ys ih =>
    rintro ⟨x, hx, hn⟩
    by_cases hy : y.GetName = name
    · exact ⟨[], y, ys, rfl, by simp, hy⟩
    · have hx2 : x ∈ ys := by
        rcases List.mem_cons.mp hx with e | e
        · exact absurd (e ▸ hn) hy
        · exact e
      obtain ⟨pre, asset, post, h1, h2, h3⟩ := ih ⟨x, hx2, hn⟩
      refine ⟨y :: pre, asset, post, by simp [h1], ?_, h3⟩
      intro z hz
      rcases List.mem_cons.mp hz with e | e
      · exact e ▸ hy
      · exact h2 z e

theorem Split_pieces (sep : Byte) :
    ∀ s : GoString, ∀ p ∈ strings.Split s sep, sep ∉ p := by
  intro s
  induction s with
  | nil =>
    intro p hp
    simp only [strings.Split, List.mem_singleton] at hp
    subst hp
    simp
  | cons c cs ih =>
    intro p hp
    by_cases hc : c = sep
    · subst hc
      rw [Split_cons_sep] at hp
      rcases List.mem_cons.mp hp with e | e
      · subst e; simp
      · exact ih p e
    · cases hx : strings.Split cs sep with
      | nil => exact absurd hx (Split_ne_nil cs sep)
      | cons q qs =>
        rw [Split_cons_ne sep c cs q qs hc hx] at hp
        rw [hx] at ih
        rcases List.mem_cons.mp hp with e | e
        · subst e
          intro hmem
          rcases List.mem_cons.mp hmem with e2 | e2
          · exact hc e2.symm
          · exact ih q (by simp) e2
        · exact ih p (List.mem_cons_of_mem _ e)

/-- A successful `findOwnerAndRepo` returns the two pieces of the split. -/
theorem findOwnerAndRepo_ok (a : application) (input owner repo : GoString)
    (h : findOwnerAndRepo a input = .done (owner, repo, none)) :
    strings.Split input Separator = [owner, repo] := by
  unfold findOwnerAndRepo at h
  simp only at h
  split at h
  · simp at h
  · rename_i hlen
    have hlen2 : (strings.Split input Separator).length = 2 := by
      by_contra hcon
      exact hlen hcon
    match hs : strings.Split input Separator with
    | [] => rw [hs] at hlen2; simp at hlen2
    | [x] => rw [hs] at hlen2; simp at hlen2
    | [x, y] =>
      rw [hs] at h
      simp only [List.getElem?_cons_zero, List.getElem?_cons_succ, Outcome.done.injEq,
        Prod.mk.injEq, and_true] at h
      rw [h.1, h.2]
    | x :: y :: z :: rest => rw [hs] at hlen2; simp at hlen2

/-- The owner and the repo that `findOwnerAndRepo` returns contain no separator. -/
theorem findOwnerAndRepo_no_sep (a : application) (input owner repo : GoString)
    (h : findOwnerAndRepo a input = .done (owner, repo, none)) :
    Separator ∉ owner ∧ Separator ∉ repo := by
  have hs := findOwnerAndRepo_ok a input owner repo h
  have hp := Split_pieces Separator input
  rw [hs] at hp
  exact ⟨hp owner (by simp), hp repo (by simp)⟩

/-! ## Facts about path resolution and the file-system operations -/

theorem entry_root (fs : FileSystem) : fs.entry [] = some Node.dir := by
  simp [FileSystem.entry]

theorem entry_of_ne_nil (fs : FileSystem) (k : Key) (h : k ≠ []) : fs.entry k = fs.node k := by
  simp [FileSystem.entry, h]

theorem set_node_same (fs : FileSystem) (k : Key) (n : Node) :
    (fs.set k n).node k = some n := by
  simp [FileSystem.set]

theorem set_node_other (fs : FileSystem) (k q : Key) (n : Node) (h : q ≠ k) :
    (fs.set k n).node q = fs.node q := by
  simp [FileSystem.set, h]

theorem DirEquiv.self (fs : FileSystem) : DirEquiv fs fs := ⟨rfl, fun _ => Iff.rfl⟩

theorem DirEquiv.comp {fs₁ fs₂ fs₃ : FileSystem} (h₁ : DirEquiv fs₁ fs₂)
    (h₂ : DirEquiv fs₂ fs₃) : DirEquiv fs₁ fs₃ :=
  ⟨h₂.1.trans h₁.1, fun k => (h₂.2 k).trans (h₁.2 k)⟩

theorem DirEquiv.symm {fs₁ fs₂ : FileSystem} (h : DirEquiv fs₁ fs₂) : DirEquiv fs₂ fs₁ :=
  ⟨h.1.symm, fun k => (h.2 k).symm⟩

/-- Path resolution that succeeds still succeeds, with the same key, when every directory
is still a directory. -/
theorem walk_mono (fs fs' : FileSystem)
    (h : ∀ k, fs.entry k = some Node.dir → fs'.entry k = some Node.dir) :
    ∀ (comps : List GoString) (cur k : Key),
      fs.walk cur comps = .ok k → fs'.walk cur comps = .ok k := by
  intro comps
  induction comps with
  | nil => intro cur k hw; simpa [FileSystem.walk] using hw
  | cons c cs ih =>
    intro cur k hw
    rw [FileSystem.walk] at hw ⊢
    cases he : fs.entry cur with
    | none => rw [he] at hw; cases hw
    | some n =>
      cases n with
      | file _ _ _ => rw [he] at hw; cases hw
      | dir =>
        rw [he] at hw
        rw [h cur he]
        exact ih _ _ hw

theorem walk_congr (fs fs' : FileSystem) (h : DirEquiv fs fs') (comps : List GoString)
    (cur k : Key) : fs'.walk cur comps = .ok k ↔ fs.walk cur comps = .ok k :=
  ⟨walk_mono fs' fs (fun q hq => (h.2 q).mp hq) comps cur k,
   walk_mono fs fs' (fun q hq => (h.2 q).mpr hq) comps cur k⟩

/-- The key that path resolution returns is determined by the path elements. -/
theorem walk_key (fs : FileSystem) :
    ∀ (comps : List GoString) (cur k : Key),
      fs.walk cur comps = .ok k → k = comps.foldl stepKey cur := by
  intro comps
  induction comps with
  | nil =>
    intro cur k hw
    simp only [FileSystem.walk, Except.ok.injEq] at hw
    simp [hw]
  | cons c cs ih =>
    intro cur k hw
    rw [FileSystem.walk] at hw
    cases he : fs.entry cur with
    | none => rw [he] at hw; cases hw
    | some n =>
      cases n with
      | file _ _ _ => rw [he] at hw; cases hw
      | dir =>
        rw [he] at hw
        simpa using ih _ _ hw

theorem resolve_mono (fs fs' : FileSystem) (hcwd : fs'.cwd = fs.cwd)
    (h : ∀ k, fs.entry k = some Node.dir → fs'.entry k = some Node.dir)
    (name : GoString) (k : Key) (hr : fs.resolve name = .ok k) :
    fs'.resolve name = .ok k := by
  unfold FileSystem.resolve at hr ⊢
  split at hr
  · cases hr
  · rename_i hne
    rw [if_neg hne, hcwd]
    exact walk_mono fs fs' h _ _ _ hr

theorem resolve_congr (fs fs' : FileSystem) (h : DirEquiv fs fs') (name : GoString)
    (k : Key) : fs'.resolve name = .ok k ↔ fs.resolve name = .ok k :=
  ⟨resolve_mono fs' fs h.1.symm (fun q hq => (h.2 q).mp hq) name k,
   resolve_mono fs fs' h.1 (fun q hq => (h.2 q).mpr hq) name k⟩

theorem lookup_eq_some (fs : FileSystem) (name : GoString) (n : Node) :
    fs.lookup name = some n ↔ ∃ k, fs.resolve name = .ok k ∧ fs.entry k = some n := by
  unfold FileSystem.lookup
  cases hr : fs.resolve name with
  | error e => simp
  | ok k => simp

/-- The call `ioutil.ReadFile` succeeds exactly on a readable regular file, with its content. -/
theorem ReadFile_ok_iff (fs : FileSystem) (name content : GoString) :
    ioutil.ReadFile fs name = .ok content ↔
      ∃ writable, fs.lookup name = some (Node.file content true writable) := by
  unfold ioutil.ReadFile FileSystem.lookup
  cases hr : fs.resolve name with
  | error e => simp
  | ok k =>
    simp only
    split <;> rename_i h <;> simp [h]

/-- What `os.Create` does when it succeeds. -/
theorem Create_ok (fs fs' : FileSystem) (name : GoString) (f : File)
    (h : os.Create fs name = .ok (fs', f)) :
    f.name = name ∧ fs.resolve name = .ok f.key ∧ f.key ≠ [] ∧
      fs.node f.key ≠ some Node.dir ∧
      fs'.node f.key = some (Node.file [] true true) ∧
      (∀ q, q ≠ f.key → fs'.node q = fs.node q) ∧
      fs'.cwd = fs.cwd ∧ fs.free ≤ fs'.free := by
  unfold os.Create at h
  cases hr : fs.resolve name with
  | error e => rw [hr] at h; cases h
  | ok k =>
    rw [hr] at h
    simp only at h
    have hroot : k ≠ [] → fs.entry k = fs.node k := entry_of_ne_nil fs k
    cases he : fs.entry k with
    | none =>
      rw [he] at h
      simp only at h
      have hk : k ≠ [] := by
        intro hk
        rw [hk, entry_root] at he
        cases he
      split at h
      · simp only [Except.ok.injEq, Prod.mk.injEq] at h
        obtain ⟨rfl, rfl⟩ := h
        refine ⟨rfl, rfl, hk, ?_, by simp [FileSystem.set], ?_, rfl, Nat.le_refl _⟩
        · rw [← hroot hk, he]; simp
        · intro q hq; simp [FileSystem.set, hq]
      · cases h
    | some n =>
      rw [he] at h
      cases n with
      | dir => cases h
      | file content readable writable =>
        simp only at h
        have hk : k ≠ [] := by
          intro hk
          rw [hk, entry_root] at he
          cases he
        split at h
        · rename_i hrw
          simp only [Except.ok.injEq, Prod.mk.injEq] at h
          obtain ⟨rfl, rfl⟩ := h
          refine ⟨rfl, rfl, hk, ?_, by simp [FileSystem.set, hrw.1, hrw.2], ?_, rfl,
            Nat.le_add_right _ _⟩
          · rw [← hroot hk, he]; simp
          · intro q hq; simp [FileSystem.set, hq]
        · cases h

/-- A successful `os.Create` changes no directory. -/
theorem Create_dirEquiv (fs fs' : FileSystem) (name : GoString) (f : File)
    (h : os.Create fs name = .ok (fs', f)) : DirEquiv fs fs' := by
  obtain ⟨_, _, hk, hnd, hnode, hother, hcwd, _⟩ := Create_ok fs fs' name f h
  refine ⟨hcwd, ?_⟩
  intro q
  by_cases hq : q = f.key
  · subst hq
    rw [entry_of_ne_nil _ _ hk, entry_of_ne_nil _ _ hk, hnode]
    constructor
    · intro hc; cases hc
    · intro hc; exact absurd hc hnd
  · by_cases hq0 : q = []
    · rw [hq0, entry_root, entry_root]
    · rw [entry_of_ne_nil _ _ hq0, entry_of_ne_nil _ _ hq0, hother q hq]

/-- The call `os.Write` changes no other entry, nor the working directory. -/
theorem Write_other (fs : FileSystem) (f : File) (data : GoString) :
    (os.Write fs f data).1.cwd = fs.cwd ∧
      ∀ q, q ≠ f.key → (os.Write fs f data).1.node q = fs.node q := by
  unfold os.Write
  split
  · split <;> exact ⟨rfl, fun q hq => by simp [FileSystem.set, hq]⟩
  · exact ⟨rfl, fun _ _ => rfl⟩

/-- A successful `os.Write` appends all the bytes. -/
theorem Write_ok_node (fs : FileSystem) (f : File) (data content : GoString) (r w : Bool)
    (hnode : fs.node f.key = some (Node.file content r w))
    (h : (os.Write fs f data).2 = none) :
    (os.Write fs f data).1.node f.key = some (Node.file (content ++ data) r w) := by
  unfold os.Write at h ⊢
  rw [hnode] at h ⊢
  simp only at h ⊢
  split
  · simp [FileSystem.set]
  · rename_i hfree
    simp [hfree] at h

/-- The call `os.Write` leaves a regular file in place, with its permissions. -/
theorem Write_keeps_file (fs : FileSystem) (f : File) (data content : GoString) (r w : Bool)
    (hnode : fs.node f.key = some (Node.file content r w)) :
    ∃ content', (os.Write fs f data).1.node f.key = some (Node.file content' r w) ∧
      content <+: content' := by
  unfold os.Write
  rw [hnode]
  simp only
  split
  · exact ⟨content ++ data, by simp [FileSystem.set], by simp⟩
  · exact ⟨content ++ data.take fs.free, by simp [FileSystem.set], by simp⟩

/-- A write with room on the device succeeds. -/
theorem Write_room (fs : FileSystem) (f : File) (data content : GoString) (r w : Bool)
    (hnode : fs.node f.key = some (Node.file content r w)) (hfree : data.length ≤ fs.free) :
    (os.Write fs f data).2 = none ∧
      (os.Write fs f data).1.free = fs.free - data.length := by
  unfold os.Write
  rw [hnode]
  simp [hfree]

/-- The call `os.Write` changes no directory. -/
theorem Write_dirEquiv (fs : FileSystem) (f : File) (data : GoString) :
    DirEquiv fs (os.Write fs f data).1 := by
  obtain ⟨hcwd, hother⟩ := Write_other fs f data
  refine ⟨hcwd, ?_⟩
  intro q
  by_cases hq0 : q = []
  · rw [hq0, entry_root, entry_root]
  · rw [entry_of_ne_nil _ _ hq0, entry_of_ne_nil _ _ hq0]
    by_cases hq : q = f.key
    · subst hq
      cases hn : fs.node f.key with
      | none =>
        have : (os.Write fs f data).1 = fs := by
          unfold os.Write; rw [hn]
        rw [this, hn]
      | some n =>
        cases n with
        | dir =>
          have : (os.Write fs f data).1 = fs := by
            unfold os.Write; rw [hn]
          rw [this, hn]
        | file content r w =>
          obtain ⟨c', hc', _⟩ := Write_keeps_file fs f data content r w hn
          rw [hc']
          constructor <;> intro hc <;> cases hc
    · rw [hother q hq]

theorem Grown.same (fs : FileSystem) : Grown fs fs := ⟨rfl, fun _ => Or.inl rfl⟩

theorem Grown.chain {fs₁ fs₂ fs₃ : FileSystem} (h₁ : Grown fs₁ fs₂) (h₂ : Grown fs₂ fs₃) :
    Grown fs₁ fs₃ := by
  refine ⟨h₂.1.trans h₁.1, ?_⟩
  intro p
  rcases h₁.2 p with e₁ | ⟨n₁, d₁⟩
  · rcases h₂.2 p with e₂ | ⟨n₂, d₂⟩
    · exact Or.inl (e₂.trans e₁)
    · exact Or.inr ⟨e₁ ▸ n₂, d₂⟩
  · rcases h₂.2 p with e₂ | ⟨n₂, _⟩
    · exact Or.inr ⟨n₁, e₂.trans d₁⟩
    · rw [d₁] at n₂; cases n₂

/-- In a grown file system every directory is still a directory. -/
theorem Grown.dir {fs fs' : FileSystem} (h : Grown fs fs') (k : Key)
    (hd : fs.entry k = some Node.dir) : fs'.entry k = some Node.dir := by
  by_cases hk : k = []
  · rw [hk, entry_root]
  · rw [entry_of_ne_nil _ _ hk] at hd ⊢
    rcases h.2 k with e | ⟨hn, _⟩
    · rw [e, hd]
    · rw [hn] at hd; cases hd

theorem Mkdir_grown (fs : FileSystem) (name : GoString) : Grown fs (os.Mkdir fs name).1 := by
  unfold os.Mkdir
  cases hr : fs.resolve (os.dropTrailingSep name) with
  | error e => exact Grown.same fs
  | ok k =>
    simp only
    cases he : fs.entry k with
    | some n => exact Grown.same fs
    | none =>
      simp only
      split
      · refine ⟨rfl, ?_⟩
        intro p
        by_cases hp : p = k
        · subst hp
          right
          have hk : p ≠ [] := by
            intro hk
            rw [hk, entry_root] at he
            cases he
          rw [entry_of_ne_nil _ _ hk] at he
          exact ⟨he, by simp [FileSystem.set]⟩
        · left
          simp [FileSystem.set, hp]
      · exact Grown.same fs

theorem Mkdir_free (fs : FileSystem) (name : GoString) :
    (os.Mkdir fs name).1.free = fs.free := by
  unfold os.Mkdir
  cases hr : fs.resolve (os.dropTrailingSep name) with
  | error e => rfl
  | ok k =>
    simp only
    cases he : fs.entry k with
    | some n => rfl
    | none =>
      simp only
      split <;> rfl

theorem mkdirLast_fs (fs : FileSystem) (path : GoString) :
    (os.mkdirLast fs path).1 = (os.Mkdir fs path).1 := by
  unfold os.mkdirLast
  cases h : os.Mkdir fs path with
  | mk fs1 e =>
    cases e with
    | none => rfl
    | some err =>
      simp only
      split <;> rfl

theorem mkdirLast_of_ok (fs : FileSystem) (path : GoString) (h : (os.Mkdir fs path).2 = none) :
    os.mkdirLast fs path = os.Mkdir fs path := by
  unfold os.mkdirLast
  cases hm : os.Mkdir fs path with
  | mk fs1 e =>
    rw [hm] at h
    simp only at h
    subst h
    rfl

theorem mkdirAllAux_grown :
    ∀ (fuel : Nat) (fs : FileSystem) (path : GoString),
      Grown fs (os.mkdirAllAux fuel fs path).1 ∧
        (os.mkdirAllAux fuel fs path).1.free = fs.free := by
  intro fuel
  induction fuel with
  | zero => intro fs path; exact ⟨Grown.same fs, rfl⟩
  | succ n ih =>
    intro fs path
    rw [os.mkdirAllAux]
    split
    · exact ⟨Grown.same fs, rfl⟩
    · exact ⟨Grown.same fs, rfl⟩
    · simp only
      split
      · have hrec := ih fs (path.take (filepath.dirLen path (os.trimSep path path.length) - 1))
        split
        · rename_i fs1 err heq
          rw [heq] at hrec
          exact hrec
        · rename_i fs1 heq
          rw [heq] at hrec
          rw [mkdirLast_fs]
          exact ⟨Grown.chain hrec.1 (Mkdir_grown fs1 path),
            (Mkdir_free fs1 path).trans hrec.2⟩
      · rw [mkdirLast_fs]
        exact ⟨Mkdir_grown fs path, Mkdir_free fs path⟩

/-- The call `os.MkdirAll` keeps every entry that exists, and only adds directories. -/
theorem MkdirAll_grown (fs : FileSystem) (path : GoString) :
    Grown fs (os.MkdirAll fs path).1 :=
  (mkdirAllAux_grown _ fs path).1

theorem MkdirAll_free (fs : FileSystem) (path : GoString) :
    (os.MkdirAll fs path).1.free = fs.free :=
  (mkdirAllAux_grown _ fs path).2

theorem dirLen_le (path : GoString) : ∀ i, filepath.dirLen path i ≤ i := by
  intro i
  induction i with
  | zero => simp [filepath.dirLen]
  | succ n ih =>
    rw [filepath.dirLen]
    split
    · exact Nat.le_refl _
    · exact Nat.le_succ_of_le ih

theorem trimSep_le (path : GoString) : ∀ i, os.trimSep path i ≤ i := by
  intro i
  induction i with
  | zero => simp [os.trimSep]
  | succ n ih =>
    rw [os.trimSep]
    split
    · exact Nat.le_succ_of_le ih
    · exact Nat.le_refl _

/-- The recursion of `os.MkdirAll` never runs out of fuel: from `len(path) + 1` on, more
fuel changes nothing. -/
theorem mkdirAllAux_fuel :
    ∀ (n : Nat) (path : GoString), path.length ≤ n →
      ∀ (f₁ f₂ : Nat) (fs : FileSystem), path.length < f₁ → path.length < f₂ →
        os.mkdirAllAux f₁ fs path = os.mkdirAllAux f₂ fs path := by
  intro n
  induction n with
  | zero =>
    intro path hn f₁ f₂ fs h₁ h₂
    have : path = [] := List.length_eq_zero.mp (Nat.le_zero.mp hn)
    subst this
    obtain ⟨g₁, rfl⟩ : ∃ g, f₁ = g + 1 := ⟨f₁ - 1, by omega⟩
    obtain ⟨g₂, rfl⟩ : ∃ g, f₂ = g + 1 := ⟨f₂ - 1, by omega⟩
    simp [os.mkdirAllAux, os.trimSep, filepath.dirLen]
  | succ n ih =>
    intro path hn f₁ f₂ fs h₁ h₂
    obtain ⟨g₁, rfl⟩ : ∃ g, f₁ = g + 1 := ⟨f₁ - 1, by omega⟩
    obtain ⟨g₂, rfl⟩ : ∃ g, f₂ = g + 1 := ⟨f₂ - 1, by omega⟩
    have hj := dirLen_le path (os.trimSep path path.length)
    have hi := trimSep_le path path.length
    rw [os.mkdirAllAux, os.mkdirAllAux]
    split
    · rfl
    · rfl
    · simp only
      split
      · rename_i hlt
        have hlen : (path.take (filepath.dirLen path (os.trimSep path path.length) - 1)).length
            ≤ filepath.dirLen path (os.trimSep path path.length) - 1 := by
          rw [List.length_take]
          exact Nat.min_le_left _ _
        rw [ih _ (by omega) g₁ g₂ fs (by omega) (by omega)]
      · rfl

/-! ### Trailing separators -/

theorem Split_seps (sep : Byte) :
    ∀ m : Nat, strings.Split (List.replicate m sep) sep = List.replicate (m + 1) [] := by
  intro m
  induction m with
  | zero => rfl
  | succ m ih => rw [List.replicate_succ, Split_cons_sep, ih]; rfl

theorem Split_trailing (sep : Byte) (t : GoString) :
    ∀ m : Nat, strings.Split (t ++ List.replicate (m + 1) sep) sep =
      strings.Split t sep ++ List.replicate (m + 1) [] := by
  intro m
  rw [List.replicate_succ, Split_append_sep, Split_seps]

theorem take_trimSep (path : GoString) :
    ∀ i, i ≤ path.length →
      path.take i = path.take (os.trimSep path i) ++
        List.replicate (i - os.trimSep path i) Separator := by
  intro i
  induction i with
  | zero => intro _; simp [os.trimSep]
  | succ n ih =>
    intro hi
    rw [os.trimSep]
    split
    · rename_i hsep
      have hlt : n < path.length := by omega
      have hget : path[n] = Separator := by
        rw [List.getElem?_eq_getElem hlt] at hsep
        exact Option.some.inj hsep
      have hle := trimSep_le path n
      rw [List.take_succ, List.getElem?_eq_getElem hlt, hget, ih (by omega)]
      have : n + 1 - os.trimSep path n = (n - os.trimSep path n) + 1 := by omega
      rw [this, List.replicate_succ']
      simp
    · simp

theorem walk_empties (fs : FileSystem) :
    ∀ (m : Nat) (cur q : Key),
      fs.walk cur (List.replicate m ([] : GoString)) = .ok q → q = cur := by
  intro m
  induction m with
  | zero =>
    intro cur q h
    simp only [List.replicate_zero, FileSystem.walk] at h
    injection h with h
    exact h.symm
  | succ m ih =>
    intro cur q h
    rw [List.replicate_succ, FileSystem.walk] at h
    cases he : fs.entry cur with
    | none => rw [he] at h; cases h
    | some nd =>
      rw [he] at h
      cases nd with
      | file c r x => cases h
      | dir =>
        simp only at h
        have hstep : stepKey cur [] = cur := by
          unfold stepKey
          rw [if_pos (Or.inl rfl)]
        rw [hstep] at h
        exact ih cur q h

theorem walk_append_empties (fs : FileSystem) (m : Nat) :
    ∀ (cs : List GoString) (cur q : Key),
      fs.walk cur (cs ++ List.replicate m ([] : GoString)) = .ok q →
        fs.walk cur cs = .ok q := by
  intro cs
  induction cs with
  | nil =>
    intro cur q h
    rw [List.nil_append] at h
    rw [walk_empties fs m cur q h]
    rfl
  | cons c cs ih =>
    intro cur q h
    rw [List.cons_append, FileSystem.walk] at h
    rw [FileSystem.walk]
    cases he : fs.entry cur with
    | none => rw [he] at h; cases h
    | some nd =>
      rw [he] at h
      cases nd with
      | file c r x => cases h
      | dir =>
        simp only at h ⊢
        exact ih _ q h

/-- A path that resolves also resolves, to the same entry, without its trailing
separators. -/
theorem resolve_dropTrailingSep (fs : FileSystem) (path : GoString) (q : Key)
    (h : fs.resolve path = .ok q) : fs.resolve (os.dropTrailingSep path) = .ok q := by
  unfold os.dropTrailingSep
  split
  · exact h
  · rename_i h0
    have hle := trimSep_le path path.length
    have hsplit := take_trimSep path path.length (Nat.le_refl _)
    rw [List.take_length] at hsplit
    by_cases hm : path.length - os.trimSep path path.length = 0
    · have : os.trimSep path path.length = path.length := by omega
      rw [this, List.take_length]
      exact h
    · obtain ⟨m, hm'⟩ : ∃ m, path.length - os.trimSep path path.length = m + 1 :=
        ⟨path.length - os.trimSep path path.length - 1, by omega⟩
      rw [hm'] at hsplit
      have hne : path.take (os.trimSep path path.length) ≠ [] := by
        intro hc
        have := congrArg List.length hc
        rw [List.length_take] at this
        simp only [List.length_nil] at this
        omega
      have hpne : path ≠ [] := by
        intro hc
        rw [hc] at hne
        simp at hne
      have hhead : path.head? = (path.take (os.trimSep path path.length)).head? := by
        conv_lhs => rw [hsplit]
        cases hx : path.take (os.trimSep path path.length) with
        | nil => exact absurd hx hne
        | cons c cs => rfl
      unfold FileSystem.resolve at h ⊢
      rw [if_neg hpne] at h
      rw [if_neg hne, ← hhead]
      apply walk_append_empties fs (m + 1)
      rw [← Split_trailing, ← hsplit]
      exact h

/-! ## Facts about the methods with effects -/

theorem assertTag_world (a : application) (owner repo tag : GoString) (w : World) :
    (assertTag a owner repo tag w).2 =
      w.logged (.readFile (filepath.Join [a.workingDir, owner, repo])) := by
  unfold assertTag World.ReadFile
  simp only
  split
  · split <;> simp_all
  · simp_all

theorem assertTag_error_iff (a : application) (owner repo tag : GoString) (w : World) :
    (assertTag a owner repo tag w).1 = some (str "Already up to date, nothing to download") ↔
      ioutil.ReadFile w.fs (filepath.Join [a.workingDir, owner, repo]) = .ok tag := by
  unfold assertTag World.ReadFile
  simp only
  split
  · rename_i content w1 heq
    simp only [Prod.mk.injEq] at heq
    rw [heq.1]
    split <;> simp_all
  · rename_i err w1 heq
    simp only [Prod.mk.injEq] at heq
    rw [heq.1]
    simp

theorem assertTag_none_iff (a : application) (owner repo tag : GoString) (w : World) :
    (assertTag a owner repo tag w).1 = none ↔
      ioutil.ReadFile w.fs (filepath.Join [a.workingDir, owner, repo]) ≠ .ok tag := by
  unfold assertTag World.ReadFile
  simp only
  split
  · rename_i content w1 heq
    simp only [Prod.mk.injEq] at heq
    rw [heq.1]
    split <;> simp_all
  · rename_i err w1 heq
    simp only [Prod.mk.injEq] at heq
    rw [heq.1]
    simp

theorem assertTag_result (a : application) (owner repo tag : GoString) (w : World) :
    (assertTag a owner repo tag w).1 =
      if ioutil.ReadFile w.fs (filepath.Join [a.workingDir, owner, repo]) = .ok tag then
        some (str "Already up to date, nothing to download")
      else none := by
  split
  · rename_i h
    exact (assertTag_error_iff a owner repo tag w).mpr h
  · rename_i h
    exact (assertTag_none_iff a owner repo tag w).mpr h

/-- The function `downloadFile` when the output file cannot be created. -/
theorem downloadFile_create_failed (a : application) (env : Remote) (output url : GoString)
    (w : World) (e : GoError) (hcr : os.Create w.fs output = .error e) :
    downloadFile a env output url w = (some e, w.logged (.create output)) := by
  unfold downloadFile World.Create
  rw [hcr]

/-- The function `downloadFile` when the GET fails. -/
theorem downloadFile_get_failed (a : application) (env : Remote) (output url : GoString)
    (w : World) (fs1 : FileSystem) (f : File) (e : GoError)
    (hcr : os.Create w.fs output = .ok (fs1, f)) (hget : env.Get url = .error e) :
    downloadFile a env output url w =
      (some e, { fs := fs1, calls := w.calls ++ [.create output, .httpGet url] }) := by
  unfold downloadFile World.Create World.Get World.logged
  rw [hcr]
  simp [hget]

/-- The function `downloadFile` when the write of the body fails. -/
theorem downloadFile_write_failed (a : application) (env : Remote) (output url : GoString)
    (w : World) (fs1 : FileSystem) (f : File) (resp : Response) (e : GoError)
    (hcr : os.Create w.fs output = .ok (fs1, f)) (hget : env.Get url = .ok resp)
    (hwr : (os.Write fs1 f resp.body).2 = some e) :
    downloadFile a env output url w =
      (some e, { fs := (os.Write fs1 f resp.body).1,
                 calls := w.calls ++ [.create output, .httpGet url,
                   .write f.name resp.body] }) := by
  unfold downloadFile World.Create World.Get World.logged ioCopy World.Write
  rw [hcr]
  simp [hget, hwr]

/-- The function `downloadFile` when the body is written: the result is the read error of the stream. -/
theorem downloadFile_written (a : application) (env : Remote) (output url : GoString)
    (w : World) (fs1 : FileSystem) (f : File) (resp : Response)
    (hcr : os.Create w.fs output = .ok (fs1, f)) (hget : env.Get url = .ok resp)
    (hwr : (os.Write fs1 f resp.body).2 = none) :
    downloadFile a env output url w =
      (resp.readErr, { fs := (os.Write fs1 f resp.body).1,
                       calls := w.calls ++ [.create output, .httpGet url,
                         .write f.name resp.body] }) := by
  unfold downloadFile World.Create World.Get World.logged ioCopy World.Write
  rw [hcr]
  simp [hget, hwr]

/-- Whatever `downloadFile` returns, it changes no directory, and no entry but the one the
output path resolves to. -/
theorem downloadFile_frame (a : application) (env : Remote) (output url : GoString)
    (w : World) :
    DirEquiv w.fs (downloadFile a env output url w).2.fs ∧
      ∀ q, w.fs.resolve output ≠ .ok q →
        (downloadFile a env output url w).2.fs.node q = w.fs.node q := by
  cases hcr : os.Create w.fs output with
  | error e =>
    rw [downloadFile_create_failed a env output url w e hcr]
    exact ⟨DirEquiv.self _, fun _ _ => rfl⟩
  | ok p =>
    obtain ⟨fs1, f⟩ := p
    obtain ⟨_, hres, _, _, _, hother, _, _⟩ := Create_ok _ _ _ _ hcr
    have hde := Create_dirEquiv _ _ _ _ hcr
    have hq : ∀ q, w.fs.resolve output ≠ .ok q → q ≠ f.key := by
      intro q hq hqk
      exact hq (hqk ▸ hres)
    cases hget : env.Get url with
    | error e =>
      rw [downloadFile_get_failed a env output url w fs1 f e hcr hget]
      exact ⟨hde, fun q h => hother q (hq q h)⟩
    | ok resp =>
      have hw := Write_other fs1 f resp.body
      have hwd := Write_dirEquiv fs1 f resp.body
      cases hwr : (os.Write fs1 f resp.body).2 with
      | some e =>
        rw [downloadFile_write_failed a env output url w fs1 f resp e hcr hget hwr]
        exact ⟨hde.comp hwd, fun q h => (hw.2 q (hq q h)).trans (hother q (hq q h))⟩
      | none =>
        rw [downloadFile_written a env output url w fs1 f resp hcr hget hwr]
        exact ⟨hde.comp hwd, fun q h => (hw.2 q (hq q h)).trans (hother q (hq q h))⟩

/-- The calls of `downloadFile`: on the output path and the URL only, in the order create,
GET, write. -/
theorem downloadFile_calls (a : application) (env : Remote) (output url : GoString)
    (w : World) :
    ∃ dl, (downloadFile a env output url w).2.calls = w.calls ++ dl ∧
      (dl = [.create output] ∨ dl = [.create output, .httpGet url] ∨
        ∃ data, dl = [.create output, .httpGet url, .write output data]) := by
  cases hcr : os.Create w.fs output with
  | error e =>
    rw [downloadFile_create_failed a env output url w e hcr]
    exact ⟨[.create output], rfl, Or.inl rfl⟩
  | ok p =>
    obtain ⟨fs1, f⟩ := p
    obtain ⟨hname, _⟩ := Create_ok _ _ _ _ hcr
    cases hget : env.Get url with
    | error e =>
      rw [downloadFile_get_failed a env output url w fs1 f e hcr hget]
      exact ⟨[.create output, .httpGet url], rfl, Or.inr (Or.inl rfl)⟩
    | ok resp =>
      cases hwr : (os.Write fs1 f resp.body).2 with
      | some e =>
        rw [downloadFile_write_failed a env output url w fs1 f resp e hcr hget hwr, hname]
        exact ⟨_, rfl, Or.inr (Or.inr ⟨resp.body, rfl⟩)⟩
      | none =>
        rw [downloadFile_written a env output url w fs1 f resp hcr hget hwr, hname]
        exact ⟨_, rfl, Or.inr (Or.inr ⟨resp.body, rfl⟩)⟩

/-- Once `os.Create` has made the output file, `downloadFile` leaves a regular file there,
whatever it returns. -/
theorem downloadFile_leaves_file (a : application) (env : Remote) (output url : GoString)
    (w : World) (fs1 : FileSystem) (f : File) (hcr : os.Create w.fs output = .ok (fs1, f)) :
    ∃ content, (downloadFile a env output url w).2.fs.node f.key =
      some (Node.file content true true) := by
  obtain ⟨_, _, _, _, hnode, _⟩ := Create_ok _ _ _ _ hcr
  cases hget : env.Get url with
  | error e =>
    rw [downloadFile_get_failed a env output url w fs1 f e hcr hget]
    exact ⟨[], hnode⟩
  | ok resp =>
    obtain ⟨content, hc, _⟩ := Write_keeps_file fs1 f resp.body [] true true hnode
    cases hwr : (os.Write fs1 f resp.body).2 with
    | some e =>
      rw [downloadFile_write_failed a env output url w fs1 f resp e hcr hget hwr]
      exact ⟨content, hc⟩
    | none =>
      rw [downloadFile_written a env output url w fs1 f resp hcr hget hwr]
      exact ⟨content, hc⟩

/-- The function `writeTag` when `os.MkdirAll` fails. -/
theorem writeTag_mkdir_failed (a : application) (owner repo tag : GoString) (w : World)
    (e : GoError)
    (hmk : (os.MkdirAll w.fs
      (filepath.Dir (filepath.Join [a.workingDir, owner, repo]))).2 = some e) :
    writeTag a owner repo tag w =
      (some e, { fs := (os.MkdirAll w.fs
                   (filepath.Dir (filepath.Join [a.workingDir, owner, repo]))).1,
                 calls := w.calls ++
                   [.mkdirAll (filepath.Dir (filepath.Join [a.workingDir, owner, repo]))] }) := by
  unfold writeTag World.MkdirAll
  simp [hmk]

/-- The function `writeTag` when the marker file cannot be created. -/
theorem writeTag_create_failed (a : application) (owner repo tag : GoString) (w : World)
    (e : GoError)
    (hmk : (os.MkdirAll w.fs
      (filepath.Dir (filepath.Join [a.workingDir, owner, repo]))).2 = none)
    (hcr : os.Create (os.MkdirAll w.fs
      (filepath.Dir (filepath.Join [a.workingDir, owner, repo]))).1
      (filepath.Join [a.workingDir, owner, repo]) = .error e) :
    writeTag a owner repo tag w =
      (some e, { fs := (os.MkdirAll w.fs
                   (filepath.Dir (filepath.Join [a.workingDir, owner, repo]))).1,
                 calls := w.calls ++
                   [.mkdirAll (filepath.Dir (filepath.Join [a.workingDir, owner, repo])),
                    .create (filepath.Join [a.workingDir, owner, repo])] }) := by
  unfold writeTag World.MkdirAll World.Create World.logged
  simp [hmk, hcr]

/-- The function `writeTag` when the marker file is created: the result is that of the write. -/
theorem writeTag_created (a : application) (owner repo tag : GoString) (w : World)
    (fs2 : FileSystem) (f : File)
    (hmk : (os.MkdirAll w.fs
      (filepath.Dir (filepath.Join [a.workingDir, owner, repo]))).2 = none)
    (hcr : os.Create (os.MkdirAll w.fs
      (filepath.Dir (filepath.Join [a.workingDir, owner, repo]))).1
      (filepath.Join [a.workingDir, owner, repo]) = .ok (fs2, f)) :
    writeTag a owner repo tag w =
      ((os.Write fs2 f tag).2.map (fun err =>
          str "Failed to write tag to " ++ filepath.Join [a.workingDir, owner, repo] ++
            str ": " ++ err),
       { fs := (os.Write fs2 f tag).1,
         calls := w.calls ++
           [.mkdirAll (filepath.Dir (filepath.Join [a.workingDir, owner, repo])),
            .create (filepath.Join [a.workingDir, owner, repo]),
            .write f.name tag] }) := by
  unfold writeTag World.MkdirAll World.Create World.logged World.Write
  simp only [hmk, hcr]
  cases hwr : (os.Write fs2 f tag).2 <;> simp

/-- The steps of a `writeTag` that returns no error. -/
theorem writeTag_ok_steps (a : application) (owner repo tag : GoString) (w : World)
    (h : (writeTag a owner repo tag w).1 = none) :
    ∃ fs2 f,
      (os.MkdirAll w.fs
          (filepath.Dir (filepath.Join [a.workingDir, owner, repo]))).2 = none ∧
      os.Create (os.MkdirAll w.fs
          (filepath.Dir (filepath.Join [a.workingDir, owner, repo]))).1
          (filepath.Join [a.workingDir, owner, repo]) = .ok (fs2, f) ∧
      (os.Write fs2 f tag).2 = none ∧
      (writeTag a owner repo tag w).2.fs = (os.Write fs2 f tag).1 := by
  cases hmk : (os.MkdirAll w.fs
      (filepath.Dir (filepath.Join [a.workingDir, owner, repo]))).2 with
  | some e =>
    rw [writeTag_mkdir_failed a owner repo tag w e hmk] at h
    cases h
  | none =>
    cases hcr : os.Create (os.MkdirAll w.fs
        (filepath.Dir (filepath.Join [a.workingDir, owner, repo]))).1
        (filepath.Join [a.workingDir, owner, repo]) with
    | error e =>
      rw [writeTag_create_failed a owner repo tag w e hmk hcr] at h
      cases h
    | ok p =>
      obtain ⟨fs2, f⟩ := p
      rw [writeTag_created a owner repo tag w fs2 f hmk hcr] at h ⊢
      refine ⟨fs2, f, rfl, rfl, ?_, rfl⟩
      cases hwr : (os.Write fs2 f tag).2 with
      | none => rfl
      | some e => rw [hwr] at h; cases h

/-- After a `writeTag` that returns no error the marker path names a readable file that
holds exactly the tag. -/
theorem writeTag_ok_lookup (a : application) (owner repo tag : GoString) (w : World)
    (h : (writeTag a owner repo tag w).1 = none) :
    (writeTag a owner repo tag w).2.fs.lookup (filepath.Join [a.workingDir, owner, repo]) =
      some (Node.file tag true true) := by
  obtain ⟨fs2, f, _, hcr, hwr, hfs⟩ := writeTag_ok_steps a owner repo tag w h
  obtain ⟨_, hres, hk, _, hnode, _, _, _⟩ := Create_ok _ _ _ _ hcr
  have hde := (Create_dirEquiv _ _ _ _ hcr).comp (Write_dirEquiv fs2 f tag)
  rw [hfs, lookup_eq_some]
  refine ⟨f.key, (resolve_congr _ _ hde _ _).mpr hres, ?_⟩
  rw [entry_of_ne_nil _ _ hk]
  have := Write_ok_node fs2 f tag [] true true hnode hwr
  simpa using this

/-- The calls of `writeTag`, in order: `MkdirAll`, then `Create`, then the write. -/
theorem writeTag_calls (a : application) (owner repo tag : GoString) (w : World) :
    ∃ wt, (writeTag a owner repo tag w).2.calls = w.calls ++ wt ∧
      wt <+: [.mkdirAll (filepath.Dir (filepath.Join [a.workingDir, owner, repo])),
              .create (filepath.Join [a.workingDir, owner, repo]),
              .write (filepath.Join [a.workingDir, owner, repo]) tag] := by
  cases hmk : (os.MkdirAll w.fs
      (filepath.Dir (filepath.Join [a.workingDir, owner, repo]))).2 with
  | some e =>
    rw [writeTag_mkdir_failed a owner repo tag w e hmk]
    exact ⟨[.mkdirAll _], rfl, ⟨[_, _], rfl⟩⟩
  | none =>
    cases hcr : os.Create (os.MkdirAll w.fs
        (filepath.Dir (filepath.Join [a.workingDir, owner, repo]))).1
        (filepath.Join [a.workingDir, owner, repo]) with
    | error e =>
      rw [writeTag_create_failed a owner repo tag w e hmk hcr]
      exact ⟨[.mkdirAll _, .create _], rfl, ⟨[_], rfl⟩⟩
    | ok p =>
      obtain ⟨fs2, f⟩ := p
      obtain ⟨hname, _⟩ := Create_ok _ _ _ _ hcr
      rw [writeTag_created a owner repo tag w fs2 f hmk hcr, hname]
      exact ⟨[.mkdirAll _, .create _, .write _ tag], rfl, ⟨[], rfl⟩⟩

/-! ## The shape of a run of `Fetch` -/

/-- A run that reaches `downloadFile`: what `Fetch` does from there. -/
theorem Fetch_at_download (a : application) (env : Remote) (w : World)
    (owner repo url output : GoString)
    (hparse : findOwnerAndRepo a a.ownerAndRepo = .done (owner, repo, none))
    (hassert : (assertTag a owner repo (GetTagName (env.GetLatestRelease owner repo).1)
      (w.logged (.getLatestRelease owner repo))).1 = none)
    (hurl : findDownloadURL a (env.GetLatestRelease owner repo).1 = .done (url, none))
    (hout : findOutputPath a url = .done output) :
    Fetch a env w =
      match downloadFile a env output url (atDownload a w owner repo url output) with
      | (some err, w4) => (.done (some err), w4)
      | (none, w4) =>
        match writeTag a owner repo (GetTagName (env.GetLatestRelease owner repo).1) w4 with
        | (some err, w5) => (.done (some err), w5)
        | (none, w5) => (.done none, w5.report (str "Done.\n")) := by
  have hw := assertTag_world a owner repo (GetTagName (env.GetLatestRelease owner repo).1)
    (w.logged (.getLatestRelease owner repo))
  unfold Fetch
  simp only [hparse]
  cases hres : assertTag a owner repo (GetTagName (env.GetLatestRelease owner repo).1)
      (w.logged (.getLatestRelease owner repo)) with
  | mk e w2 =>
    rw [hres] at hassert hw
    simp only at hassert hw
    subst hassert hw
    simp only [hurl, hout]
    rfl

/-- A run whose `downloadFile` fails returns that error in the world it left. -/
theorem Fetch_download_failed (a : application) (env : Remote) (w : World)
    (owner repo url output : GoString) (err : GoError)
    (hparse : findOwnerAndRepo a a.ownerAndRepo = .done (owner, repo, none))
    (hassert : (assertTag a owner repo (GetTagName (env.GetLatestRelease owner repo).1)
      (w.logged (.getLatestRelease owner repo))).1 = none)
    (hurl : findDownloadURL a (env.GetLatestRelease owner repo).1 = .done (url, none))
    (hout : findOutputPath a url = .done output)
    (hdl : (downloadFile a env output url (atDownload a w owner repo url output)).1 =
      some err) :
    Fetch a env w = (.done (some err),
      (downloadFile a env output url (atDownload a w owner repo url output)).2) := by
  rw [Fetch_at_download a env w owner repo url output hparse hassert hurl hout]
  cases hres : downloadFile a env output url (atDownload a w owner repo url output) with
  | mk e w4 =>
    rw [hres] at hdl
    simp only at hdl
    subst hdl
    rfl

/-- A run whose `downloadFile` succeeds and whose `writeTag` fails returns that error. -/
theorem Fetch_writeTag_failed (a : application) (env : Remote) (w : World)
    (owner repo url output : GoString) (err : GoError)
    (hparse : findOwnerAndRepo a a.ownerAndRepo = .done (owner, repo, none))
    (hassert : (assertTag a owner repo (GetTagName (env.GetLatestRelease owner repo).1)
      (w.logged (.getLatestRelease owner repo))).1 = none)
    (hurl : findDownloadURL a (env.GetLatestRelease owner repo).1 = .done (url, none))
    (hout : findOutputPath a url = .done output)
    (hdl : (downloadFile a env output url (atDownload a w owner repo url output)).1 = none)
    (hwt : (writeTag a owner repo (GetTagName (env.GetLatestRelease owner repo).1)
      (downloadFile a env output url (atDownload a w owner repo url output)).2).1 =
        some err) :
    Fetch a env w = (.done (some err),
      (writeTag a owner repo (GetTagName (env.GetLatestRelease owner repo).1)
        (downloadFile a env output url (atDownload a w owner repo url output)).2).2) := by
  rw [Fetch_at_download a env w owner repo url output hparse hassert hurl hout]
  cases hres : downloadFile a env output url (atDownload a w owner repo url output) with
  | mk e w4 =>
    rw [hres] at hdl hwt
    simp only at hdl hwt
    subst hdl
    simp only
    cases hres2 : writeTag a owner repo (GetTagName (env.GetLatestRelease owner repo).1)
        w4 with
    | mk e5 w5 =>
      rw [hres2] at hwt
      simp only at hwt
      subst hwt
      rfl

/-- A run whose `downloadFile` and `writeTag` succeed returns no error, after the
completion message. -/
theorem Fetch_all_ok (a : application) (env : Remote) (w : World)
    (owner repo url output : GoString)
    (hparse : findOwnerAndRepo a a.ownerAndRepo = .done (owner, repo, none))
    (hassert : (assertTag a owner repo (GetTagName (env.GetLatestRelease owner repo).1)
      (w.logged (.getLatestRelease owner repo))).1 = none)
    (hurl : findDownloadURL a (env.GetLatestRelease owner repo).1 = .done (url, none))
    (hout : findOutputPath a url = .done output)
    (hdl : (downloadFile a env output url (atDownload a w owner repo url output)).1 = none)
    (hwt : (writeTag a owner repo (GetTagName (env.GetLatestRelease owner repo).1)
      (downloadFile a env output url (atDownload a w owner repo url output)).2).1 = none) :
    Fetch a env w = (.done none,
      ((writeTag a owner repo (GetTagName (env.GetLatestRelease owner repo).1)
        (downloadFile a env output url (atDownload a w owner repo url output)).2).2).report
        (str "Done.\n")) := by
  rw [Fetch_at_download a env w owner repo url output hparse hassert hurl hout]
  cases hres : downloadFile a env output url (atDownload a w owner repo url output) with
  | mk e w4 =>
    rw [hres] at hdl hwt
    simp only at hdl hwt
    subst hdl
    simp only
    cases hres2 : writeTag a owner repo (GetTagName (env.GetLatestRelease owner repo).1)
        w4 with
    | mk e5 w5 =>
      rw [hres2] at hwt
      simp only at hwt
      subst hwt
      rfl

/-- A run that does not reach `downloadFile` leaves the file system as it was; the only calls
it can have made are the release lookup and the read of the marker. -/
theorem Fetch_stopped (a : application) (env : Remote) (w : World)
    (h : ¬ ∃ owner repo url output,
      findOwnerAndRepo a a.ownerAndRepo = .done (owner, repo, none) ∧
      (assertTag a owner repo (GetTagName (env.GetLatestRelease owner repo).1)
        (w.logged (.getLatestRelease owner repo))).1 = none ∧
      findDownloadURL a (env.GetLatestRelease owner repo).1 = .done (url, none) ∧
      findOutputPath a url = .done output) :
    (Fetch a env w).2.fs = w.fs ∧
      ((Fetch a env w).2.calls = w.calls ∨
        ∃ owner repo, (Fetch a env w).2.calls =
          w.calls ++ [.getLatestRelease owner repo,
                      .readFile (filepath.Join [a.workingDir, owner, repo])]) := by
  unfold Fetch
  cases hp : findOwnerAndRepo a a.ownerAndRepo with
  | panic => exact ⟨rfl, Or.inl rfl⟩
  | done res =>
    obtain ⟨owner, repo, perr⟩ := res
    cases perr with
    | some e => exact ⟨rfl, Or.inl rfl⟩
    | none =>
      simp only
      have hw := assertTag_world a owner repo (GetTagName (env.GetLatestRelease owner repo).1)
        (w.logged (.getLatestRelease owner repo))
      cases hres : assertTag a owner repo (GetTagName (env.GetLatestRelease owner repo).1)
          (w.logged (.getLatestRelease owner repo)) with
      | mk e w2 =>
        rw [hres] at hw
        simp only at hw
        subst hw
        have hstop : ((w.logged (.getLatestRelease owner repo)).logged
              (.readFile (filepath.Join [a.workingDir, owner, repo]))).fs = w.fs ∧
            (((w.logged (.getLatestRelease owner repo)).logged
              (.readFile (filepath.Join [a.workingDir, owner, repo]))).calls = w.calls ∨
            ∃ o r, ((w.logged (.getLatestRelease owner repo)).logged
                (.readFile (filepath.Join [a.workingDir, owner, repo]))).calls =
              w.calls ++ [.getLatestRelease o r,
                          .readFile (filepath.Join [a.workingDir, o, r])]) :=
          ⟨rfl, Or.inr ⟨owner, repo, by simp [World.logged]⟩⟩
        cases e with
        | some err => exact hstop
        | none =>
          simp only
          cases hu : findDownloadURL a (env.GetLatestRelease owner repo).1 with
          | panic => exact hstop
          | done ures =>
            obtain ⟨url, uerr⟩ := ures
            cases uerr with
            | some err => exact hstop
            | none =>
              simp only
              cases ho : findOutputPath a url with
              | panic => exact hstop
              | done output =>
                exfalso
                exact h ⟨owner, repo, url, output, hp, by rw [hres], hu, ho⟩

/-! ## `os.MkdirAll` and `os.Create` on two file systems that differ at one file -/

theorem Sim.dirEquiv {k : Key} {fs fs' : FileSystem} (h : Sim k fs fs') : DirEquiv fs fs' := by
  obtain ⟨hcwd, hk, hother, hn, hn'⟩ := h
  refine ⟨hcwd, ?_⟩
  intro q
  by_cases hq0 : q = []
  · rw [hq0, entry_root, entry_root]
  · rw [entry_of_ne_nil _ _ hq0, entry_of_ne_nil _ _ hq0]
    by_cases hq : q = k
    · subst hq
      constructor
      · intro hc; exact absurd hc hn'
      · intro hc; exact absurd hc hn
    · rw [hother q hq]

theorem Sim.entry {k : Key} {fs fs' : FileSystem} (h : Sim k fs fs') (q : Key) (hq : q ≠ k) :
    fs'.entry q = fs.entry q := by
  by_cases hq0 : q = []
  · rw [hq0, entry_root, entry_root]
  · rw [entry_of_ne_nil _ _ hq0, entry_of_ne_nil _ _ hq0, h.2.2.1 q hq]

theorem mkdirAllAux_dir (n : Nat) (fs : FileSystem) (path : GoString)
    (h : fs.lookup path = some Node.dir) : os.mkdirAllAux (n + 1) fs path = (fs, none) := by
  rw [os.mkdirAllAux, h]

theorem mkdirAllAux_file (n : Nat) (fs : FileSystem) (path content : GoString) (r w : Bool)
    (h : fs.lookup path = some (Node.file content r w)) :
    (os.mkdirAllAux (n + 1) fs path).2 ≠ none := by
  rw [os.mkdirAllAux, h]
  simp

theorem mkdirAllAux_top (n : Nat) (fs : FileSystem) (path : GoString)
    (h : fs.lookup path = none)
    (hj : ¬ 1 < filepath.dirLen path (os.trimSep path path.length)) :
    os.mkdirAllAux (n + 1) fs path = os.mkdirLast fs path := by
  rw [os.mkdirAllAux, h]
  simp only [if_neg hj]

theorem mkdirAllAux_parent_failed (n : Nat) (fs : FileSystem) (path : GoString) (e : GoError)
    (h : fs.lookup path = none)
    (hj : 1 < filepath.dirLen path (os.trimSep path path.length))
    (hp : (os.mkdirAllAux n fs
      (path.take (filepath.dirLen path (os.trimSep path path.length) - 1))).2 = some e) :
    (os.mkdirAllAux (n + 1) fs path).2 = some e := by
  rw [os.mkdirAllAux, h]
  simp only [if_pos hj]
  split
  · rename_i fs1 err heq
    rw [heq] at hp
    exact hp
  · rename_i fs1 heq
    rw [heq] at hp
    cases hp

theorem mkdirAllAux_parent_ok (n : Nat) (fs : FileSystem) (path : GoString)
    (h : fs.lookup path = none)
    (hj : 1 < filepath.dirLen path (os.trimSep path path.length))
    (hp : (os.mkdirAllAux n fs
      (path.take (filepath.dirLen path (os.trimSep path path.length) - 1))).2 = none) :
    os.mkdirAllAux (n + 1) fs path =
      os.mkdirLast (os.mkdirAllAux n fs
        (path.take (filepath.dirLen path (os.trimSep path path.length) - 1))).1 path := by
  rw [os.mkdirAllAux, h]
  simp only [if_pos hj]
  split
  · rename_i fs1 err heq
    rw [heq] at hp
    cases hp
  · rename_i fs1 heq
    rw [heq]

/-- What a successful `os.Mkdir` does. -/
theorem Mkdir_ok (fs : FileSystem) (name : GoString) (h : (os.Mkdir fs name).2 = none) :
    ∃ q, fs.resolve (os.dropTrailingSep name) = .ok q ∧ fs.entry q = none ∧
      fs.entry q.dropLast = some Node.dir ∧ os.Mkdir fs name = (fs.set q Node.dir, none) := by
  cases hr : fs.resolve (os.dropTrailingSep name) with
  | error e =>
    unfold os.Mkdir at h
    rw [hr] at h
    cases h
  | ok q =>
    cases he : fs.entry q with
    | some n =>
      unfold os.Mkdir at h
      rw [hr] at h
      simp only [he] at h
      cases h
    | none =>
      by_cases hpar : fs.entry q.dropLast = some Node.dir
      · refine ⟨q, rfl, he, hpar, ?_⟩
        unfold os.Mkdir
        rw [hr]
        simp only [he, if_pos hpar]
      · unfold os.Mkdir at h
        rw [hr] at h
        simp only [he, if_neg hpar] at h
        cases h

theorem Mkdir_sim (k : Key) (fs fs' : FileSystem) (name : GoString) (hs : Sim k fs fs')
    (hok : (os.Mkdir fs name).2 = none)
    (hnd : (os.Mkdir fs name).1.node k ≠ some Node.dir) :
    (os.Mkdir fs' name).2 = none ∧ Sim k (os.Mkdir fs name).1 (os.Mkdir fs' name).1 := by
  obtain ⟨q, hres, hent, hpar, heq⟩ := Mkdir_ok fs name hok
  rw [heq] at hnd ⊢
  have hqk : q ≠ k := by
    intro hqk
    apply hnd
    simp [FileSystem.set, hqk]
  have hde := hs.dirEquiv
  have hres' : fs'.resolve (os.dropTrailingSep name) = .ok q :=
    (resolve_congr _ _ hde _ _).mpr hres
  have hent' : fs'.entry q = none := by rw [hs.entry q hqk, hent]
  have hpar' : fs'.entry q.dropLast = some Node.dir := (hde.2 _).mpr hpar
  have heq' : os.Mkdir fs' name = (fs'.set q Node.dir, none) := by
    unfold os.Mkdir
    rw [hres']
    simp only [hent', if_pos hpar']
  rw [heq']
  obtain ⟨hcwd, hk, hother, hn, hn'⟩ := hs
  refine ⟨rfl, hcwd, hk, ?_, ?_, ?_⟩
  · intro p hp
    by_cases hpq : p = q
    · simp [FileSystem.set, hpq]
    · simp [FileSystem.set, hpq, hother p hp]
  · simpa [FileSystem.set, Ne.symm hqk] using hn
  · simpa [FileSystem.set, Ne.symm hqk] using hn'

theorem Mkdir_failed_fs (fs : FileSystem) (name : GoString)
    (h : (os.Mkdir fs name).2 ≠ none) : (os.Mkdir fs name).1 = fs := by
  unfold os.Mkdir at h ⊢
  cases hr : fs.resolve (os.dropTrailingSep name) with
  | error e => rfl
  | ok q =>
    rw [hr] at h
    simp only at h ⊢
    cases he : fs.entry q with
    | some n => rfl
    | none =>
      rw [he] at h
      simp only at h ⊢
      split
      · rename_i hpar
        rw [if_pos hpar] at h
        exact absurd rfl h
      · rfl

/-- When `Mkdir` fails, the last step of `os.MkdirAll` succeeds exactly when the path leads
to a directory. -/
theorem mkdirLast_of_failed (fs : FileSystem) (path : GoString)
    (h : (os.Mkdir fs path).2 ≠ none) :
    (os.mkdirLast fs path).1 = fs ∧
      ((os.mkdirLast fs path).2 = none ↔ fs.lookup path = some Node.dir) := by
  have hfs := Mkdir_failed_fs fs path h
  unfold os.mkdirLast
  cases hm : os.Mkdir fs path with
  | mk fs1 e =>
    rw [hm] at h hfs
    simp only at h hfs
    subst hfs
    cases e with
    | none => exact absurd rfl h
    | some err =>
      simp only
      split
      · rename_i hl
        exact ⟨rfl, by simp [hl]⟩
      · rename_i hl
        exact ⟨rfl, by simp [hl]⟩

theorem lookup_dir_congr (fs fs' : FileSystem) (h : DirEquiv fs fs') (path : GoString)
    (hl : fs.lookup path = some Node.dir) : fs'.lookup path = some Node.dir := by
  obtain ⟨q, hq, he⟩ := (lookup_eq_some fs path Node.dir).mp hl
  exact (lookup_eq_some fs' path Node.dir).mpr
    ⟨q, (resolve_congr _ _ h _ _).mpr hq, (h.2 q).mpr he⟩

theorem Mkdir_of_lookup (fs : FileSystem) (path : GoString) (n : Node)
    (hl : fs.lookup path = some n) : (os.Mkdir fs path).2 ≠ none := by
  obtain ⟨q, hq, he⟩ := (lookup_eq_some fs path n).mp hl
  unfold os.Mkdir
  rw [resolve_dropTrailingSep fs path q hq]
  simp only [he]
  simp

/-- The last step of `os.MkdirAll` on two file systems that differ only by a file. -/
theorem mkdirLast_sim (k : Key) (fs fs' : FileSystem) (path : GoString) (hs : Sim k fs fs')
    (hok : (os.mkdirLast fs path).2 = none)
    (hnd : (os.mkdirLast fs path).1.node k ≠ some Node.dir) :
    (os.mkdirLast fs' path).2 = none ∧
      Sim k (os.mkdirLast fs path).1 (os.mkdirLast fs' path).1 := by
  cases hm : (os.Mkdir fs path).2 with
  | none =>
    rw [mkdirLast_of_ok fs path hm] at hnd ⊢
    obtain ⟨h1, h2⟩ := Mkdir_sim k fs fs' path hs hm hnd
    rw [mkdirLast_of_ok fs' path h1]
    exact ⟨h1, h2⟩
  | some err =>
    have hne : (os.Mkdir fs path).2 ≠ none := by rw [hm]; simp
    obtain ⟨hfs, hiff⟩ := mkdirLast_of_failed fs path hne
    have hl := hiff.mp hok
    have hl' := lookup_dir_congr fs fs' hs.dirEquiv path hl
    obtain ⟨hfs', hiff'⟩ := mkdirLast_of_failed fs' path (Mkdir_of_lookup fs' path _ hl')
    rw [hfs, hfs']
    exact ⟨hiff'.mpr hl', hs⟩

/-- If `os.MkdirAll` succeeds without making a directory at `k`, it succeeds in the same
way on a file system that differs only by a file at `k`. -/
theorem mkdirAllAux_sim (k : Key) :
    ∀ (fuel : Nat) (fs fs' : FileSystem) (path : GoString), Sim k fs fs' →
      (os.mkdirAllAux fuel fs path).2 = none →
      (os.mkdirAllAux fuel fs path).1.node k ≠ some Node.dir →
      (os.mkdirAllAux fuel fs' path).2 = none ∧
        Sim k (os.mkdirAllAux fuel fs path).1 (os.mkdirAllAux fuel fs' path).1 := by
  intro fuel
  induction fuel with
  | zero =>
    intro fs fs' path _ hok _
    simp [os.mkdirAllAux] at hok
  | succ n ih =>
    intro fs fs' path hs hok hnd
    have hde := hs.dirEquiv
    cases hl : fs.lookup path with
    | some nd =>
      cases nd with
      | file content r w => exact absurd hok (mkdirAllAux_file n fs path content r w hl)
      | dir =>
        have hl' : fs'.lookup path = some Node.dir := by
          obtain ⟨q, hq, he⟩ := (lookup_eq_some fs path Node.dir).mp hl
          exact (lookup_eq_some fs' path Node.dir).mpr
            ⟨q, (resolve_congr _ _ hde _ _).mpr hq, (hde.2 q).mpr he⟩
        rw [mkdirAllAux_dir n fs path hl, mkdirAllAux_dir n fs' path hl']
        exact ⟨rfl, hs⟩
    | none =>
      -- the directory is made by `Mkdir` at the end, in a file system `g` grown from `fs`
      have hfinal : ∀ g : FileSystem, Grown fs g → (os.mkdirLast g path).2 = none →
          (os.mkdirLast g path).1.node k ≠ some Node.dir → fs.resolve path ≠ .ok k := by
        intro g hg hmk hmknd hrk
        have hrk' : g.resolve path = .ok k :=
          resolve_mono fs g hg.1 (fun p hp => hg.dir p hp) path k hrk
        cases hm : (os.Mkdir g path).2 with
        | none =>
          rw [mkdirLast_of_ok g path hm] at hmknd
          obtain ⟨q, hres, _, _, heq⟩ := Mkdir_ok g path hm
          rw [resolve_dropTrailingSep g path k hrk'] at hres
          injection hres with hres
          subst hres
          rw [heq] at hmknd
          apply hmknd
          simp [FileSystem.set]
        | some err =>
          have hne : (os.Mkdir g path).2 ≠ none := by rw [hm]; simp
          obtain ⟨hfs, hiff⟩ := mkdirLast_of_failed g path hne
          obtain ⟨q, hq, he⟩ := (lookup_eq_some g path Node.dir).mp (hiff.mp hmk)
          rw [hrk'] at hq
          injection hq with hq
          subst hq
          rw [hfs, ← entry_of_ne_nil g _ hs.2.1] at hmknd
          exact hmknd he
      have hl'of : fs.resolve path ≠ .ok k → fs'.lookup path = none := by
        intro hrk
        unfold FileSystem.lookup at hl ⊢
        cases hr : fs.resolve path with
        | error e =>
          cases hr' : fs'.resolve path with
          | error e' => rfl
          | ok q' =>
            have := (resolve_congr _ _ hde _ _).mp hr'
            rw [hr] at this
            cases this
        | ok q =>
          rw [hr] at hl
          simp only at hl
          have hqk : q ≠ k := fun h => hrk (h ▸ hr)
          rw [(resolve_congr _ _ hde _ _).mpr hr]
          simp only
          rw [hs.entry q hqk, hl]
      by_cases hj : 1 < filepath.dirLen path (os.trimSep path path.length)
      · cases hp : (os.mkdirAllAux n fs
            (path.take (filepath.dirLen path (os.trimSep path path.length) - 1))).2 with
        | some e =>
          rw [mkdirAllAux_parent_failed n fs path e hl hj hp] at hok
          cases hok
        | none =>
          have hg := (mkdirAllAux_grown n fs
            (path.take (filepath.dirLen path (os.trimSep path path.length) - 1))).1
          rw [mkdirAllAux_parent_ok n fs path hl hj hp] at hok hnd ⊢
          have hndp : (os.mkdirAllAux n fs
              (path.take (filepath.dirLen path (os.trimSep path path.length) - 1))).1.node k ≠
              some Node.dir := by
            intro hc
            apply hnd
            rw [mkdirLast_fs]
            rcases (Mkdir_grown _ path).2 k with e | ⟨e, _⟩
            · rw [e, hc]
            · rw [hc] at e; cases e
          obtain ⟨hp', hs'⟩ := ih fs fs' _ hs hp hndp
          have hl' := hl'of (hfinal _ hg hok hnd)
          rw [mkdirAllAux_parent_ok n fs' path hl' hj hp']
          exact mkdirLast_sim k _ _ path hs' hok hnd
      · rw [mkdirAllAux_top n fs path hl hj] at hok hnd ⊢
        have hl' := hl'of (hfinal fs (Grown.same fs) hok hnd)
        rw [mkdirAllAux_top n fs' path hl' hj]
        exact mkdirLast_sim k fs fs' path hs hok hnd

/-- A file that can be created can be created, as the same entry, on a file system that
differs only by a file somewhere else. -/
theorem Create_sim (k : Key) (fs fs' fs2 : FileSystem) (name : GoString) (f : File)
    (hs : Sim k fs fs') (hcr : os.Create fs name = .ok (fs2, f)) (hk : f.key ≠ k) :
    ∃ fs2', os.Create fs' name = .ok (fs2', f) := by
  have hde := hs.dirEquiv
  unfold os.Create at hcr ⊢
  cases hr : fs.resolve name with
  | error e => rw [hr] at hcr; cases hcr
  | ok q =>
    rw [hr] at hcr
    rw [(resolve_congr _ _ hde _ _).mpr hr]
    simp only at hcr ⊢
    cases he : fs.entry q with
    | none =>
      rw [he] at hcr
      simp only at hcr
      split at hcr
      · rename_i hpar
        simp only [Except.ok.injEq, Prod.mk.injEq] at hcr
        obtain ⟨_, rfl⟩ := hcr
        simp only at hk
        rw [hs.entry q hk, he]
        simp only
        rw [if_pos ((hde.2 _).mpr hpar)]
        exact ⟨_, rfl⟩
      · cases hcr
    | some nd =>
      rw [he] at hcr
      cases nd with
      | dir => cases hcr
      | file content r w =>
        simp only at hcr
        split at hcr
        · rename_i hrw
          simp only [Except.ok.injEq, Prod.mk.injEq] at hcr
          obtain ⟨_, rfl⟩ := hcr
          simp only at hk
          rw [hs.entry q hk, he]
          simp only
          rw [if_pos hrw]
          exact ⟨_, rfl⟩
        · cases hcr

/-! ## Facts about `filepath.Clean` and `filepath.Join` -/

theorem Separator_ne_Dot : Separator ≠ Dot := by decide

theorem cleanLoop_nil (rooted : Bool) (fuel : Nat) (out : GoString) (dotdot : Nat) :
    filepath.cleanLoop rooted fuel [] out dotdot = out := by
  cases fuel <;> rfl

theorem dropElem_cons_ne (c : Byte) (rs : GoString) (h : c ≠ Separator) :
    filepath.dropElem (c :: rs) = filepath.dropElem rs := by
  have : (c != Separator) = true := by simpa using h
  simp [filepath.dropElem, List.dropWhile, this]

theorem takeElem_cons_ne (c : Byte) (rs : GoString) (h : c ≠ Separator) :
    filepath.takeElem (c :: rs) = c :: filepath.takeElem rs := by
  have : (c != Separator) = true := by simpa using h
  simp [filepath.takeElem, List.takeWhile, this]

theorem dropElem_length (rs : GoString) : (filepath.dropElem rs).length ≤ rs.length := by
  unfold filepath.dropElem
  induction rs with
  | nil => simp
  | cons c cs ih =>
    rw [List.dropWhile]
    split
    · exact Nat.le_succ_of_le ih
    · exact Nat.le_refl _

/-- One turn on an empty path element. -/
theorem cleanLoop_sep (rooted : Bool) (fuel : Nat) (rest out : GoString) (dotdot : Nat) :
    filepath.cleanLoop rooted (fuel + 1) (Separator :: rest) out dotdot =
      filepath.cleanLoop rooted fuel rest out dotdot := by
  rw [filepath.cleanLoop, if_pos rfl]

/-- One turn on a `.` element. -/
theorem cleanLoop_dot (rooted : Bool) (fuel : Nat) (rest out : GoString) (dotdot : Nat)
    (hend : filepath.atElemEnd rest = true) :
    filepath.cleanLoop rooted (fuel + 1) (Dot :: rest) out dotdot =
      filepath.cleanLoop rooted fuel rest out dotdot := by
  rw [filepath.cleanLoop, if_neg (Ne.symm Separator_ne_Dot), if_pos ⟨rfl, hend⟩]

/-- One turn on a `..` element. -/
theorem cleanLoop_dotdot (rooted : Bool) (fuel : Nat) (rest out : GoString) (dotdot : Nat)
    (hend : filepath.atElemEnd rest = true) :
    filepath.cleanLoop rooted (fuel + 1) (Dot :: Dot :: rest) out dotdot =
      filepath.cleanLoop rooted fuel rest (dotdotOut rooted out dotdot)
        (dotdotIdx rooted out dotdot) := by
  have h2 : ¬ (Dot = Dot ∧ filepath.atElemEnd (Dot :: rest) = true) := by
    intro h
    have h3 : filepath.atElemEnd (Dot :: rest) = false := rfl
    rw [h3] at h
    exact absurd h.2 (by decide)
  rw [filepath.cleanLoop, if_neg (Ne.symm Separator_ne_Dot), if_neg h2,
    if_pos ⟨rfl, rfl, hend⟩]
  unfold dotdotOut dotdotIdx
  simp only [List.tail_cons]
  split_ifs <;> rfl

/-- One turn on a real path element. -/
theorem cleanLoop_real (rooted : Bool) (fuel : Nat) (c : Byte) (rest out : GoString)
    (dotdot : Nat) (hsep : c ≠ Separator)
    (hdot : ¬ (c = Dot ∧ filepath.atElemEnd rest = true))
    (hdd : ¬ (c = Dot ∧ rest.head? = some Dot ∧ filepath.atElemEnd rest.tail = true)) :
    filepath.cleanLoop rooted (fuel + 1) (c :: rest) out dotdot =
      filepath.cleanLoop rooted fuel (filepath.dropElem rest)
        (addSep rooted out ++ c :: filepath.takeElem rest) dotdot := by
  rw [filepath.cleanLoop, if_neg hsep, if_neg hdot, if_neg hdd,
    dropElem_cons_ne c rest hsep, takeElem_cons_ne c rest hsep]
  rfl

/-- Every turn reads at least one byte. -/
theorem cleanLoop_step (rooted : Bool) (c : Byte) (rs out : GoString) (dotdot : Nat) :
    ∃ rest' out' dotdot', rest'.length ≤ rs.length ∧
      ∀ fuel, filepath.cleanLoop rooted (fuel + 1) (c :: rs) out dotdot =
        filepath.cleanLoop rooted fuel rest' out' dotdot' := by
  by_cases hsep : c = Separator
  · subst hsep
    exact ⟨rs, out, dotdot, Nat.le_refl _, fun fuel => cleanLoop_sep rooted fuel rs out dotdot⟩
  · by_cases hdot : c = Dot ∧ filepath.atElemEnd rs = true
    · obtain ⟨rfl, hend⟩ := hdot
      exact ⟨rs, out, dotdot, Nat.le_refl _,
        fun fuel => cleanLoop_dot rooted fuel rs out dotdot hend⟩
    · by_cases hdd : c = Dot ∧ rs.head? = some Dot ∧ filepath.atElemEnd rs.tail = true
      · obtain ⟨rfl, hhead, hend⟩ := hdd
        cases rs with
        | nil => simp at hhead
        | cons d rs2 =>
          simp only [List.head?_cons, Option.some.injEq] at hhead
          subst hhead
          exact ⟨rs2, _, _, by simp,
            fun fuel => cleanLoop_dotdot rooted fuel rs2 out dotdot hend⟩
      · exact ⟨filepath.dropElem rs, _, _, dropElem_length rs,
          fun fuel => cleanLoop_real rooted fuel c rs out dotdot hsep hdot hdd⟩

/-- The result of the loop does not depend on the fuel once there is enough of it. -/
theorem cleanLoop_fuel (rooted : Bool) :
    ∀ (n : Nat) (rest : GoString), rest.length ≤ n →
      ∀ (f₁ f₂ : Nat) (out : GoString) (dotdot : Nat),
        rest.length ≤ f₁ → rest.length ≤ f₂ →
        filepath.cleanLoop rooted f₁ rest out dotdot =
          filepath.cleanLoop rooted f₂ rest out dotdot := by
  intro n
  induction n with
  | zero =>
    intro rest hn f₁ f₂ out dotdot _ _
    have : rest = [] := List.length_eq_zero.mp (Nat.le_zero.mp hn)
    subst this
    rw [cleanLoop_nil, cleanLoop_nil]
  | succ n ih =>
    intro rest hn f₁ f₂ out dotdot h₁ h₂
    cases rest with
    | nil => rw [cleanLoop_nil, cleanLoop_nil]
    | cons c rs =>
      simp only [List.length_cons] at hn h₁ h₂
      obtain ⟨g₁, rfl⟩ : ∃ g, f₁ = g + 1 := ⟨f₁ - 1, by omega⟩
      obtain ⟨g₂, rfl⟩ : ∃ g, f₂ = g + 1 := ⟨f₂ - 1, by omega⟩
      obtain ⟨rest', out', dotdot', hlen, hstep⟩ := cleanLoop_step rooted c rs out dotdot
      rw [hstep g₁, hstep g₂]
      exact ih rest' (by omega) _ _ _ _ (by omega) (by omega)

/-- With enough fuel the loop ends with the whole input read: more fuel changes nothing. -/
theorem cleanLoop_enough (rooted : Bool) (fuel : Nat) (rest out : GoString) (dotdot : Nat)
    (h : rest.length ≤ fuel) :
    filepath.cleanLoop rooted fuel rest out dotdot =
      filepath.cleanLoop rooted rest.length rest out dotdot :=
  cleanLoop_fuel rooted rest.length rest (Nat.le_refl _) _ _ _ _ h (Nat.le_refl _)

theorem atElemEnd_append (xs y : GoString) :
    filepath.atElemEnd (xs ++ Separator :: y) = filepath.atElemEnd xs := by
  cases xs with
  | nil => simp [filepath.atElemEnd]
  | cons d ds => rfl

theorem dotdot_test_append (xs y : GoString) :
    ((xs ++ Separator :: y).head? = some Dot ∧
        filepath.atElemEnd (xs ++ Separator :: y).tail = true) ↔
      (xs.head? = some Dot ∧ filepath.atElemEnd xs.tail = true) := by
  cases xs with
  | nil =>
    simp only [List.nil_append, List.head?_cons, Option.some.injEq, List.head?_nil]
    constructor
    · intro h; exact absurd h.1 Separator_ne_Dot
    · intro h; exact absurd h.1 (by simp)
  | cons d ds =>
    simp only [List.cons_append, List.head?_cons, List.tail_cons, atElemEnd_append]

theorem takeElem_append (y : GoString) :
    ∀ x : GoString, filepath.takeElem (x ++ Separator :: y) = filepath.takeElem x := by
  intro x
  induction x with
  | nil => simp [filepath.takeElem, List.takeWhile]
  | cons c cs ih =>
    by_cases hc : c = Separator
    · subst hc
      simp [filepath.takeElem, List.takeWhile]
    · rw [List.cons_append, takeElem_cons_ne c _ hc, takeElem_cons_ne c _ hc, ih]

theorem dropElem_append (y : GoString) :
    ∀ x : GoString,
      filepath.dropElem (x ++ Separator :: y) = filepath.dropElem x ++ Separator :: y := by
  intro x
  induction x with
  | nil => simp [filepath.dropElem, List.dropWhile]
  | cons c cs ih =>
    by_cases hc : c = Separator
    · subst hc
      simp [filepath.dropElem, List.dropWhile]
    · rw [List.cons_append, dropElem_cons_ne c _ hc, dropElem_cons_ne c _ hc, ih]

theorem backtrack_ge (buf : GoString) (dotdot : Nat) :
    ∀ w, dotdot ≤ w → dotdot ≤ filepath.backtrack buf dotdot w := by
  intro w
  induction w with
  | zero => intro h; simpa [filepath.backtrack] using h
  | succ n ih =>
    intro h
    rw [filepath.backtrack]
    split
    · rename_i hc
      exact ih (Nat.lt_succ_iff.mp hc.1)
    · exact h

theorem backtrack_le (buf : GoString) (dotdot : Nat) :
    ∀ w, filepath.backtrack buf dotdot w ≤ w := by
  intro w
  induction w with
  | zero => simp [filepath.backtrack]
  | succ n ih =>
    rw [filepath.backtrack]
    split
    · exact Nat.le_succ_of_le ih
    · exact Nat.le_refl _

theorem CleanInv_dotdot (rooted : Bool) (out : GoString) (dotdot : Nat)
    (h : CleanInv rooted out dotdot) :
    CleanInv rooted (dotdotOut rooted out dotdot) (dotdotIdx rooted out dotdot) := by
  obtain ⟨hle, hroot⟩ := h
  unfold dotdotOut dotdotIdx CleanInv
  by_cases hlt : dotdot < out.length
  · simp only [hlt, if_true]
    refine ⟨?_, hroot⟩
    have h1 := backtrack_ge out dotdot (out.length - 1) (by omega)
    have h2 := backtrack_le out dotdot (out.length - 1)
    rw [List.length_take]
    omega
  · simp only [hlt, if_false]
    cases rooted with
    | true => simpa using ⟨hle, hroot rfl⟩
    | false => simp

theorem CleanInv_real (rooted : Bool) (out e : GoString) (dotdot : Nat)
    (h : CleanInv rooted out dotdot) : CleanInv rooted (addSep rooted out ++ e) dotdot := by
  obtain ⟨hle, hroot⟩ := h
  refine ⟨?_, hroot⟩
  have : out.length ≤ (addSep rooted out).length := by
    unfold addSep
    split <;> simp
  rw [List.length_append]
  omega

theorem takeElem_no_sep (xs : GoString) : Separator ∉ filepath.takeElem xs := by
  intro h
  have := List.mem_takeWhile_imp h
  simp at this

theorem takeElem_eq_nil (xs : GoString) (h : filepath.takeElem xs = []) :
    filepath.atElemEnd xs = true := by
  cases xs with
  | nil => rfl
  | cons c cs =>
    by_cases hc : c = Separator
    · simp [filepath.atElemEnd, hc]
    · rw [takeElem_cons_ne c cs hc] at h
      cases h

/-- The element that the default case of the loop copies is a real path element. -/
theorem realElem_of_tests (c : Byte) (xs : GoString) (hsep : c ≠ Separator)
    (hdot : ¬ (c = Dot ∧ filepath.atElemEnd xs = true))
    (hdd : ¬ (c = Dot ∧ xs.head? = some Dot ∧ filepath.atElemEnd xs.tail = true)) :
    RealElem (c :: filepath.takeElem xs) := by
  refine ⟨by simp, ?_, ?_, ?_⟩
  · intro h
    rcases List.mem_cons.mp h with e | e
    · exact hsep e.symm
    · exact takeElem_no_sep xs e
  · intro h
    simp only [List.cons.injEq] at h
    exact hdot ⟨h.1, takeElem_eq_nil xs h.2⟩
  · intro h
    simp only [List.cons.injEq] at h
    obtain ⟨hc, ht⟩ := h
    cases xs with
    | nil => simp [filepath.takeElem] at ht
    | cons d ds =>
      by_cases hd : d = Separator
      · subst hd
        simp [filepath.takeElem, List.takeWhile] at ht
      · rw [takeElem_cons_ne d ds hd] at ht
        simp only [List.cons.injEq] at ht
        exact hdd ⟨hc, by simp [ht.1], by simpa using takeElem_eq_nil ds ht.2⟩

/-- Reading a prefix that ends at a separator: the state reached depends on the prefix
only, not on what follows the separator, and it satisfies every invariant `I` that the
`..` turn and the copy of a real element keep. -/
theorem cleanLoop_prefix_inv (rooted : Bool) (I : GoString → Nat → Prop)
    (hIdd : ∀ out dotdot, I out dotdot →
      I (dotdotOut rooted out dotdot) (dotdotIdx rooted out dotdot))
    (hIreal : ∀ out dotdot e, RealElem e → I out dotdot → I (addSep rooted out ++ e) dotdot) :
    ∀ (n : Nat) (x : GoString), x.length ≤ n →
      ∀ (out : GoString) (dotdot : Nat), I out dotdot →
        ∃ out' dotdot', I out' dotdot' ∧
          ∀ (y : GoString) (fuel : Nat), (x ++ Separator :: y).length ≤ fuel →
            filepath.cleanLoop rooted fuel (x ++ Separator :: y) out dotdot =
              filepath.cleanLoop rooted y.length y out' dotdot' := by
  have hbase : ∀ (out : GoString) (dotdot : Nat), I out dotdot →
      ∃ out' dotdot', I out' dotdot' ∧
        ∀ (y : GoString) (fuel : Nat), (([] : GoString) ++ Separator :: y).length ≤ fuel →
          filepath.cleanLoop rooted fuel (([] : GoString) ++ Separator :: y) out dotdot =
            filepath.cleanLoop rooted y.length y out' dotdot' := by
    intro out dotdot hinv
    refine ⟨out, dotdot, hinv, ?_⟩
    intro y fuel hf
    simp only [List.nil_append, List.length_cons] at hf ⊢
    obtain ⟨g, rfl⟩ : ∃ g, fuel = g + 1 := ⟨fuel - 1, by omega⟩
    rw [cleanLoop_sep]
    exact cleanLoop_enough rooted g y out dotdot (by omega)
  intro n
  induction n with
  | zero =>
    intro x hx
    have : x = [] := List.length_eq_zero.mp (Nat.le_zero.mp hx)
    subst this
    exact hbase
  | succ n ih =>
    intro x hx
    cases x with
    | nil => exact hbase
    | cons c xs =>
      intro out dotdot hinv
      simp only [List.length_cons] at hx
      have hxs : xs.length ≤ n := by omega
      by_cases hsep : c = Separator
      · subst hsep
        obtain ⟨out', dotdot', hinv', hrun⟩ := ih xs hxs out dotdot hinv
        refine ⟨out', dotdot', hinv', ?_⟩
        intro y fuel hf
        simp only [List.cons_append, List.length_cons] at hf ⊢
        obtain ⟨g, rfl⟩ : ∃ g, fuel = g + 1 := ⟨fuel - 1, by omega⟩
        rw [cleanLoop_sep]
        exact hrun y g (by omega)
      · by_cases hdot : c = Dot ∧ filepath.atElemEnd xs = true
        · obtain ⟨rfl, hend⟩ := hdot
          obtain ⟨out', dotdot', hinv', hrun⟩ := ih xs hxs out dotdot hinv
          refine ⟨out', dotdot', hinv', ?_⟩
          intro y fuel hf
          simp only [List.cons_append, List.length_cons] at hf ⊢
          obtain ⟨g, rfl⟩ : ∃ g, fuel = g + 1 := ⟨fuel - 1, by omega⟩
          rw [cleanLoop_dot rooted g _ out dotdot (by rw [atElemEnd_append]; exact hend)]
          exact hrun y g (by omega)
        · by_cases hdd : c = Dot ∧ xs.head? = some Dot ∧ filepath.atElemEnd xs.tail = true
          · obtain ⟨rfl, hhead, hend⟩ := hdd
            cases xs with
            | nil => simp at hhead
            | cons d xs2 =>
              simp only [List.head?_cons, Option.some.injEq] at hhead
              subst hhead
              simp only [List.tail_cons] at hend
              simp only [List.length_cons] at hxs
              obtain ⟨out', dotdot', hinv', hrun⟩ := ih xs2 (by omega) _ _
                (hIdd out dotdot hinv)
              refine ⟨out', dotdot', hinv', ?_⟩
              intro y fuel hf
              simp only [List.cons_append, List.length_cons] at hf ⊢
              obtain ⟨g, rfl⟩ : ∃ g, fuel = g + 1 := ⟨fuel - 1, by omega⟩
              rw [cleanLoop_dotdot rooted g _ out dotdot
                (by rw [atElemEnd_append]; exact hend)]
              exact hrun y g (by omega)
          · have hlen := dropElem_length xs
            obtain ⟨out', dotdot', hinv', hrun⟩ := ih (filepath.dropElem xs) (by omega) _ _
              (hIreal out dotdot (c :: filepath.takeElem xs)
                (realElem_of_tests c xs hsep hdot hdd) hinv)
            refine ⟨out', dotdot', hinv', ?_⟩
            intro y fuel hf
            simp only [List.cons_append, List.length_cons] at hf ⊢
            obtain ⟨g, rfl⟩ : ∃ g, fuel = g + 1 := ⟨fuel - 1, by omega⟩
            have hdot' : ¬ (c = Dot ∧ filepath.atElemEnd (xs ++ Separator :: y) = true) := by
              rw [atElemEnd_append]; exact hdot
            have hdd' : ¬ (c = Dot ∧ (xs ++ Separator :: y).head? = some Dot ∧
                filepath.atElemEnd (xs ++ Separator :: y).tail = true) := by
              rw [dotdot_test_append]; exact hdd
            rw [cleanLoop_real rooted g c _ out dotdot hsep hdot' hdd', takeElem_append,
              dropElem_append]
            apply hrun y g
            simp only [List.length_append, List.length_cons] at hf ⊢
            omega

theorem cleanLoop_prefix (rooted : Bool) :
    ∀ (n : Nat) (x : GoString), x.length ≤ n →
      ∀ (out : GoString) (dotdot : Nat), CleanInv rooted out dotdot →
        ∃ out' dotdot', CleanInv rooted out' dotdot' ∧
          ∀ (y : GoString) (fuel : Nat), (x ++ Separator :: y).length ≤ fuel →
            filepath.cleanLoop rooted fuel (x ++ Separator :: y) out dotdot =
              filepath.cleanLoop rooted y.length y out' dotdot' :=
  cleanLoop_prefix_inv rooted (CleanInv rooted)
    (fun out dotdot h => CleanInv_dotdot rooted out dotdot h)
    (fun out dotdot e _ h => CleanInv_real rooted out e dotdot h)

theorem takeElem_of_not_mem :
    ∀ e : GoString, Separator ∉ e → filepath.takeElem e = e := by
  intro e
  induction e with
  | nil => intro _; rfl
  | cons c cs ih =>
    intro h
    rw [takeElem_cons_ne c cs (fun hc => h (by simp [hc])),
      ih (fun hm => h (List.mem_cons_of_mem _ hm))]

theorem dropElem_of_not_mem :
    ∀ e : GoString, Separator ∉ e → filepath.dropElem e = [] := by
  intro e
  induction e with
  | nil => intro _; rfl
  | cons c cs ih =>
    intro h
    rw [dropElem_cons_ne c cs (fun hc => h (by simp [hc])),
      ih (fun hm => h (List.mem_cons_of_mem _ hm))]

/-- A real path element followed by the end of the input or by a separator is copied to the
buffer, after a separator where one is needed. -/
theorem cleanLoop_real_elem (rooted : Bool) (e rest out : GoString) (dotdot fuel : Nat)
    (he : RealElem e) (hrest : rest = [] ∨ ∃ y, rest = Separator :: y)
    (hf : (e ++ rest).length ≤ fuel) :
    filepath.cleanLoop rooted fuel (e ++ rest) out dotdot =
      filepath.cleanLoop rooted rest.length rest (addSep rooted out ++ e) dotdot := by
  obtain ⟨hne, hnosep, hnd, hndd⟩ := he
  cases e with
  | nil => exact absurd rfl hne
  | cons c es =>
    have hc : c ≠ Separator := fun h => hnosep (by simp [h])
    have hes : Separator ∉ es := fun h => hnosep (List.mem_cons_of_mem _ h)
    have hend : ∀ d ds, es = d :: ds → filepath.atElemEnd (es ++ rest) = false := by
      intro d ds hd
      subst hd
      have : d ≠ Separator := fun h => hes (by simp [h])
      simpa [filepath.atElemEnd] using this
    have hdot : ¬ (c = Dot ∧ filepath.atElemEnd (es ++ rest) = true) := by
      rintro ⟨rfl, h⟩
      cases es with
      | nil => exact hnd rfl
      | cons d ds => rw [hend d ds rfl] at h; cases h
    have hdd : ¬ (c = Dot ∧ (es ++ rest).head? = some Dot ∧
        filepath.atElemEnd (es ++ rest).tail = true) := by
      rintro ⟨rfl, hhead, h⟩
      cases es with
      | nil => exact hnd rfl
      | cons d ds =>
        simp only [List.cons_append, List.head?_cons, Option.some.injEq] at hhead
        subst hhead
        simp only [List.cons_append, List.tail_cons] at h
        cases ds with
        | nil => exact hndd rfl
        | cons f fs =>
          have hf2 : f ≠ Separator := fun hh => hes (by simp [hh])
          have : filepath.atElemEnd (f :: fs ++ rest) = false := by
            simpa [filepath.atElemEnd] using hf2
          rw [this] at h
          cases h
    have htake : filepath.takeElem (es ++ rest) = es ∧ filepath.dropElem (es ++ rest) = rest := by
      rcases hrest with rfl | ⟨y, rfl⟩
      · rw [List.append_nil]
        exact ⟨takeElem_of_not_mem es hes, dropElem_of_not_mem es hes⟩
      · rw [takeElem_append, dropElem_append, takeElem_of_not_mem es hes,
          dropElem_of_not_mem es hes]
        exact ⟨rfl, rfl⟩
    simp only [List.cons_append, List.length_cons] at hf ⊢
    obtain ⟨g, rfl⟩ : ∃ g, fuel = g + 1 := ⟨fuel - 1, by omega⟩
    rw [cleanLoop_real rooted g c _ out dotdot hc hdot hdd, htake.1, htake.2]
    apply cleanLoop_enough
    simp only [List.length_append] at hf
    omega

theorem addSep_of_long (rooted : Bool) (l : GoString) (h₁ : 1 ≤ l.length)
    (h₂ : rooted = true → 2 ≤ l.length) : addSep rooted l = l ++ [Separator] := by
  unfold addSep
  rw [if_pos]
  cases rooted with
  | true => exact Or.inl ⟨rfl, by have := h₂ rfl; omega⟩
  | false => exact Or.inr ⟨rfl, by omega⟩

/-- The loop on `owner/repo` with two real elements appends them to the buffer. -/
theorem cleanLoop_owner_repo (rooted : Bool) (o r out : GoString) (dotdot : Nat)
    (hinv : CleanInv rooted out dotdot) (ho : RealElem o) (hr : RealElem r) :
    filepath.cleanLoop rooted (o ++ Separator :: r).length (o ++ Separator :: r) out dotdot =
      addSep rooted out ++ o ++ Separator :: r := by
  rw [cleanLoop_real_elem rooted o (Separator :: r) out dotdot _ ho (Or.inr ⟨r, rfl⟩)
    (Nat.le_refl _)]
  simp only [List.length_cons]
  rw [cleanLoop_sep]
  have h := cleanLoop_real_elem rooted r [] (addSep rooted out ++ o) dotdot r.length hr
    (Or.inl rfl) (by simp)
  rw [List.append_nil] at h
  rw [h, cleanLoop_nil]
  have holen : 1 ≤ o.length := by
    cases o with
    | nil => exact absurd rfl ho.1
    | cons c cs => simp
  have hge : out.length ≤ (addSep rooted out).length := by
    unfold addSep
    split <;> simp
  have hsep : addSep rooted (addSep rooted out ++ o) = addSep rooted out ++ o ++ [Separator] := by
    apply addSep_of_long
    · rw [List.length_append]; omega
    · intro hroot
      have := hinv.2 hroot
      have := hinv.1
      rw [List.length_append]
      omega
  rw [hsep]
  simp

/-- For a working directory, the marker path of a pair of real elements is a fixed prefix
followed by `owner/repo`. -/
theorem Join_owner_repo (workdir : GoString) :
    ∃ prefixBytes : GoString, ∀ o r : GoString, RealElem o → RealElem r →
      filepath.Join [workdir, o, r] = prefixBytes ++ o ++ Separator :: r := by
  cases workdir with
  | nil =>
    refine ⟨[], ?_⟩
    intro o r ho hr
    have hne : o ≠ [] := ho.1
    have hpath : strings.Join [o, r] [Separator] = o ++ Separator :: r := by
      simp [strings.Join]
    have hhead : (o ++ Separator :: r).head? ≠ some Separator := by
      cases o with
      | nil => exact absurd rfl hne
      | cons c cs =>
        have : c ≠ Separator := fun h => ho.2.1 (by simp [h])
        simpa using this
    have hnil : o ++ Separator :: r ≠ [] := by simp
    rw [filepath.Join, if_neg (by simp), filepath.Join, if_pos hne, hpath, filepath.Clean,
      if_neg hnil]
    simp only [if_neg hhead]
    rw [cleanLoop_owner_repo false o r [] 0 ⟨Nat.le_refl _, by simp⟩ ho hr]
    have : addSep false [] = [] := by simp [addSep]
    rw [this]
    simp
  | cons c cs =>
    have hpath : ∀ o r : GoString, strings.Join [c :: cs, o, r] [Separator] =
        (c :: cs) ++ Separator :: (o ++ Separator :: r) := by
      intro o r
      simp [strings.Join]
    by_cases hc : c = Separator
    · subst hc
      obtain ⟨out', dotdot', hinv', hrun⟩ := cleanLoop_prefix true cs.length cs (Nat.le_refl _)
        [Separator] 1 ⟨by simp, fun _ => Nat.le_refl _⟩
      refine ⟨addSep true out', ?_⟩
      intro o r ho hr
      rw [filepath.Join, if_pos (by simp), hpath, filepath.Clean, if_neg (by simp)]
      simp only [List.cons_append, List.head?_cons, if_true, List.tail_cons]
      rw [hrun (o ++ Separator :: r) _ (by simp),
        cleanLoop_owner_repo true o r out' dotdot' hinv' ho hr]
      have holen : o ≠ [] := ho.1
      simp [holen]
    · obtain ⟨out', dotdot', hinv', hrun⟩ := cleanLoop_prefix false (c :: cs).length (c :: cs)
        (Nat.le_refl _) [] 0 ⟨Nat.le_refl _, by simp⟩
      refine ⟨addSep false out', ?_⟩
      intro o r ho hr
      have hhead : ¬ (some c = some Separator) := by simpa using hc
      rw [filepath.Join, if_pos (by simp), hpath, filepath.Clean, if_neg (by simp)]
      simp only [List.cons_append, List.head?_cons, if_neg hhead]
      have h := hrun (o ++ Separator :: r) ((c :: cs) ++ Separator :: (o ++ Separator :: r)).length
        (Nat.le_refl _)
      simp only [List.cons_append] at h
      rw [h, cleanLoop_owner_repo false o r out' dotdot' hinv' ho hr]
      have holen : o ≠ [] := ho.1
      simp [holen]

/-- Two pairs of real elements with the same marker path are the same pair. -/
theorem Join_injective (workdir o₁ r₁ o₂ r₂ : GoString)
    (ho₁ : RealElem o₁) (hr₁ : RealElem r₁) (ho₂ : RealElem o₂) (hr₂ : RealElem r₂)
    (h : filepath.Join [workdir, o₁, r₁] = filepath.Join [workdir, o₂, r₂]) :
    o₁ = o₂ ∧ r₁ = r₂ := by
  obtain ⟨q, hq⟩ := Join_owner_repo workdir
  rw [hq o₁ r₁ ho₁ hr₁, hq o₂ r₂ ho₂ hr₂, List.append_assoc, List.append_assoc] at h
  exact append_sep_inj Separator o₁ o₂ r₁ r₂ ho₁.2.1 ho₂.2.1 (List.append_cancel_left h)

/-! ## The shape of a cleaned path -/

theorem Join_cons_cons (e e' : GoString) (es : List GoString) (sep : GoString) :
    strings.Join (e :: e' :: es) sep = e ++ sep ++ strings.Join (e' :: es) sep := by
  rw [strings.Join]
  simp

theorem Join_append_singleton (sep e : GoString) :
    ∀ cs : List GoString, cs ≠ [] →
      strings.Join (cs ++ [e]) sep = strings.Join cs sep ++ sep ++ e := by
  intro cs
  induction cs with
  | nil => intro h; exact absurd rfl h
  | cons c cs ih =>
    intro _
    cases cs with
    | nil => simp [strings.Join]
    | cons d ds =>
      rw [List.cons_append, List.cons_append, Join_cons_cons, Join_cons_cons,
        ← List.cons_append, ih (by simp)]
      simp

theorem Join_eq_nil (sep : GoString) :
    ∀ cs : List GoString, (∀ c ∈ cs, c ≠ []) → strings.Join cs sep = [] → cs = [] := by
  intro cs hne h
  cases cs with
  | nil => rfl
  | cons c cs =>
    exfalso
    have hc : c ≠ [] := hne c (by simp)
    cases cs with
    | nil => exact hc (by simpa [strings.Join] using h)
    | cons d ds =>
      rw [Join_cons_cons] at h
      simp only [List.append_assoc, List.append_eq_nil] at h
      exact hc h.1

theorem render_nil (rooted : Bool) :
    render rooted [] = if rooted = true then [Separator] else [] := by
  simp [render, strings.Join]

/-- Adding an element to a path: a separator goes in between unless the path is empty or
is the root. -/
theorem render_snoc (rooted : Bool) (comps : List GoString) (e : GoString)
    (hne : ∀ c ∈ comps, c ≠ []) :
    render rooted (comps ++ [e]) = addSep rooted (render rooted comps) ++ e := by
  by_cases hc : comps = []
  · subst hc
    cases rooted <;> simp [render, strings.Join, addSep]
  · have hj : strings.Join comps [Separator] ≠ [] := fun h => hc (Join_eq_nil _ comps hne h)
    have hlen : 0 < (strings.Join comps [Separator]).length := List.length_pos.mpr hj
    rw [render, Join_append_singleton _ _ comps hc]
    have hadd : addSep rooted (render rooted comps) = render rooted comps ++ [Separator] := by
      unfold addSep
      rw [if_pos]
      cases rooted with
      | true =>
        left
        have : (render true comps).length = 1 + (strings.Join comps [Separator]).length := by
          simp [render]; omega
        exact ⟨rfl, by omega⟩
      | false =>
        right
        have : (render false comps).length = (strings.Join comps [Separator]).length := by
          simp [render]
        exact ⟨rfl, by omega⟩
    rw [hadd, render]
    simp

theorem render_length_le (rooted : Bool) (comps more : List GoString) :
    (render rooted comps).length ≤ (render rooted (comps ++ more)).length := by
  induction more using List.reverseRecOn with
  | nil => simp
  | append_singleton ms m ih =>
    by_cases hc : comps ++ ms = []
    · have h1 : comps = [] := (List.append_eq_nil.mp hc).1
      subst h1
      simp [render, strings.Join]
    · simp only [render] at ih ⊢
      rw [← List.append_assoc, Join_append_singleton _ _ _ hc]
      simp only [List.length_append] at ih ⊢
      omega

/-- Where the backward scan of the `..` case stops: at the first index `b`, going down from
`w`, that is `dotdot` or holds a separator. -/
theorem backtrack_to (buf : GoString) (dotdot b : Nat) :
    ∀ w, dotdot ≤ b → b ≤ w →
      (∀ i, b < i → i ≤ w → buf[i]? ≠ some Separator) →
      (b = dotdot ∨ buf[b]? = some Separator) →
      filepath.backtrack buf dotdot w = b := by
  intro w
  induction w with
  | zero =>
    intro _ hb _ _
    have : b = 0 := by omega
    subst this
    rfl
  | succ n ih =>
    intro hd hb hall hor
    by_cases hbn : b = n + 1
    · subst hbn
      rw [filepath.backtrack, if_neg]
      rintro ⟨h1, h2⟩
      rcases hor with e | e
      · omega
      · exact h2 e
    · rw [filepath.backtrack, if_pos ⟨by omega, hall (n + 1) (by omega) (Nat.le_refl _)⟩]
      exact ih hd (by omega) (fun i h1 h2 => hall i h1 (by omega)) hor

theorem getElem?_ne_sep (x : GoString) (h : Separator ∉ x) (j : Nat) :
    x[j]? ≠ some Separator := fun hj => h (List.getElem?_mem hj)

theorem addSep_cases (rooted : Bool) (p : GoString) :
    addSep rooted p = p ++ [Separator] ∨
      (addSep rooted p = p ∧
        ((rooted = true ∧ p.length = 1) ∨ (rooted = false ∧ p.length = 0))) := by
  unfold addSep
  split
  · exact Or.inl rfl
  · rename_i h
    right
    refine ⟨rfl, ?_⟩
    cases rooted with
    | true =>
      left
      refine ⟨rfl, ?_⟩
      by_contra hc
      exact h (Or.inl ⟨rfl, hc⟩)
    | false =>
      right
      refine ⟨rfl, ?_⟩
      by_contra hc
      exact h (Or.inr ⟨rfl, hc⟩)

theorem replicate_dotdot_ne_nil (n : Nat) :
    ∀ c ∈ List.replicate n ([Dot, Dot] : GoString), c ≠ [] := by
  intro c hc
  rw [List.eq_of_mem_replicate hc]
  simp

theorem shape_elems_ne_nil (n : Nat) (names : List GoString) (h : ∀ x ∈ names, RealElem x) :
    ∀ c ∈ List.replicate n ([Dot, Dot] : GoString) ++ names, c ≠ [] := by
  intro c hc
  rcases List.mem_append.mp hc with e | e
  · exact replicate_dotdot_ne_nil n c e
  · exact (h c e).1

theorem render_dotdots_length (rooted : Bool) (n : Nat) (hn : rooted = true → n = 0) :
    (if rooted = true then 1 else 0) ≤
      (render rooted (List.replicate n ([Dot, Dot] : GoString))).length := by
  cases rooted <;> simp [render]

/-- The shape of the buffer implies the bounds on `dotdot`. -/
theorem CleanShape.inv {rooted : Bool} {out : GoString} {dotdot : Nat}
    (h : CleanShape rooted out dotdot) : CleanInv rooted out dotdot := by
  obtain ⟨n, names, hn, _, hout, hdd⟩ := h
  refine ⟨?_, ?_⟩
  · rw [hout, hdd]
    exact render_length_le rooted _ names
  · intro hr
    have := render_dotdots_length rooted n hn
    rw [hr] at this
    rw [hdd, hr]
    simpa using this

/-- A `..` element keeps the shape: it removes the last real element, or adds a `..`. -/
theorem CleanShape_dotdot (rooted : Bool) (out : GoString) (dotdot : Nat)
    (h : CleanShape rooted out dotdot) :
    CleanShape rooted (dotdotOut rooted out dotdot) (dotdotIdx rooted out dotdot) := by
  obtain ⟨n, names, hn, hreal, hout, hdd⟩ := h
  rcases List.eq_nil_or_concat names with hnil | ⟨ns, x, hx⟩
  · -- no real element to remove
    subst hnil
    rw [List.append_nil] at hout
    have hlen : ¬ dotdot < out.length := by rw [hdd, hout]; omega
    unfold dotdotOut dotdotIdx
    rw [if_neg hlen, if_neg hlen]
    cases rooted with
    | true => exact ⟨n, [], hn, hreal, by simpa using hout, hdd⟩
    | false =>
      have hsn : render false (List.replicate (n + 1) [Dot, Dot]) =
          (if 0 < out.length then out ++ [Separator] else out) ++ [Dot, Dot] := by
        rw [List.replicate_succ', render_snoc false _ _ (replicate_dotdot_ne_nil n), ← hout]
        congr 1
        unfold addSep
        by_cases h0 : 0 < out.length
        · rw [if_pos h0, if_pos (Or.inr ⟨rfl, by omega⟩)]
        · rw [if_neg h0, if_neg]
          rintro (⟨h1, _⟩ | ⟨_, h2⟩)
          · cases h1
          · omega
      refine ⟨n + 1, [], by simp, by simp, ?_, ?_⟩
      · simp only [if_true, List.append_nil]
        exact hsn.symm
      · simp only [if_true]
        rw [hsn]
  · -- the last real element is removed
    rw [List.concat_eq_append] at hx
    subst hx
    have hxreal : RealElem x := hreal x (by simp)
    have hnsreal : ∀ y ∈ ns, RealElem y := fun y hy => hreal y (by simp [hy])
    have hne := shape_elems_ne_nil n ns hnsreal
    have hP : out = addSep rooted (render rooted (List.replicate n [Dot, Dot] ++ ns)) ++ x := by
      rw [hout, ← List.append_assoc, render_snoc rooted _ x hne]
    have hddP : dotdot ≤ (render rooted (List.replicate n [Dot, Dot] ++ ns)).length := by
      rw [hdd]
      exact render_length_le rooted _ ns
    have hxlen : 0 < x.length := List.length_pos.mpr hxreal.1
    have hback : filepath.backtrack out dotdot (out.length - 1) =
          (render rooted (List.replicate n [Dot, Dot] ++ ns)).length ∧
        dotdot < out.length ∧
        out.take (render rooted (List.replicate n [Dot, Dot] ++ ns)).length =
          render rooted (List.replicate n [Dot, Dot] ++ ns) := by
      rcases addSep_cases rooted (render rooted (List.replicate n [Dot, Dot] ++ ns)) with
        hs | ⟨hs, hsmall⟩
      · rw [hs] at hP
        have hlen : out.length =
            (render rooted (List.replicate n [Dot, Dot] ++ ns)).length + 1 + x.length := by
          rw [hP]; simp only [List.length_append, List.length_singleton]
        refine ⟨?_, by omega, ?_⟩
        · apply backtrack_to out dotdot _ _ hddP (by omega)
          · intro i h1 h2
            rw [hP, List.append_assoc, List.getElem?_append_right (by omega)]
            obtain ⟨j, hj⟩ : ∃ j, i -
                (render rooted (List.replicate n [Dot, Dot] ++ ns)).length = j + 1 :=
              ⟨i - (render rooted (List.replicate n [Dot, Dot] ++ ns)).length - 1, by omega⟩
            rw [hj]
            simp only [List.singleton_append, List.getElem?_cons_succ]
            exact getElem?_ne_sep x hxreal.2.1 j
          · right
            rw [hP, List.append_assoc, List.getElem?_append_right (Nat.le_refl _)]
            simp
        · rw [hP, List.append_assoc, List.take_left]
      · rw [hs] at hP
        have hlen : out.length =
            (render rooted (List.replicate n [Dot, Dot] ++ ns)).length + x.length := by
          rw [hP]; simp
        have hdeq : (render rooted (List.replicate n [Dot, Dot] ++ ns)).length = dotdot := by
          have h1 := render_dotdots_length rooted n hn
          rw [← hdd] at h1
          rcases hsmall with ⟨hr, hl⟩ | ⟨hr, hl⟩
          · rw [hr] at h1
            simp only [if_true] at h1
            omega
          · omega
        refine ⟨?_, by omega, ?_⟩
        · apply backtrack_to out dotdot _ _ hddP (by omega)
          · intro i h1 h2
            rw [hP, List.getElem?_append_right (by omega)]
            exact getElem?_ne_sep x hxreal.2.1 _
          · left
            exact hdeq
        · rw [hP, List.take_left]
    obtain ⟨hb, hlt, htake⟩ := hback
    unfold dotdotOut dotdotIdx
    rw [if_pos hlt, if_pos hlt, hb, htake]
    exact ⟨n, ns, hn, hnsreal, rfl, hdd⟩

/-- Copying a real element keeps the shape. -/
theorem CleanShape_real (rooted : Bool) (out e : GoString) (dotdot : Nat) (he : RealElem e)
    (h : CleanShape rooted out dotdot) : CleanShape rooted (addSep rooted out ++ e) dotdot := by
  obtain ⟨n, names, hn, hreal, hout, hdd⟩ := h
  refine ⟨n, names ++ [e], hn, ?_, ?_, hdd⟩
  · intro x hx
    rcases List.mem_append.mp hx with h1 | h1
    · exact hreal x h1
    · rw [List.mem_singleton.mp h1]; exact he
  · rw [← List.append_assoc, render_snoc rooted _ e (shape_elems_ne_nil n names hreal), hout]

theorem render_length_rooted (comps : List GoString) : 1 ≤ (render true comps).length := by
  simp [render]

theorem addSep_length_ge (rooted : Bool) (out : GoString) :
    out.length ≤ (addSep rooted out).length := by
  unfold addSep
  split <;> simp

/-- Adding two elements to a path. -/
theorem render_snoc2 (rooted : Bool) (comps : List GoString) (o r : GoString)
    (hne : ∀ c ∈ comps, c ≠ []) (ho : o ≠ []) :
    render rooted (comps ++ [o, r]) =
      addSep rooted (render rooted comps) ++ o ++ Separator :: r := by
  have hsplit : comps ++ [o, r] = (comps ++ [o]) ++ [r] := by simp
  have hne' : ∀ c ∈ comps ++ [o], c ≠ [] := by
    intro c hc
    rcases List.mem_append.mp hc with h | h
    · exact hne c h
    · rw [List.mem_singleton.mp h]; exact ho
  have holen : 1 ≤ o.length := List.length_pos.mpr ho
  rw [hsplit, render_snoc rooted _ r hne', render_snoc rooted comps o hne]
  have hsep : addSep rooted (addSep rooted (render rooted comps) ++ o) =
      addSep rooted (render rooted comps) ++ o ++ [Separator] := by
    apply addSep_of_long
    · rw [List.length_append]; omega
    · intro hroot
      subst hroot
      have h1 := render_length_rooted comps
      have h2 := addSep_length_ge true (render true comps)
      rw [List.length_append]
      omega
  rw [hsep]
  simp

/-- For a working directory, the marker path of a pair of real elements is a fixed path of
`..` elements and names, followed by `owner` and `repo`. -/
theorem Join_shape (workdir : GoString) :
    ∃ (rooted : Bool) (n : Nat) (names : List GoString),
      (rooted = true → n = 0) ∧ (∀ x ∈ names, RealElem x) ∧
      ∀ o r : GoString, RealElem o → RealElem r →
        filepath.Join [workdir, o, r] =
          render rooted (List.replicate n [Dot, Dot] ++ names ++ [o, r]) := by
  have hfinal : ∀ (rooted : Bool) (out' : GoString) (dotdot' : Nat),
      CleanShape rooted out' dotdot' →
      ∃ (n : Nat) (names : List GoString),
        (rooted = true → n = 0) ∧ (∀ x ∈ names, RealElem x) ∧
        ∀ o r : GoString, RealElem o → RealElem r →
          (if (addSep rooted out' ++ o ++ Separator :: r).length = 0 then [Dot]
            else addSep rooted out' ++ o ++ Separator :: r) =
            render rooted (List.replicate n [Dot, Dot] ++ names ++ [o, r]) := by
    intro rooted out' dotdot' hshape
    obtain ⟨n, names, hn, hreal, hout, _⟩ := hshape
    refine ⟨n, names, hn, hreal, ?_⟩
    intro o r ho hr
    rw [render_snoc2 rooted _ o r (shape_elems_ne_nil n names hreal) ho.1, ← hout, if_neg]
    simp
  cases workdir with
  | nil =>
    obtain ⟨n, names, hn, hreal, hfin⟩ := hfinal false [] 0
      ⟨0, [], by simp, by simp, by simp [render, strings.Join], by simp [render, strings.Join]⟩
    refine ⟨false, n, names, hn, hreal, ?_⟩
    intro o r ho hr
    have hne : o ≠ [] := ho.1
    have hpath : strings.Join [o, r] [Separator] = o ++ Separator :: r := by
      simp [strings.Join]
    have hhead : (o ++ Separator :: r).head? ≠ some Separator := by
      cases o with
      | nil => exact absurd rfl hne
      | cons c cs =>
        have : c ≠ Separator := fun h => ho.2.1 (by simp [h])
        simpa using this
    have hnil : o ++ Separator :: r ≠ [] := by simp
    rw [filepath.Join, if_neg (by simp), filepath.Join, if_pos hne, hpath, filepath.Clean,
      if_neg hnil]
    simp only [if_neg hhead]
    rw [cleanLoop_owner_repo false o r [] 0 ⟨Nat.le_refl _, by simp⟩ ho hr]
    exact hfin o r ho hr
  | cons c cs =>
    have hpath : ∀ o r : GoString, strings.Join [c :: cs, o, r] [Separator] =
        (c :: cs) ++ Separator :: (o ++ Separator :: r) := by
      intro o r
      simp [strings.Join]
    by_cases hc : c = Separator
    · subst hc
      obtain ⟨out', dotdot', hinv', hrun⟩ := cleanLoop_prefix_inv true (CleanShape true)
        (fun out dotdot h => CleanShape_dotdot true out dotdot h)
        (fun out dotdot e he h => CleanShape_real true out e dotdot he h)
        cs.length cs (Nat.le_refl _) [Separator] 1
        ⟨0, [], by simp, by simp, by simp [render, strings.Join],
          by simp [render, strings.Join]⟩
      obtain ⟨n, names, hn, hreal, hfin⟩ := hfinal true out' dotdot' hinv'
      refine ⟨true, n, names, hn, hreal, ?_⟩
      intro o r ho hr
      rw [filepath.Join, if_pos (by simp), hpath, filepath.Clean, if_neg (by simp)]
      simp only [List.cons_append, List.head?_cons, if_true, List.tail_cons]
      rw [hrun (o ++ Separator :: r) _ (by simp),
        cleanLoop_owner_repo true o r out' dotdot' hinv'.inv ho hr]
      exact hfin o r ho hr
    · obtain ⟨out', dotdot', hinv', hrun⟩ := cleanLoop_prefix_inv false (CleanShape false)
        (fun out dotdot h => CleanShape_dotdot false out dotdot h)
        (fun out dotdot e he h => CleanShape_real false out e dotdot he h)
        (c :: cs).length (c :: cs) (Nat.le_refl _) [] 0
        ⟨0, [], by simp, by simp, by simp [render, strings.Join],
          by simp [render, strings.Join]⟩
      obtain ⟨n, names, hn, hreal, hfin⟩ := hfinal false out' dotdot' hinv'
      refine ⟨false, n, names, hn, hreal, ?_⟩
      intro o r ho hr
      have hhead : ¬ (some c = some Separator) := by simpa using hc
      rw [filepath.Join, if_pos (by simp), hpath, filepath.Clean, if_neg (by simp)]
      simp only [List.cons_append, List.head?_cons, if_neg hhead]
      have h := hrun (o ++ Separator :: r) ((c :: cs) ++ Separator :: (o ++ Separator :: r)).length
        (Nat.le_refl _)
      simp only [List.cons_append] at h
      rw [h, cleanLoop_owner_repo false o r out' dotdot' hinv'.inv ho hr]
      exact hfin o r ho hr

/-- Splitting a joined list of elements without separator gives the elements back. -/
theorem Split_Join (sep : Byte) :
    ∀ cs : List GoString, cs ≠ [] → (∀ c ∈ cs, sep ∉ c) →
      strings.Split (strings.Join cs [sep]) sep = cs := by
  intro cs
  induction cs with
  | nil => intro h; exact absurd rfl h
  | cons c cs ih =>
    intro _ hns
    cases cs with
    | nil =>
      simp only [strings.Join]
      exact Split_of_not_mem sep c (hns c (by simp))
    | cons d ds =>
      rw [Join_cons_cons]
      have : c ++ [sep] ++ strings.Join (d :: ds) [sep] =
          c ++ sep :: strings.Join (d :: ds) [sep] := by simp
      rw [this, Split_append_sep, Split_of_not_mem sep c (hns c (by simp)),
        ih (by simp) (fun x hx => hns x (List.mem_cons_of_mem _ hx))]
      rfl

theorem Split_render (rooted : Bool) (comps : List GoString) (hne : comps ≠ [])
    (hns : ∀ c ∈ comps, Separator ∉ c) :
    strings.Split (render rooted comps) Separator =
      (if rooted = true then [[]] else []) ++ comps := by
  cases rooted with
  | true =>
    simp only [render, if_true, List.singleton_append]
    rw [Split_cons_sep, Split_Join Separator comps hne hns]
  | false =>
    have h : render false comps = strings.Join comps [Separator] := by simp [render]
    rw [h, Split_Join Separator comps hne hns]
    simp

theorem render_head (rooted : Bool) (comps : List GoString)
    (hreal : ∀ c ∈ comps, c ≠ [] ∧ Separator ∉ c) (hne : comps ≠ []) :
    render rooted comps ≠ [] ∧
      ((render rooted comps).head? = some Separator ↔ rooted = true) := by
  cases rooted with
  | true => simp [render]
  | false =>
    cases comps with
    | nil => exact absurd rfl hne
    | cons c cs =>
      obtain ⟨hc, hs⟩ := hreal c (by simp)
      cases c with
      | nil => exact absurd rfl hc
      | cons b bs =>
        have hb : b ≠ Separator := fun h => hs (by simp [h])
        cases cs with
        | nil => simpa [render, strings.Join] using hb
        | cons d ds =>
          simp only [render, Join_cons_cons]
          simpa using hb

/-! ## Where the marker path leads -/

theorem stepKey_real (cur : Key) (e : GoString) (he : RealElem e) :
    stepKey cur e = cur ++ [e] := by
  unfold stepKey
  rw [if_neg, if_neg he.2.2.2]
  rintro (h | h)
  · exact he.1 h
  · exact he.2.2.1 h

theorem stepKey_dotdot (cur : Key) : stepKey cur [Dot, Dot] = cur.dropLast := by
  unfold stepKey
  rw [if_neg (by decide), if_pos rfl]

theorem stepKey_empty (cur : Key) : stepKey cur [] = cur := by
  unfold stepKey
  rw [if_pos (Or.inl rfl)]

theorem foldl_stepKey_real :
    ∀ (names : List GoString) (cur : Key), (∀ x ∈ names, RealElem x) →
      names.foldl stepKey cur = cur ++ names := by
  intro names
  induction names with
  | nil => intro cur _; simp
  | cons x xs ih =>
    intro cur h
    rw [List.foldl_cons, stepKey_real cur x (h x (by simp)),
      ih _ (fun y hy => h y (List.mem_cons_of_mem _ hy))]
    simp

theorem foldl_stepKey_dotdots :
    ∀ (n : Nat) (cur : Key),
      (List.replicate n ([Dot, Dot] : GoString)).foldl stepKey cur =
        cur.take (cur.length - n) := by
  intro n
  induction n with
  | zero => intro cur; simp
  | succ n ih =>
    intro cur
    rw [List.replicate_succ, List.foldl_cons, stepKey_dotdot, ih, List.dropLast_eq_take,
      List.take_take]
    congr 1
    simp only [List.length_take]
    omega

/-- In a well-formed file system every proper prefix of the key of an entry is a
directory. -/
theorem WF_prefix_dirs (fs : FileSystem) (hwf : fs.WellFormed) :
    ∀ k : Key, fs.entry k ≠ none → ∀ i, i < k.length →
      fs.entry (k.take i) = some Node.dir := by
  intro k
  induction k using List.reverseRecOn with
  | nil => intro _ i hi; simp at hi
  | append_singleton q x ih =>
    intro hk i hi
    have hne : q ++ [x] ≠ [] := by simp
    have hnode : fs.node (q ++ [x]) ≠ none := by
      rw [← entry_of_ne_nil fs _ hne]; exact hk
    have hq : fs.entry q = some Node.dir := by
      have := hwf.2 (q ++ [x]) hnode hne
      rwa [List.dropLast_concat] at this
    simp only [List.length_append, List.length_singleton] at hi
    by_cases hiq : i = q.length
    · subst hiq
      rw [List.take_left]
      exact hq
    · rw [List.take_append_of_le_length (by omega)]
      exact ih (by rw [hq]; simp) i (by omega)

/-- Going up `n` times from a directory whose ancestors are directories. -/
theorem walk_dotdots (fs : FileSystem) (rest : List GoString) :
    ∀ (n : Nat) (cur : Key), (∀ i, i ≤ cur.length → fs.entry (cur.take i) = some Node.dir) →
      fs.walk cur (List.replicate n ([Dot, Dot] : GoString) ++ rest) =
        fs.walk (cur.take (cur.length - n)) rest := by
  intro n
  induction n with
  | zero => intro cur _; simp
  | succ n ih =>
    intro cur h
    have hcur : fs.entry cur = some Node.dir := by
      have := h cur.length (Nat.le_refl _)
      rwa [List.take_length] at this
    rw [List.replicate_succ, List.cons_append, FileSystem.walk, hcur]
    simp only
    rw [stepKey_dotdot, ih]
    · rw [List.dropLast_eq_take, List.take_take]
      congr 2
      simp only [List.length_take]
      omega
    · intro i hi
      rw [List.dropLast_eq_take, List.take_take]
      simp only [List.length_dropLast] at hi
      have : min i (cur.length - 1) = i := by omega
      rw [this]
      exact h i (by omega)

/-- Going down along names through directories. -/
theorem walk_names (fs : FileSystem) :
    ∀ (names : List GoString) (cur : Key), (∀ x ∈ names, RealElem x) →
      (∀ i, i < names.length → fs.entry (cur ++ names.take i) = some Node.dir) →
      fs.walk cur names = .ok (cur ++ names) := by
  intro names
  induction names with
  | nil => intro cur _ _; simp [FileSystem.walk]
  | cons x xs ih =>
    intro cur hreal h
    have hcur : fs.entry cur = some Node.dir := by
      have := h 0 (by simp)
      simpa using this
    rw [FileSystem.walk, hcur]
    simp only
    rw [stepKey_real cur x (hreal x (by simp)),
      ih (cur ++ [x]) (fun y hy => hreal y (List.mem_cons_of_mem _ hy))]
    · simp
    · intro i hi
      have := h (i + 1) (by simp; omega)
      simpa using this

theorem dotdot_no_sep : Separator ∉ ([Dot, Dot] : GoString) := by decide

/-- The resolution of a path of elements without separator. -/
theorem resolve_render (fs : FileSystem) (rooted : Bool) (comps : List GoString)
    (hne : comps ≠ []) (hreal : ∀ c ∈ comps, c ≠ [] ∧ Separator ∉ c) :
    fs.resolve (render rooted comps) =
      fs.walk (if rooted = true then [] else fs.cwd) comps := by
  obtain ⟨hnil, hhead⟩ := render_head rooted comps hreal hne
  rw [FileSystem.resolve, if_neg hnil, Split_render rooted comps hne (fun c hc => (hreal c hc).2)]
  cases rooted with
  | true =>
    rw [if_pos (hhead.mpr rfl)]
    simp only [if_true, List.singleton_append]
    rw [FileSystem.walk, entry_root]
    simp only
    rw [stepKey_empty]
  | false =>
    rw [if_neg (fun h => Bool.noConfusion (hhead.mp h))]
    simp

/-- For a working directory, the marker path of a pair of real elements resolves to a fixed
key followed by `owner` and `repo`; in a well-formed file system it does resolve when that
entry exists. -/
theorem marker_resolve (workdir : GoString) :
    ∃ base : Key → Key, ∀ o r : GoString, RealElem o → RealElem r → ∀ fs : FileSystem,
      (∀ k, fs.resolve (filepath.Join [workdir, o, r]) = .ok k → k = base fs.cwd ++ [o, r]) ∧
      (fs.WellFormed → fs.entry (base fs.cwd ++ [o, r]) ≠ none →
        fs.resolve (filepath.Join [workdir, o, r]) = .ok (base fs.cwd ++ [o, r])) := by
  obtain ⟨rooted, n, names, hn, hreal, hjoin⟩ := Join_shape workdir
  refine ⟨fun cwd => (if rooted = true then [] else cwd).take
    ((if rooted = true then [] else cwd).length - n) ++ names, ?_⟩
  intro o r ho hr fs
  have hcomps : ∀ c ∈ List.replicate n ([Dot, Dot] : GoString) ++ names ++ [o, r],
      c ≠ [] ∧ Separator ∉ c := by
    intro c hc
    rcases List.mem_append.mp hc with h | h
    · rcases List.mem_append.mp h with h' | h'
      · rw [List.eq_of_mem_replicate h']
        exact ⟨by simp, dotdot_no_sep⟩
      · exact ⟨(hreal c h').1, (hreal c h').2.1⟩
    · simp only [List.mem_cons, List.mem_singleton, List.not_mem_nil, or_false] at h
      rcases h with h | h
      · rw [h]; exact ⟨ho.1, ho.2.1⟩
      · rw [h]; exact ⟨hr.1, hr.2.1⟩
  have hres : fs.resolve (filepath.Join [workdir, o, r]) =
      fs.walk (if rooted = true then [] else fs.cwd)
        (List.replicate n ([Dot, Dot] : GoString) ++ (names ++ [o, r])) := by
    rw [hjoin o r ho hr, resolve_render fs rooted _ (by simp) hcomps, List.append_assoc]
  have hreal' : ∀ x ∈ names ++ [o, r], RealElem x := by
    intro x hx
    rcases List.mem_append.mp hx with h | h
    · exact hreal x h
    · simp only [List.mem_cons, List.mem_singleton, List.not_mem_nil, or_false] at h
      rcases h with h | h
      · rw [h]; exact ho
      · rw [h]; exact hr
  refine ⟨?_, ?_⟩
  · intro k hk
    rw [hres] at hk
    have := walk_key fs _ _ k hk
    rw [List.foldl_append, foldl_stepKey_dotdots, foldl_stepKey_real _ _ hreal'] at this
    rw [this]
    simp
  · intro hwf hent
    simp only at hent ⊢
    rw [hres, walk_dotdots]
    · rw [walk_names fs _ _ hreal']
      · simp
      · intro i hi
        have h := WF_prefix_dirs fs hwf _ hent
          (((if rooted = true then [] else fs.cwd).take
            ((if rooted = true then [] else fs.cwd).length - n)).length + i)
          (by rw [List.append_assoc, List.length_append]; omega)
        rw [List.append_assoc, List.take_append] at h
        exact h
    · intro i hi
      cases rooted with
      | true => simp [entry_root]
      | false =>
        simp only [Bool.false_eq_true, if_false] at hi ⊢
        by_cases hil : i = fs.cwd.length
        · rw [hil, List.take_length]; exact hwf.1
        · exact WF_prefix_dirs fs hwf fs.cwd (by rw [hwf.1]; simp) i (by omega)

/-! ## What `downloadFile` and `writeTag` leave in place -/

theorem entry_congr (fs fs' : FileSystem) (k : Key) (h : fs'.node k = fs.node k) :
    fs'.entry k = fs.entry k := by
  unfold FileSystem.entry
  rw [h]

/-- Two file systems with the same directories, and the same entry where the path leads,
answer a lookup of the path alike. -/
theorem lookup_congr_at (fs fs' : FileSystem) (name : GoString) (h : DirEquiv fs fs')
    (hk : ∀ k, fs.resolve name = .ok k → fs'.entry k = fs.entry k) :
    fs'.lookup name = fs.lookup name := by
  unfold FileSystem.lookup
  cases hr : fs.resolve name with
  | ok k =>
    rw [(resolve_congr fs fs' h name k).mpr hr]
    exact hk k hr
  | error e =>
    cases hr' : fs'.resolve name with
    | ok k =>
      have := (resolve_congr fs fs' h name k).mp hr'
      rw [hr] at this
      cases this
    | error e' => rfl

/-- A path that does not lead to the entry the output path leads to names the same entry
after `downloadFile` as before. -/
theorem downloadFile_keeps (a : application) (env : Remote) (output url : GoString)
    (w : World) (name : GoString)
    (hne : ∀ k, w.fs.resolve output = .ok k → w.fs.resolve name ≠ .ok k) :
    (downloadFile a env output url w).2.fs.lookup name = w.fs.lookup name := by
  obtain ⟨hde, hfr⟩ := downloadFile_frame a env output url w
  apply lookup_congr_at _ _ _ hde
  intro k hk
  exact entry_congr _ _ k (hfr k (fun ho => hne k ho hk))

/-- The function `downloadFile` returns no error exactly when the output file is created,
the GET is answered, the body is written and the stream ends without a read error. -/
theorem downloadFile_none_iff (a : application) (env : Remote) (output url : GoString)
    (w : World) :
    (downloadFile a env output url w).1 = none ↔
      ∃ fs1 f resp, os.Create w.fs output = .ok (fs1, f) ∧ env.Get url = .ok resp ∧
        (os.Write fs1 f resp.body).2 = none ∧ resp.readErr = none := by
  cases hcr : os.Create w.fs output with
  | error e =>
    rw [downloadFile_create_failed a env output url w e hcr]
    constructor
    · intro h; cases h
    · rintro ⟨_, _, _, h, _⟩; cases h
  | ok p =>
    obtain ⟨fs1, f⟩ := p
    cases hget : env.Get url with
    | error e =>
      rw [downloadFile_get_failed a env output url w fs1 f e hcr hget]
      constructor
      · intro h; cases h
      · rintro ⟨_, _, _, _, h, _⟩; cases h
    | ok resp =>
      cases hwr : (os.Write fs1 f resp.body).2 with
      | some e =>
        rw [downloadFile_write_failed a env output url w fs1 f resp e hcr hget hwr]
        constructor
        · intro h; cases h
        · rintro ⟨fs1', f', resp', h1, h2, h3, _⟩
          cases h1
          cases h2
          rw [hwr] at h3
          cases h3
      | none =>
        rw [downloadFile_written a env output url w fs1 f resp hcr hget hwr]
        constructor
        · intro h
          exact ⟨fs1, f, resp, rfl, rfl, hwr, h⟩
        · rintro ⟨fs1', f', resp', h1, h2, _, h4⟩
          cases h1
          cases h2
          exact h4

/-- What `writeTag` does to the file system, whatever it returns: directories are made,
then at most the entry the marker path leads to, no directory, is replaced. -/
theorem writeTag_frame (a : application) (owner repo tag : GoString) (w : World) :
    ∃ fsA, Grown w.fs fsA ∧
      ((writeTag a owner repo tag w).2.fs = fsA ∨
        ∃ k, fsA.resolve (filepath.Join [a.workingDir, owner, repo]) = .ok k ∧
          Sim k fsA (writeTag a owner repo tag w).2.fs) := by
  refine ⟨(os.MkdirAll w.fs (filepath.Dir (filepath.Join [a.workingDir, owner, repo]))).1,
    MkdirAll_grown _ _, ?_⟩
  cases hmk : (os.MkdirAll w.fs
      (filepath.Dir (filepath.Join [a.workingDir, owner, repo]))).2 with
  | some e =>
    left
    rw [writeTag_mkdir_failed a owner repo tag w e hmk]
  | none =>
    cases hcr : os.Create (os.MkdirAll w.fs
        (filepath.Dir (filepath.Join [a.workingDir, owner, repo]))).1
        (filepath.Join [a.workingDir, owner, repo]) with
    | error e =>
      left
      rw [writeTag_create_failed a owner repo tag w e hmk hcr]
    | ok p =>
      obtain ⟨fs2, f⟩ := p
      right
      obtain ⟨_, hres, hknil, hnd, hnode, hother, hcwd, _⟩ := Create_ok _ _ _ _ hcr
      refine ⟨f.key, hres, ?_⟩
      rw [writeTag_created a owner repo tag w fs2 f hmk hcr]
      obtain ⟨hwcwd, hwother⟩ := Write_other fs2 f tag
      obtain ⟨content', hw, _⟩ := Write_keeps_file fs2 f tag [] true true hnode
      refine ⟨?_, hknil, ?_, hnd, ?_⟩
      · show (os.Write fs2 f tag).1.cwd = _
        rw [hwcwd, hcwd]
      · intro q hq
        show (os.Write fs2 f tag).1.node q = _
        rw [hwother q hq, hother q hq]
      · show (os.Write fs2 f tag).1.node f.key ≠ _
        rw [hw]
        simp

/-- What the marker of one pair of real elements reads as is kept by `writeTag` for
another pair; in a well-formed file system nothing new can be read there either. -/
theorem writeTag_keeps_other (a : application) (o₁ r₁ o₂ r₂ tag : GoString) (w : World)
    (ho₁ : RealElem o₁) (hr₁ : RealElem r₁) (ho₂ : RealElem o₂) (hr₂ : RealElem r₂)
    (hne : (o₁, r₁) ≠ (o₂, r₂)) (content : GoString) :
    (ioutil.ReadFile w.fs (filepath.Join [a.workingDir, o₂, r₂]) = .ok content →
      ioutil.ReadFile (writeTag a o₁ r₁ tag w).2.fs
        (filepath.Join [a.workingDir, o₂, r₂]) = .ok content) ∧
    (w.fs.WellFormed →
      ioutil.ReadFile (writeTag a o₁ r₁ tag w).2.fs
        (filepath.Join [a.workingDir, o₂, r₂]) = .ok content →
      ioutil.ReadFile w.fs (filepath.Join [a.workingDir, o₂, r₂]) = .ok content) := by
  obtain ⟨base, hbase⟩ := marker_resolve a.workingDir
  have hkeys : base w.fs.cwd ++ [o₂, r₂] ≠ base w.fs.cwd ++ [o₁, r₁] := by
    intro h
    have := List.append_cancel_left h
    simp only [List.cons.injEq, and_true] at this
    exact hne (by rw [this.1, this.2])
  have hk2 : base w.fs.cwd ++ [o₂, r₂] ≠ [] := by simp
  obtain ⟨fsA, hg, hcase⟩ := writeTag_frame a o₁ r₁ tag w
  -- the frame: same working directory, directories kept, file entries at the other key alike
  have hframe : (writeTag a o₁ r₁ tag w).2.fs.cwd = w.fs.cwd ∧
      (∀ k, w.fs.entry k = some Node.dir →
        (writeTag a o₁ r₁ tag w).2.fs.entry k = some Node.dir) ∧
      (∀ c r x, (writeTag a o₁ r₁ tag w).2.fs.entry (base w.fs.cwd ++ [o₂, r₂]) =
          some (Node.file c r x) ↔
        w.fs.entry (base w.fs.cwd ++ [o₂, r₂]) = some (Node.file c r x)) := by
    have hA : ∀ c r x, fsA.entry (base w.fs.cwd ++ [o₂, r₂]) = some (Node.file c r x) ↔
        w.fs.entry (base w.fs.cwd ++ [o₂, r₂]) = some (Node.file c r x) := by
      intro c r x
      rw [entry_of_ne_nil _ _ hk2, entry_of_ne_nil _ _ hk2]
      rcases hg.2 (base w.fs.cwd ++ [o₂, r₂]) with h | ⟨h1, h2⟩
      · rw [h]
      · rw [h1, h2]
        simp
    rcases hcase with h | ⟨k, hres, hsim⟩
    · rw [h]
      exact ⟨hg.1, fun k hk => hg.dir k hk, hA⟩
    · have hk : k = base w.fs.cwd ++ [o₁, r₁] := by
        have := (hbase o₁ r₁ ho₁ hr₁ fsA).1 k hres
        rw [hg.1] at this
        exact this
      refine ⟨by rw [hsim.1, hg.1], ?_, ?_⟩
      · intro q hq
        exact (hsim.dirEquiv.2 q).mpr (hg.dir q hq)
      · intro c r x
        rw [hsim.entry _ (by rw [hk]; exact hkeys)]
        exact hA c r x
  obtain ⟨hcwd, hdirs, hfile⟩ := hframe
  rw [ReadFile_ok_iff, ReadFile_ok_iff]
  constructor
  · rintro ⟨x, hx⟩
    obtain ⟨k, hres, hent⟩ := (lookup_eq_some _ _ _).mp hx
    have hk := (hbase o₂ r₂ ho₂ hr₂ _).1 k hres
    rw [hk] at hent hres
    have hres' := resolve_mono w.fs _ hcwd hdirs _ _ hres
    exact ⟨x, (lookup_eq_some _ _ _).mpr ⟨_, hres', (hfile content true x).mpr hent⟩⟩
  · rintro hwf ⟨x, hx⟩
    obtain ⟨k, hres, hent⟩ := (lookup_eq_some _ _ _).mp hx
    have hk := (hbase o₂ r₂ ho₂ hr₂ _).1 k hres
    rw [hcwd] at hk
    rw [hk] at hent
    have hent' := (hfile content true x).mp hent
    have hres' := (hbase o₂ r₂ ho₂ hr₂ w.fs).2 hwf (by rw [hent']; simp)
    exact ⟨x, (lookup_eq_some _ _ _).mpr ⟨_, hres', hent'⟩⟩

/-- Once `os.Create` has made the output file, the output path leads to a regular file
after `downloadFile`, whatever `downloadFile` returns. -/
theorem downloadFile_output_stays (a : application) (env : Remote) (output url : GoString)
    (w : World) (fs1 : FileSystem) (f : File) (hcr : os.Create w.fs output = .ok (fs1, f)) :
    ∃ content, (downloadFile a env output url w).2.fs.lookup output =
      some (Node.file content true true) := by
  obtain ⟨content, hnode⟩ := downloadFile_leaves_file a env output url w fs1 f hcr
  obtain ⟨_, hres, hknil, _⟩ := Create_ok _ _ _ _ hcr
  obtain ⟨hde, _⟩ := downloadFile_frame a env output url w
  refine ⟨content, (lookup_eq_some _ _ _).mpr ⟨f.key, ?_, ?_⟩⟩
  · exact (resolve_congr _ _ hde output f.key).mpr hres
  · rw [entry_of_ne_nil _ _ hknil, hnode]

/-! ## Well-formed file systems stay well-formed -/

theorem WellFormed_congr (fs fs' : FileSystem) (hcwd : fs'.cwd = fs.cwd)
    (h : ∀ q, fs'.entry q = fs.entry q) (hwf : fs.WellFormed) : fs'.WellFormed := by
  refine ⟨by rw [hcwd, h]; exact hwf.1, ?_⟩
  intro q hq hne
  rw [h]
  apply hwf.2 q _ hne
  rw [← entry_of_ne_nil fs q hne, ← h, entry_of_ne_nil fs' q hne]
  exact hq

theorem set_entry_same (fs : FileSystem) (k : Key) (n : Node) (hk : k ≠ []) :
    (fs.set k n).entry k = some n := by
  rw [entry_of_ne_nil _ _ hk, set_node_same]

theorem set_entry_other (fs : FileSystem) (k q : Key) (n : Node) (h : q ≠ k) :
    (fs.set k n).entry q = fs.entry q :=
  entry_congr _ _ q (set_node_other fs k q n h)

/-- Replacing an entry that lies in a directory keeps the file system well-formed, provided
a directory is not replaced by a file. -/
theorem set_wellFormed (fs : FileSystem) (k : Key) (n : Node) (hwf : fs.WellFormed)
    (hk : k ≠ []) (hparent : fs.entry k.dropLast = some Node.dir)
    (hnd : fs.entry k = some Node.dir → n = Node.dir) : (fs.set k n).WellFormed := by
  have hdir : ∀ q, fs.entry q = some Node.dir → (fs.set k n).entry q = some Node.dir := by
    intro q hq
    by_cases hqk : q = k
    · subst hqk
      rw [set_entry_same fs q n hk, hnd hq]
    · rw [set_entry_other fs k q n hqk]
      exact hq
  refine ⟨hdir _ hwf.1, ?_⟩
  intro q hq hne
  apply hdir
  by_cases hqk : q = k
  · rw [hqk]; exact hparent
  · rw [set_node_other fs k q n hqk] at hq
    exact hwf.2 q hq hne

theorem Create_wellFormed (fs fs' : FileSystem) (name : GoString) (f : File)
    (h : os.Create fs name = .ok (fs', f)) (hwf : fs.WellFormed) : fs'.WellFormed := by
  unfold os.Create at h
  cases hr : fs.resolve name with
  | error e => rw [hr] at h; cases h
  | ok k =>
    rw [hr] at h
    simp only at h
    cases he : fs.entry k with
    | none =>
      rw [he] at h
      simp only at h
      split at h
      · rename_i hp
        have hk : k ≠ [] := by
          intro hk
          rw [hk, entry_root] at he
          cases he
        cases h
        exact set_wellFormed fs k _ hwf hk hp (by rw [he]; intro hc; cases hc)
      · cases h
    | some nd =>
      rw [he] at h
      cases nd with
      | dir => cases h
      | file content readable writable =>
        simp only at h
        split at h
        · have hk : k ≠ [] := by
            intro hk
            rw [hk, entry_root] at he
            cases he
          have hnode : fs.node k ≠ none := by
            rw [← entry_of_ne_nil fs k hk, he]; simp
          cases h
          apply WellFormed_congr (fs.set k (Node.file [] readable writable)) _ rfl
            (fun _ => rfl)
          exact set_wellFormed fs k _ hwf hk (hwf.2 k hnode hk)
            (by rw [he]; intro hc; cases hc)
        · cases h

theorem Write_wellFormed (fs : FileSystem) (f : File) (data : GoString)
    (hwf : fs.WellFormed) : (os.Write fs f data).1.WellFormed := by
  unfold os.Write
  cases hn : fs.node f.key with
  | none => exact hwf
  | some nd =>
    cases nd with
    | dir => exact hwf
    | file content readable writable =>
      simp only
      by_cases hk : f.key = []
      · have hq : ∀ (n : Node) (x : Nat) (q : Key),
            FileSystem.entry { (fs.set f.key n) with free := x } q = fs.entry q := by
          intro n x q
          unfold FileSystem.entry FileSystem.set
          by_cases hq : q = []
          · simp [hq]
          · simp [hq, hk]
        split
        · exact WellFormed_congr fs _ rfl (hq _ _) hwf
        · exact WellFormed_congr fs _ rfl (hq _ _) hwf
      · have hnode : fs.node f.key ≠ none := by rw [hn]; simp
        have hent : fs.entry f.key = some (Node.file content readable writable) := by
          rw [entry_of_ne_nil fs _ hk, hn]
        split
        · apply WellFormed_congr (fs.set f.key (Node.file (content ++ data) readable writable))
            _ rfl (fun _ => rfl)
          exact set_wellFormed fs f.key _ hwf hk (hwf.2 _ hnode hk)
            (by rw [hent]; intro hc; cases hc)
        · apply WellFormed_congr
            (fs.set f.key (Node.file (content ++ data.take fs.free) readable writable))
            _ rfl (fun _ => rfl)
          exact set_wellFormed fs f.key _ hwf hk (hwf.2 _ hnode hk)
            (by rw [hent]; intro hc; cases hc)

theorem Mkdir_wellFormed (fs : FileSystem) (name : GoString) (hwf : fs.WellFormed) :
    (os.Mkdir fs name).1.WellFormed := by
  unfold os.Mkdir
  cases hr : fs.resolve (os.dropTrailingSep name) with
  | error e => exact hwf
  | ok k =>
    simp only
    cases he : fs.entry k with
    | some nd => exact hwf
    | none =>
      simp only
      split
      · rename_i hp
        have hk : k ≠ [] := by
          intro hk
          rw [hk, entry_root] at he
          cases he
        exact set_wellFormed fs k _ hwf hk hp (fun _ => rfl)
      · exact hwf

theorem mkdirAllAux_wellFormed :
    ∀ (fuel : Nat) (fs : FileSystem) (path : GoString), fs.WellFormed →
      (os.mkdirAllAux fuel fs path).1.WellFormed := by
  intro fuel
  induction fuel with
  | zero => intro fs path hwf; exact hwf
  | succ n ih =>
    intro fs path hwf
    unfold os.mkdirAllAux
    cases hl : fs.lookup path with
    | some nd =>
      cases nd with
      | dir => exact hwf
      | file c r x => exact hwf
    | none =>
      simp only
      split
      · have hrec := ih fs
          (path.take (filepath.dirLen path (os.trimSep path path.length) - 1)) hwf
        cases hres : os.mkdirAllAux n fs
            (path.take (filepath.dirLen path (os.trimSep path path.length) - 1)) with
        | mk fs1 e =>
          rw [hres] at hrec
          cases e with
          | some err => exact hrec
          | none =>
            simp only
            rw [mkdirLast_fs]
            exact Mkdir_wellFormed fs1 path hrec
      · rw [mkdirLast_fs]
        exact Mkdir_wellFormed fs path hwf

theorem MkdirAll_wellFormed (fs : FileSystem) (path : GoString) (hwf : fs.WellFormed) :
    (os.MkdirAll fs path).1.WellFormed :=
  mkdirAllAux_wellFormed _ fs path hwf

theorem downloadFile_wellFormed (a : application) (env : Remote) (output url : GoString)
    (w : World) (hwf : w.fs.WellFormed) :
    (downloadFile a env output url w).2.fs.WellFormed := by
  cases hcr : os.Create w.fs output with
  | error e =>
    rw [downloadFile_create_failed a env output url w e hcr]
    exact hwf
  | ok p =>
    obtain ⟨fs1, f⟩ := p
    have h1 := Create_wellFormed _ _ _ _ hcr hwf
    cases hget : env.Get url with
    | error e =>
      rw [downloadFile_get_failed a env output url w fs1 f e hcr hget]
      exact h1
    | ok resp =>
      cases hwr : (os.Write fs1 f resp.body).2 with
      | some e =>
        rw [downloadFile_write_failed a env output url w fs1 f resp e hcr hget hwr]
        exact Write_wellFormed fs1 f resp.body h1
      | none =>
        rw [downloadFile_written a env output url w fs1 f resp hcr hget hwr]
        exact Write_wellFormed fs1 f resp.body h1

theorem writeTag_wellFormed (a : application) (owner repo tag : GoString) (w : World)
    (hwf : w.fs.WellFormed) : (writeTag a owner repo tag w).2.fs.WellFormed := by
  have hA := MkdirAll_wellFormed w.fs
    (filepath.Dir (filepath.Join [a.workingDir, owner, repo])) hwf
  cases hmk : (os.MkdirAll w.fs
      (filepath.Dir (filepath.Join [a.workingDir, owner, repo]))).2 with
  | some e =>
    rw [writeTag_mkdir_failed a owner repo tag w e hmk]
    exact hA
  | none =>
    cases hcr : os.Create (os.MkdirAll w.fs
        (filepath.Dir (filepath.Join [a.workingDir, owner, repo]))).1
        (filepath.Join [a.workingDir, owner, repo]) with
    | error e =>
      rw [writeTag_create_failed a owner repo tag w e hmk hcr]
      exact hA
    | ok p =>
      obtain ⟨fs2, f⟩ := p
      rw [writeTag_created a owner repo tag w fs2 f hmk hcr]
      exact Write_wellFormed fs2 f tag (Create_wellFormed _ _ _ _ hcr hA)

/-- A run of `Fetch` from a well-formed file system ends in a well-formed file system. -/
theorem Fetch_wellFormed (a : application) (env : Remote) (w : World)
    (hwf : w.fs.WellFormed) : (Fetch a env w).2.fs.WellFormed := by
  by_cases h : ∃ owner repo url output,
      findOwnerAndRepo a a.ownerAndRepo = .done (owner, repo, none) ∧
      (assertTag a owner repo (GetTagName (env.GetLatestRelease owner repo).1)
        (w.logged (.getLatestRelease owner repo))).1 = none ∧
      findDownloadURL a (env.GetLatestRelease owner repo).1 = .done (url, none) ∧
      findOutputPath a url = .done output
  · obtain ⟨owner, repo, url, output, hparse, hassert, hurl, hout⟩ := h
    have hdlwf := downloadFile_wellFormed a env output url
      (atDownload a w owner repo url output) hwf
    cases hdl : (downloadFile a env output url (atDownload a w owner repo url output)).1 with
    | some err =>
      rw [Fetch_download_failed a env w owner repo url output err hparse hassert hurl hout
        hdl]
      exact hdlwf
    | none =>
      have hwt := writeTag_wellFormed a owner repo
        (GetTagName (env.GetLatestRelease owner repo).1) _ hdlwf
      cases hres : (writeTag a owner repo (GetTagName (env.GetLatestRelease owner repo).1)
          (downloadFile a env output url (atDownload a w owner repo url output)).2).1 with
      | some err5 =>
        rw [Fetch_writeTag_failed a env w owner repo url output err5 hparse hassert hurl hout
          hdl hres]
        exact hwt
      | none =>
        rw [Fetch_all_ok a env w owner repo url output hparse hassert hurl hout hdl hres]
        exact hwt
  · rw [(Fetch_stopped a env w h).1]
    exact hwf

/-! ## The concrete file systems are well-formed -/

theorem emptyFS_wellFormed : emptyFS.WellFormed := by
  refine ⟨by decide, ?_⟩
  intro k hk _
  have : k = [str "work"] := by
    by_contra hc
    exact hk (by simp [emptyFS, hc])
  rw [this]
  decide

theorem markedFS_wellFormed (content : GoString) : (markedFS content).WellFormed := by
  refine ⟨rfl, ?_⟩
  intro k hk _
  by_cases h1 : k = [str "work"]
  · rw [h1]; rfl
  · by_cases h2 : k = [str "work", str ".grm"]
    · rw [h2]; rfl
    · by_cases h3 : k = [str "work", str ".grm", str "owner"]
      · rw [h3]; rfl
      · by_cases h4 : k = [str "work", str ".grm", str "owner", str "repo"]
        · rw [h4]; rfl
        · exact absurd (by simp [markedFS, h1, h2, h3, h4]) hk

/-! ## The file-system calls on some paths -/

/-- The call `os.Create` on some paths: another spelling of the path of a file truncates
that file; `.` and `..` are refused as directories; a path through a regular file, a path
into a missing directory and a path that ends in a separator are refused. -/
theorem Create_paths :
    (World.Create { fs := markedFS (str "tag0"), calls := [] } (str "./.grm/owner/repo")).1 =
      .ok { name := str "./.grm/owner/repo",
            key := [str "work", str ".grm", str "owner", str "repo"] } ∧
    (World.Create { fs := markedFS (str "tag0"), calls := [] }
        (str "./.grm/owner/repo")).2.fs.lookup (str ".grm/owner/repo") =
      some (Node.file [] true true) ∧
    (World.Create { fs := markedFS (str "tag0"), calls := [] }
        (str "/work/.grm/../.grm/owner/repo")).2.fs.lookup (str ".grm/owner/repo") =
      some (Node.file [] true true) ∧
    (World.Create { fs := emptyFS, calls := [] } (str ".")).1 =
      .error (str "open .: is a directory") ∧
    (World.Create { fs := emptyFS, calls := [] } (str "..")).1 =
      .error (str "open ..: is a directory") ∧
    (World.Create { fs := blockedFS, calls := [] } (str ".grm/x")).1 =
      .error (str "open .grm/x: not a directory") ∧
    (World.Create { fs := emptyFS, calls := [] } (str "missing/x")).1 =
      .error (str "open missing/x: no such file or directory") ∧
    (World.Create { fs := emptyFS, calls := [] } (str "x/")).1 =
      .error (str "open x/: is a directory") ∧
    (World.Create { fs := emptyFS, calls := [] } []).1 =
      .error (str "open : no such file or directory") ∧
    (Fetch dotOutputApplication testRemote { fs := emptyFS, calls := [] }).1 =
      .done (some (str "open .: is a directory")) := by
  and_intros <;> decide

/-- The call `os.MkdirAll` on some paths: missing directories are made, an existing
directory is kept, `dir/.` is accepted after the check that follows a failed `Mkdir`, and a
regular file on the way is refused. -/
theorem MkdirAll_paths :
    ((os.MkdirAll emptyFS (str ".grm/owner")).2 = none ∧
      (os.MkdirAll emptyFS (str ".grm/owner")).1.lookup (str ".grm") = some Node.dir ∧
      (os.MkdirAll emptyFS (str ".grm/owner")).1.lookup (str "/work/.grm/owner") =
        some Node.dir) ∧
    (os.MkdirAll (markedFS (str "tag0")) (str ".grm/owner")).2 = none ∧
    ((os.MkdirAll emptyFS (str "a/.")).2 = none ∧
      (os.MkdirAll emptyFS (str "a/.")).1.lookup (str "a") = some Node.dir) ∧
    (os.MkdirAll emptyFS (str "a/")).2 = none ∧
    (os.MkdirAll blockedFS (str ".grm/owner")).2 =
      some (str "mkdir .grm: not a directory") ∧
    (os.MkdirAll (markedFS (str "tag0")) (str ".grm/owner/repo/x")).2 =
      some (str "mkdir .grm/owner/repo: not a directory") ∧
    (os.MkdirAll emptyFS []).2 = some (str "mkdir : no such file or directory") :=
  ⟨⟨by decide, by decide, by decide⟩, by decide, ⟨by decide, by decide⟩, by decide,
    by decide, by decide, by decide⟩

/-! ## `filepath.Clean`, `filepath.Dir` and `filepath.Join` on the cases of the tests of Go -/

/-- The function `Clean` on paths that are clean already, on the empty path, and on paths with a trailing separator or doubled separators. -/
theorem Clean_cases :
    filepath.Clean (str "abc") = str "abc" ∧
    filepath.Clean (str "abc/def") = str "abc/def" ∧
    filepath.Clean (str "a/b/c") = str "a/b/c" ∧
    filepath.Clean (str ".") = str "." ∧
    filepath.Clean (str "..") = str ".." ∧
    filepath.Clean (str "../..") = str "../.." ∧
    filepath.Clean (str "../../abc") = str "../../abc" ∧
    filepath.Clean (str "/abc") = str "/abc" ∧
    filepath.Clean (str "/") = str "/" ∧
    filepath.Clean (([] : GoString)) = str "." ∧
    filepath.Clean (str "abc/") = str "abc" ∧
    filepath.Clean (str "abc/def/") = str "abc/def" ∧
    filepath.Clean (str "a/b/c/") = str "a/b/c" ∧
    filepath.Clean (str "./") = str "." ∧
    filepath.Clean (str "../") = str ".." ∧
    filepath.Clean (str "../../") = str "../.." ∧
    filepath.Clean (str "/abc/") = str "/abc" ∧
    filepath.Clean (str "abc//def//ghi") = str "abc/def/ghi" ∧
    filepath.Clean (str "abc//") = str "abc" ∧
    filepath.Clean (str "//abc") = str "/abc" ∧
    filepath.Clean (str "///abc") = str "/abc" ∧
    filepath.Clean (str "//abc//") = str "/abc" := by
  and_intros <;> decide

/-- The function `Clean` on paths with `.` and `..` elements. -/
theorem Clean_dot_cases :
    filepath.Clean (str "abc/./def") = str "abc/def" ∧
    filepath.Clean (str "/./abc/def") = str "/abc/def" ∧
    filepath.Clean (str "abc/.") = str "abc" ∧
    filepath.Clean (str "abc/def/ghi/../jkl") = str "abc/def/jkl" ∧
    filepath.Clean (str "abc/def/../ghi/../jkl") = str "abc/jkl" ∧
    filepath.Clean (str "abc/def/..") = str "abc" ∧
    filepath.Clean (str "abc/def/../..") = str "." ∧
    filepath.Clean (str "/abc/def/../..") = str "/" ∧
    filepath.Clean (str "abc/def/../../..") = str ".." ∧
    filepath.Clean (str "/abc/def/../../..") = str "/" ∧
    filepath.Clean (str "abc/def/../../../ghi/jkl/../../../mno") = str "../../mno" ∧
    filepath.Clean (str "/../abc") = str "/abc" ∧
    filepath.Clean (str "abc/./../def") = str "def" ∧
    filepath.Clean (str "abc//./../def") = str "def" ∧
    filepath.Clean (str "abc/../../././../def") = str "../../def" := by
  and_intros <;> decide

/-- The function `Dir` on the cases of the tests of Go and on marker paths. -/
theorem Dir_cases :
    filepath.Dir (([] : GoString)) = str "." ∧
    filepath.Dir (str ".") = str "." ∧
    filepath.Dir (str "/.") = str "/" ∧
    filepath.Dir (str "/") = str "/" ∧
    filepath.Dir (str "////") = str "/" ∧
    filepath.Dir (str "/foo") = str "/" ∧
    filepath.Dir (str "x/") = str "x" ∧
    filepath.Dir (str "abc") = str "." ∧
    filepath.Dir (str "abc/def") = str "abc" ∧
    filepath.Dir (str "a/b/.x") = str "a/b" ∧
    filepath.Dir (str "a/b/c.") = str "a/b" ∧
    filepath.Dir (str "a/b/c.x") = str "a/b" ∧
    filepath.Dir (str ".grm/owner/repo") = str ".grm/owner" ∧
    filepath.Dir (str "../x/owner/repo") = str "../x/owner" := by
  and_intros <;> decide

/-- The function `Join` on the cases of the tests of Go and on marker paths. -/
theorem Join_cases :
    filepath.Join ([] : List GoString) = [] ∧
    filepath.Join [[]] = [] ∧
    filepath.Join [str "a"] = str "a" ∧
    filepath.Join [str "a", str "b"] = str "a/b" ∧
    filepath.Join [str "a", []] = str "a" ∧
    filepath.Join [[], str "b"] = str "b" ∧
    filepath.Join [str "/", str "a"] = str "/a" ∧
    filepath.Join [str "/", []] = str "/" ∧
    filepath.Join [str "a/", str "b"] = str "a/b" ∧
    filepath.Join [str "a/", []] = str "a" ∧
    filepath.Join [[], []] = [] ∧
    filepath.Join [str "/", str "a", str "b"] = str "/a/b" ∧
    filepath.Join [str ".grm", str "owner", str "repo"] = str ".grm/owner/repo" ∧
    filepath.Join [str ".grm", [], str "repo"] = str ".grm/repo" ∧
    filepath.Join [str ".grm", str "..", str "repo"] = str "repo" ∧
    filepath.Join [[], str "owner", str "repo"] = str "owner/repo" := by
  and_intros <;> decide

/-! ## A download followed by the write of the marker -/

/-- The file system after a download that wrote the whole body differs from the one before
only at the output file. -/
theorem download_sim (fs fs1 : FileSystem) (output body : GoString) (f : File)
    (hcreate : os.Create fs output = .ok (fs1, f)) (hroom : body.length ≤ fs.free) :
    (os.Write fs1 f body).2 = none ∧
      (os.Write fs1 f body).1.node f.key = some (Node.file body true true) ∧
      (os.Write fs1 f body).1.free + body.length ≥ fs.free ∧
      Sim f.key fs (os.Write fs1 f body).1 := by
  obtain ⟨_, _, hknil, hnd, hnode, hother, hcwd, hfree⟩ := Create_ok _ _ _ _ hcreate
  obtain ⟨hwr, hwfree⟩ := Write_room fs1 f body [] true true hnode (by omega)
  have hbnode : (os.Write fs1 f body).1.node f.key = some (Node.file body true true) := by
    have := Write_ok_node fs1 f body [] true true hnode hwr
    simpa using this
  obtain ⟨hwcwd, hwother⟩ := Write_other fs1 f body
  refine ⟨hwr, hbnode, by omega, ?_, hknil, ?_, hnd, ?_⟩
  · rw [hwcwd, hcwd]
  · intro q hq
    rw [hwother q hq, hother q hq]
  · rw [hbnode]
    simp

/-- If the marker can be written on a file system, it can be written on one that differs
only at an entry that is neither the marker nor one of the directories made for it, and
the entry is kept. -/
theorem writeTag_sim (a : application) (owner repo tag : GoString) (w : World)
    (fs fs2 : FileSystem) (fmark : File) (k : Key) (hsim : Sim k fs w.fs)
    (hdir : (os.MkdirAll fs
      (filepath.Dir (filepath.Join [a.workingDir, owner, repo]))).2 = none)
    (hmk : os.Create (os.MkdirAll fs
      (filepath.Dir (filepath.Join [a.workingDir, owner, repo]))).1
      (filepath.Join [a.workingDir, owner, repo]) = .ok (fs2, fmark))
    (hne : k ≠ fmark.key)
    (hnotdir : (os.MkdirAll fs
      (filepath.Dir (filepath.Join [a.workingDir, owner, repo]))).1.node k ≠ some Node.dir)
    (hroom : tag.length ≤ w.fs.free) :
    (writeTag a owner repo tag w).1 = none ∧
      (writeTag a owner repo tag w).2.fs.node k = w.fs.node k ∧
      (writeTag a owner repo tag w).2.fs.cwd = w.fs.cwd ∧
      ∀ q, w.fs.entry q = some Node.dir →
        (writeTag a owner repo tag w).2.fs.entry q = some Node.dir := by
  obtain ⟨hdir', hsim'⟩ := mkdirAllAux_sim k _ fs w.fs
    (filepath.Dir (filepath.Join [a.workingDir, owner, repo])) hsim hdir hnotdir
  obtain ⟨fs2', hmk'⟩ := Create_sim k _ _ fs2
    (filepath.Join [a.workingDir, owner, repo]) fmark hsim' hmk (Ne.symm hne)
  obtain ⟨_, _, _, _, hnode2, hother2, hcwd2, hfree2⟩ := Create_ok _ _ _ _ hmk'
  have hgrown := MkdirAll_grown w.fs
    (filepath.Dir (filepath.Join [a.workingDir, owner, repo]))
  have hmfree := MkdirAll_free w.fs
    (filepath.Dir (filepath.Join [a.workingDir, owner, repo]))
  have hfree2' : (os.MkdirAll w.fs
      (filepath.Dir (filepath.Join [a.workingDir, owner, repo]))).1.free ≤ fs2'.free := hfree2
  obtain ⟨hwr2, _⟩ := Write_room fs2' fmark tag [] true true hnode2 (by omega)
  obtain ⟨hwcwd, hwother⟩ := Write_other fs2' fmark tag
  rw [writeTag_created a owner repo tag w fs2' fmark hdir' hmk']
  refine ⟨by simp only [hwr2]; rfl, ?_, ?_, ?_⟩
  · show (os.Write fs2' fmark tag).1.node k = _
    rw [hwother k hne, hother2 k hne]
    rcases hgrown.2 k with h | ⟨_, h⟩
    · exact h
    · exact absurd h hsim'.2.2.2.2
  · show (os.Write fs2' fmark tag).1.cwd = _
    rw [hwcwd]
    exact hcwd2.trans hgrown.1
  · intro q hq
    show (os.Write fs2' fmark tag).1.entry q = _
    exact ((Write_dirEquiv fs2' fmark tag).2 q).mpr
      (((Create_dirEquiv _ _ _ _ hmk').2 q).mpr (hgrown.dir q hq))

/-! ## The claims -/

/-- C1. `findOwnerAndRepo` on an input with exactly one `/` returns the bytes before it as
owner and the bytes after it as repo, with no error; on an input with no `/` or with two
or more it returns two empty strings and the error `Expected owner/repo format`. -/
theorem findOwnerAndRepo_spec (a : application) (input : GoString) :
    (input.count Separator = 1 →
      ∃ owner repo, input = owner ++ Separator :: repo ∧
        findOwnerAndRepo a input = .done (owner, repo, none)) ∧
    (input.count Separator ≠ 1 →
      findOwnerAndRepo a input =
        .done ([], [], some (str "Expected owner/repo format"))) := by
  constructor
  · intro h
    obtain ⟨owner, repo, hs, hsplit⟩ := Split_of_count_one input h
    exact ⟨owner, repo, hs, by simp [findOwnerAndRepo, hsplit]⟩
  · intro h
    have hlen := Split_length Separator input
    have : (strings.Split input Separator).length ≠ 2 := by omega
    simp [findOwnerAndRepo, this]

/-- Witness of C1 on `"/"` (one separator) and on `"too-short"` and `"a/b/c"`. -/
theorem findOwnerAndRepo_spec_witness :
    (∃ owner repo, str "/" = owner ++ Separator :: repo ∧
        findOwnerAndRepo mockApplication (str "/") = .done (owner, repo, none)) ∧
    findOwnerAndRepo mockApplication (str "too-short") =
        .done ([], [], some (str "Expected owner/repo format")) ∧
    findOwnerAndRepo mockApplication (str "a/b/c") =
        .done ([], [], some (str "Expected owner/repo format")) :=
  ⟨(findOwnerAndRepo_spec mockApplication (str "/")).1 (by decide),
   (findOwnerAndRepo_spec mockApplication (str "too-short")).2 (by decide),
   (findOwnerAndRepo_spec mockApplication (str "a/b/c")).2 (by decide)⟩

/-- C2. `findDownloadURL` on a release: with an empty requested asset name the result is the
tarball URL whatever the assets are; otherwise it is the browser download URL of the first
asset, in list order, whose name equals the requested name, and the result is the empty URL
with the error `Can't find '<name>' in release assets` exactly when no asset has that
name. -/
theorem findDownloadURL_spec (a : application) (release : RepositoryRelease) :
    (a.requestedAsset = [] →
      findDownloadURL a (some release) = .done (GetTarballURL (some release), none)) ∧
    (a.requestedAsset ≠ [] →
      (∀ pre asset post, release.Assets = pre ++ asset :: post →
          (∀ x ∈ pre, x.GetName ≠ a.requestedAsset) →
          asset.GetName = a.requestedAsset →
          findDownloadURL a (some release) = .done (asset.GetBrowserDownloadURL, none)) ∧
      (findDownloadURL a (some release) =
          .done ([], some (str "Can\x27t find \x27" ++ a.requestedAsset ++
            str "\x27 in release assets"))
        ↔ ∀ x ∈ release.Assets, x.GetName ≠ a.requestedAsset) ∧
      ((∃ url err, findDownloadURL a (some release) = .done (url, some err))
        ↔ ∀ x ∈ release.Assets, x.GetName ≠ a.requestedAsset)) := by
  constructor
  · intro h
    simp [findDownloadURL, h]
  · intro hne
    have hfirst : ∀ pre asset post, release.Assets = pre ++ asset :: post →
        (∀ x ∈ pre, x.GetName ≠ a.requestedAsset) →
        asset.GetName = a.requestedAsset →
        findDownloadURL a (some release) = .done (asset.GetBrowserDownloadURL, none) := by
      intro pre asset post hassets hpre hname
      simp [findDownloadURL, hne, hassets,
        findReleaseAsset_first a a.requestedAsset asset post hname pre hpre]
    have hnone : (∀ x ∈ release.Assets, x.GetName ≠ a.requestedAsset) →
        findDownloadURL a (some release) =
          .done ([], some (str "Can\x27t find \x27" ++ a.requestedAsset ++
            str "\x27 in release assets")) := by
      intro hall
      simp [findDownloadURL, hne, findReleaseAsset_none a a.requestedAsset _ hall]
    have hsome : (∃ url err, findDownloadURL a (some release) = .done (url, some err)) →
        ∀ x ∈ release.Assets, x.GetName ≠ a.requestedAsset := by
      rintro ⟨url, err, hres⟩
      by_contra hcon
      push_neg at hcon
      obtain ⟨pre, asset, post, h1, h2, h3⟩ := exists_first_asset a.requestedAsset _ hcon
      rw [hfirst pre asset post h1 h2 h3] at hres
      simp at hres
    exact ⟨hfirst, ⟨fun h => hsome ⟨_, _, h⟩, hnone⟩, ⟨hsome, fun h => ⟨_, _, hnone h⟩⟩⟩

/-- Witness of C2: the tarball, the first of two assets named `A`, and a missing asset. -/
theorem findDownloadURL_spec_witness :
    findDownloadURL { mockApplication with requestedAsset := [] } (some duplicateRelease) =
        .done (str "http://github.com/release/tarball.tar", none) ∧
    findDownloadURL { mockApplication with requestedAsset := str "A" } (some duplicateRelease) =
        .done (str "http://h/first", none) ∧
    findDownloadURL { mockApplication with requestedAsset := str "missing" }
        (some duplicateRelease) =
        .done ([], some (str "Can\x27t find \x27missing\x27 in release assets")) :=
  ⟨(findDownloadURL_spec { mockApplication with requestedAsset := [] } duplicateRelease).1 rfl,
   ((findDownloadURL_spec { mockApplication with requestedAsset := str "A" }
      duplicateRelease).2 (by decide)).1
      [{ Name := some (str "B"), BrowserDownloadURL := some (str "http://h/b") }]
      { Name := some (str "A"), BrowserDownloadURL := some (str "http://h/first") }
      [{ Name := some (str "A"), BrowserDownloadURL := some (str "http://h/second") }]
      rfl (by decide) (by decide),
   ((findDownloadURL_spec { mockApplication with requestedAsset := str "missing" }
      duplicateRelease).2 (by decide)).2.1.mpr (by decide)⟩

/-- C3. `findOutputPath` never panics. With an empty requested output the result is the part
of the URL after its last `/` (the whole URL when it has none): it contains no `/` and is a
suffix of the URL. With a non-empty requested output the result is that output, whatever
the URL. -/
theorem findOutputPath_spec (a : application) (downloadURL : GoString) :
    (a.requestedOutput = [] →
      ∃ output, findOutputPath a downloadURL = .done output ∧
        Separator ∉ output ∧ output <:+ downloadURL ∧
        (Separator ∉ downloadURL → output = downloadURL) ∧
        (Separator ∈ downloadURL → ∃ pre, downloadURL = pre ++ Separator :: output)) ∧
    (a.requestedOutput ≠ [] → findOutputPath a downloadURL = .done a.requestedOutput) := by
  constructor
  · intro h
    obtain ⟨out, hlast, hno, hwhole, hcut⟩ := Split_last downloadURL
    refine ⟨out, by simp [findOutputPath, h, hlast], hno, ?_, hwhole, hcut⟩
    by_cases hmem : Separator ∈ downloadURL
    · obtain ⟨pre, hpre⟩ := hcut hmem
      exact ⟨pre ++ [Separator], by simp [hpre]⟩
    · rw [hwhole hmem]
  · intro h
    simp [findOutputPath, h]

/-- Witness of C3 on the URL of the test, on the empty URL and with a requested output. -/
theorem findOutputPath_spec_witness :
    (∃ output, findOutputPath { mockApplication with requestedOutput := [] }
          (str "http://test.com/asset.file") = .done output ∧
        Separator ∉ output ∧ output <:+ str "http://test.com/asset.file" ∧
        (Separator ∉ str "http://test.com/asset.file" →
          output = str "http://test.com/asset.file") ∧
        (Separator ∈ str "http://test.com/asset.file" →
          ∃ pre, str "http://test.com/asset.file" = pre ++ Separator :: output)) ∧
    (∃ output, findOutputPath { mockApplication with requestedOutput := [] } [] =
          .done output ∧
        Separator ∉ output ∧ output <:+ [] ∧
        (Separator ∉ ([] : GoString) → output = []) ∧
        (Separator ∈ ([] : GoString) → ∃ pre, [] = pre ++ Separator :: output)) ∧
    findOutputPath { mockApplication with requestedOutput := str "my-output.file" }
        (str "http://test.com/asset.file") = .done (str "my-output.file") :=
  ⟨(findOutputPath_spec { mockApplication with requestedOutput := [] }
      (str "http://test.com/asset.file")).1 rfl,
   (findOutputPath_spec { mockApplication with requestedOutput := [] } []).1 rfl,
   (findOutputPath_spec { mockApplication with requestedOutput := str "my-output.file" }
      (str "http://test.com/asset.file")).2 (by decide)⟩

/-- C4. `assertTag` returns the error `Already up to date, nothing to download` exactly when
the marker path `filepath.Join(workingDir, owner, repo)` leads to a readable regular file
whose content equals `tag`; when the marker is absent (the path leads nowhere), is a
directory, is unreadable or holds another string it returns no error; and in every case the
file system is left unchanged. -/
theorem assertTag_spec (a : application) (owner repo tag : GoString) (w : World) :
    ((assertTag a owner repo tag w).1 = some (str "Already up to date, nothing to download") ↔
      ∃ writable, w.fs.lookup (filepath.Join [a.workingDir, owner, repo]) =
        some (Node.file tag true writable)) ∧
    ((assertTag a owner repo tag w).1 = none ↔
      ¬ ∃ writable, w.fs.lookup (filepath.Join [a.workingDir, owner, repo]) =
        some (Node.file tag true writable)) ∧
    (w.fs.lookup (filepath.Join [a.workingDir, owner, repo]) = none →
      (assertTag a owner repo tag w).1 = none) ∧
    (w.fs.lookup (filepath.Join [a.workingDir, owner, repo]) = some Node.dir →
      (assertTag a owner repo tag w).1 = none) ∧
    (∀ content writable,
      w.fs.lookup (filepath.Join [a.workingDir, owner, repo]) =
        some (Node.file content false writable) →
      (assertTag a owner repo tag w).1 = none) ∧
    (∀ content readable writable,
      w.fs.lookup (filepath.Join [a.workingDir, owner, repo]) =
        some (Node.file content readable writable) → content ≠ tag →
      (assertTag a owner repo tag w).1 = none) ∧
    (assertTag a owner repo tag w).2.fs = w.fs := by
  have hnone : (assertTag a owner repo tag w).1 = none ↔
      ¬ ∃ writable, w.fs.lookup (filepath.Join [a.workingDir, owner, repo]) =
        some (Node.file tag true writable) := by
    rw [assertTag_none_iff, Ne, ReadFile_ok_iff]
  refine ⟨by rw [assertTag_error_iff, ReadFile_ok_iff], hnone, ?_, ?_, ?_, ?_, ?_⟩
  · intro h
    rw [hnone, h]
    simp
  · intro h
    rw [hnone, h]
    simp
  · intro content writable h
    rw [hnone, h]
    simp
  · intro content readable writable h hne
    rw [hnone, h]
    simp [hne]
  · rw [assertTag_world]
    rfl

/-- Witness of C4 on the marker of the test: `tag0` on disk, asked for `tag0`, then for
`tag1`, then with no marker at all. -/
theorem assertTag_spec_witness :
    (assertTag mockApplication (str "owner") (str "repo") (str "tag0")
        { fs := markedFS (str "tag0"), calls := [] }).1 =
      some (str "Already up to date, nothing to download") ∧
    (assertTag mockApplication (str "owner") (str "repo") (str "tag1")
        { fs := markedFS (str "tag0"), calls := [] }).1 = none ∧
    (assertTag mockApplication (str "owner") (str "repo") (str "tag0")
        { fs := emptyFS, calls := [] }).1 = none :=
  ⟨(assertTag_spec mockApplication (str "owner") (str "repo") (str "tag0")
      { fs := markedFS (str "tag0"), calls := [] }).1.mpr ⟨true, by decide⟩,
   (assertTag_spec mockApplication (str "owner") (str "repo") (str "tag1")
      { fs := markedFS (str "tag0"), calls := [] }).2.2.2.2.2.1
      (str "tag0") true true (by decide) (by decide),
   (assertTag_spec mockApplication (str "owner") (str "repo") (str "tag0")
      { fs := emptyFS, calls := [] }).2.2.1 (by decide)⟩

/-- C5. If `writeTag(owner, repo, tag)` returns no error, whatever the file system held
before, then the marker path `filepath.Join(workingDir, owner, repo)` leads to a readable
regular file that holds exactly the bytes of `tag`, a following
`assertTag(owner, repo, tag)` returns the error `Already up to date, nothing to download`,
and `assertTag(owner, repo, t)` returns no error for every `t` other than `tag`. -/
theorem writeTag_roundtrip (a : application) (owner repo tag : GoString) (w : World)
    (h : (writeTag a owner repo tag w).1 = none) :
    (writeTag a owner repo tag w).2.fs.lookup (filepath.Join [a.workingDir, owner, repo]) =
      some (Node.file tag true true) ∧
    ioutil.ReadFile (writeTag a owner repo tag w).2.fs
      (filepath.Join [a.workingDir, owner, repo]) = .ok tag ∧
    (assertTag a owner repo tag (writeTag a owner repo tag w).2).1 =
      some (str "Already up to date, nothing to download") ∧
    ∀ t, t ≠ tag → (assertTag a owner repo t (writeTag a owner repo tag w).2).1 = none := by
  have hnode := writeTag_ok_lookup a owner repo tag w h
  have hread : ioutil.ReadFile (writeTag a owner repo tag w).2.fs
      (filepath.Join [a.workingDir, owner, repo]) = .ok tag :=
    (ReadFile_ok_iff _ _ _).mpr ⟨true, hnode⟩
  refine ⟨hnode, hread, (assertTag_error_iff _ _ _ _ _).mpr hread, ?_⟩
  intro t ht
  rw [assertTag_none_iff, hread]
  intro hcon
  injection hcon with hcon
  exact ht hcon.symm

/-- Witness of C5: the test (`tag0` written where no marker exists) and an overwrite of a
longer older marker. -/
theorem writeTag_roundtrip_witness :
    (writeTag mockApplication (str "owner") (str "repo") (str "tag0")
        { fs := emptyFS, calls := [] }).2.fs.lookup
        (filepath.Join [mockApplication.workingDir, str "owner", str "repo"]) =
      some (Node.file (str "tag0") true true) ∧
    (writeTag mockApplication (str "owner") (str "repo") (str "v2")
        { fs := markedFS (str "older-and-longer"), calls := [] }).2.fs.lookup
        (filepath.Join [mockApplication.workingDir, str "owner", str "repo"]) =
      some (Node.file (str "v2") true true) :=
  ⟨(writeTag_roundtrip mockApplication (str "owner") (str "repo") (str "tag0")
      { fs := emptyFS, calls := [] } (by decide)).1,
   (writeTag_roundtrip mockApplication (str "owner") (str "repo") (str "v2")
      { fs := markedFS (str "older-and-longer"), calls := [] } (by decide)).1⟩

/-- C6. When the identifier parses and the marker file is readable and holds exactly the tag
name of the latest release, `Fetch` returns the error `Already up to date, nothing to
download` and stops: the file system is unchanged (the output path is neither created nor
truncated, the marker is not rewritten) and the only calls made are the release lookup and
the read of the marker (no `http.Get`, no progress message). -/
theorem Fetch_up_to_date (a : application) (env : Remote) (w : World)
    (owner repo : GoString) (release : RepositoryRelease) (writable : Bool)
    (hparse : findOwnerAndRepo a a.ownerAndRepo = .done (owner, repo, none))
    (hrel : (env.GetLatestRelease owner repo).1 = some release)
    (hmarker : w.fs.lookup (filepath.Join [a.workingDir, owner, repo]) =
      some (Node.file (GetTagName (some release)) true writable)) :
    (Fetch a env w).1 = .done (some (str "Already up to date, nothing to download")) ∧
    (Fetch a env w).2.fs = w.fs ∧
    (Fetch a env w).2.calls =
      w.calls ++ [.getLatestRelease owner repo,
                  .readFile (filepath.Join [a.workingDir, owner, repo])] := by
  have hread : ioutil.ReadFile (w.logged (.getLatestRelease owner repo)).fs
      (filepath.Join [a.workingDir, owner, repo]) = .ok (GetTagName (some release)) :=
    (ReadFile_ok_iff _ _ _).mpr ⟨writable, hmarker⟩
  have herr := (assertTag_error_iff a owner repo (GetTagName (some release))
    (w.logged (.getLatestRelease owner repo))).mpr hread
  have hw := assertTag_world a owner repo (GetTagName (some release))
    (w.logged (.getLatestRelease owner repo))
  unfold Fetch
  simp only [hparse, hrel]
  cases hres : assertTag a owner repo (GetTagName (some release))
      (w.logged (.getLatestRelease owner repo)) with
  | mk e w2 =>
    rw [hres] at herr hw
    simp only at herr hw
    subst herr hw
    simp [World.logged]

/-- Witness of C6: the marker of `owner/repo` holds `tag1`, the tag of the latest
release. -/
theorem Fetch_up_to_date_witness :
    (Fetch mockApplication testRemote { fs := markedFS (str "tag1"), calls := [] }).1 =
      .done (some (str "Already up to date, nothing to download")) ∧
    (Fetch mockApplication testRemote { fs := markedFS (str "tag1"), calls := [] }).2.fs =
      markedFS (str "tag1") ∧
    (Fetch mockApplication testRemote { fs := markedFS (str "tag1"), calls := [] }).2.calls =
      [] ++ [.getLatestRelease (str "owner") (str "repo"),
             .readFile (filepath.Join [mockApplication.workingDir, str "owner", str "repo"])] :=
  Fetch_up_to_date mockApplication testRemote { fs := markedFS (str "tag1"), calls := [] }
    (str "owner") (str "repo") testRelease true (by decide) (by decide) (by decide)

/-- C8, the code at a failing lookup. The release directory service answers with an error
and no release. With `grm -o out.bin owner/repo`, `Fetch` goes on with an empty tag and an
empty URL: it reads the marker, reports, truncates `out.bin`, issues a GET of the empty URL
and returns the error of that GET, not the cause of the failed lookup. With an empty marker
file it returns `Already up to date, nothing to download`. With an asset name requested it
panics on `release.Assets`. -/
theorem Fetch_lookup_error_dropped :
    lookupFailsRemote.GetLatestRelease (str "owner") (str "repo") =
      (none, some (str "GET releases/latest: 404 Not Found")) ∧
    (Fetch tarballApplication lookupFailsRemote { fs := downloadedFS, calls := [] }).1 =
      .done (some (str "Get : unsupported protocol scheme \"\"")) ∧
    (Fetch tarballApplication lookupFailsRemote { fs := downloadedFS, calls := [] }).2.calls =
      [.getLatestRelease (str "owner") (str "repo"),
       .readFile (str ".grm/owner/repo"),
       .report (str "Downloading \x27\x27 to out.bin..."),
       .create (str "out.bin"),
       .httpGet []] ∧
    downloadedFS.lookup (str "out.bin") =
      some (Node.file (str "previous download") true true) ∧
    (Fetch tarballApplication lookupFailsRemote
        { fs := downloadedFS, calls := [] }).2.fs.lookup (str "out.bin") =
      some (Node.file [] true true) ∧
    (Fetch tarballApplication lookupFailsRemote { fs := emptyMarkerFS, calls := [] }).1 =
      .done (some (str "Already up to date, nothing to download")) ∧
    (Fetch mockApplication lookupFailsRemote { fs := emptyFS, calls := [] }).1 = .panic :=
  ⟨by decide, by decide, by decide, by decide, by decide, by decide, by decide⟩

/-- C10, as stated, fails for pairs with an empty part, a `.` or a `..`. The inputs `"/a"`
and `"a/"` parse to the different pairs `("", "a")` and `("a", "")`, and `filepath.Join`
gives both the marker path `.grm/a`; a `writeTag` for the first pair changes what
`assertTag` answers for the second. Likewise `"./a"` and `"a/."` share `.grm/a`, and
`"b/.."` and `"c/.."` share `.grm`. -/
theorem marker_scoped_counterexample :
    (findOwnerAndRepo mockApplication (str "/a") = .done ([], str "a", none) ∧
      findOwnerAndRepo mockApplication (str "a/") = .done (str "a", [], none) ∧
      (([] : GoString), str "a") ≠ (str "a", ([] : GoString)) ∧
      filepath.Join [mockApplication.workingDir, [], str "a"] = str ".grm/a" ∧
      filepath.Join [mockApplication.workingDir, str "a", []] = str ".grm/a" ∧
      (assertTag mockApplication (str "a") [] (str "v1") { fs := emptyFS, calls := [] }).1 =
        none ∧
      (writeTag mockApplication [] (str "a") (str "v1") { fs := emptyFS, calls := [] }).1 =
        none ∧
      (assertTag mockApplication (str "a") [] (str "v1")
          (writeTag mockApplication [] (str "a") (str "v1")
            { fs := emptyFS, calls := [] }).2).1 =
        some (str "Already up to date, nothing to download")) ∧
    (findOwnerAndRepo mockApplication (str "./a") = .done (str ".", str "a", none) ∧
      findOwnerAndRepo mockApplication (str "a/.") = .done (str "a", str ".", none) ∧
      filepath.Join [mockApplication.workingDir, str ".", str "a"] = str ".grm/a" ∧
      filepath.Join [mockApplication.workingDir, str "a", str "."] = str ".grm/a") ∧
    (findOwnerAndRepo mockApplication (str "b/..") = .done (str "b", str "..", none) ∧
      findOwnerAndRepo mockApplication (str "c/..") = .done (str "c", str "..", none) ∧
      filepath.Join [mockApplication.workingDir, str "b", str ".."] = str ".grm" ∧
      filepath.Join [mockApplication.workingDir, str "c", str ".."] = str ".grm") :=
  ⟨⟨by decide, by decide, by decide, by decide, by decide, by decide, by decide, by decide⟩,
    by decide, by decide⟩

/-- C10, amended. For every working directory and every two identifier strings that
`findOwnerAndRepo` parses into different pairs whose owners and repos are not empty and are
neither `.` nor `..`, the two marker paths `filepath.Join(workingDir, owner, repo)` are
different, and a `writeTag` for the first pair, whatever it returns, keeps the content
that `ioutil.ReadFile` returns for the marker of the second pair; on every well-formed
file system (every entry lies in a directory) it changes neither what `ioutil.ReadFile`
returns for the marker of the second pair nor the answer of `assertTag` for the second
pair. -/
theorem marker_scoped (a : application) (s₁ s₂ o₁ r₁ o₂ r₂ : GoString)
    (h₁ : findOwnerAndRepo a s₁ = .done (o₁, r₁, none))
    (h₂ : findOwnerAndRepo a s₂ = .done (o₂, r₂, none))
    (hne : (o₁, r₁) ≠ (o₂, r₂))
    (ho₁ : o₁ ≠ [] ∧ o₁ ≠ [Dot] ∧ o₁ ≠ [Dot, Dot])
    (hr₁ : r₁ ≠ [] ∧ r₁ ≠ [Dot] ∧ r₁ ≠ [Dot, Dot])
    (ho₂ : o₂ ≠ [] ∧ o₂ ≠ [Dot] ∧ o₂ ≠ [Dot, Dot])
    (hr₂ : r₂ ≠ [] ∧ r₂ ≠ [Dot] ∧ r₂ ≠ [Dot, Dot]) :
    filepath.Join [a.workingDir, o₁, r₁] ≠ filepath.Join [a.workingDir, o₂, r₂] ∧
    ∀ (w : World) (tag : GoString),
      (∀ content,
        ioutil.ReadFile w.fs (filepath.Join [a.workingDir, o₂, r₂]) = .ok content →
          ioutil.ReadFile (writeTag a o₁ r₁ tag w).2.fs
            (filepath.Join [a.workingDir, o₂, r₂]) = .ok content) ∧
      (w.fs.WellFormed →
        (∀ content,
          ioutil.ReadFile (writeTag a o₁ r₁ tag w).2.fs
              (filepath.Join [a.workingDir, o₂, r₂]) = .ok content ↔
            ioutil.ReadFile w.fs (filepath.Join [a.workingDir, o₂, r₂]) = .ok content) ∧
        (∀ t, (assertTag a o₂ r₂ t (writeTag a o₁ r₁ tag w).2).1 =
          (assertTag a o₂ r₂ t w).1)) := by
  obtain ⟨hso₁, hsr₁⟩ := findOwnerAndRepo_no_sep a s₁ o₁ r₁ h₁
  obtain ⟨hso₂, hsr₂⟩ := findOwnerAndRepo_no_sep a s₂ o₂ r₂ h₂
  have hO₁ : RealElem o₁ := ⟨ho₁.1, hso₁, ho₁.2.1, ho₁.2.2⟩
  have hR₁ : RealElem r₁ := ⟨hr₁.1, hsr₁, hr₁.2.1, hr₁.2.2⟩
  have hO₂ : RealElem o₂ := ⟨ho₂.1, hso₂, ho₂.2.1, ho₂.2.2⟩
  have hR₂ : RealElem r₂ := ⟨hr₂.1, hsr₂, hr₂.2.1, hr₂.2.2⟩
  have hpath : filepath.Join [a.workingDir, o₁, r₁] ≠ filepath.Join [a.workingDir, o₂, r₂] := by
    intro heq
    obtain ⟨e₁, e₂⟩ := Join_injective a.workingDir o₁ r₁ o₂ r₂ hO₁ hR₁ hO₂ hR₂ heq
    exact hne (by rw [e₁, e₂])
  refine ⟨hpath, ?_⟩
  intro w tag
  have hboth := fun content =>
    writeTag_keeps_other a o₁ r₁ o₂ r₂ tag w hO₁ hR₁ hO₂ hR₂ hne content
  refine ⟨fun content => (hboth content).1, ?_⟩
  intro hwf
  have hkeep : ∀ content,
      ioutil.ReadFile (writeTag a o₁ r₁ tag w).2.fs
          (filepath.Join [a.workingDir, o₂, r₂]) = .ok content ↔
        ioutil.ReadFile w.fs (filepath.Join [a.workingDir, o₂, r₂]) = .ok content :=
    fun content => ⟨(hboth content).2 hwf, (hboth content).1⟩
  refine ⟨hkeep, ?_⟩
  intro t
  rw [assertTag_result, assertTag_result]
  by_cases hread : ioutil.ReadFile w.fs (filepath.Join [a.workingDir, o₂, r₂]) = .ok t
  · rw [if_pos hread, if_pos ((hkeep t).mpr hread)]
  · rw [if_neg hread, if_neg (fun h => hread ((hkeep t).mp h))]

/-- Witness of C10 (amended): `owner/other` is written where the marker of `owner/repo`
holds `tag0`; the marker of `owner/repo` still reads `tag0`. -/
theorem marker_scoped_witness :
    filepath.Join [mockApplication.workingDir, str "owner", str "other"] ≠
      filepath.Join [mockApplication.workingDir, str "owner", str "repo"] ∧
    ioutil.ReadFile
        (writeTag mockApplication (str "owner") (str "other") (str "v9")
          { fs := markedFS (str "tag0"), calls := [] }).2.fs
        (filepath.Join [mockApplication.workingDir, str "owner", str "repo"]) =
      .ok (str "tag0") ∧
    (assertTag mockApplication (str "owner") (str "repo") (str "tag0")
        (writeTag mockApplication (str "owner") (str "other") (str "v9")
          { fs := markedFS (str "tag0"), calls := [] }).2).1 =
      (assertTag mockApplication (str "owner") (str "repo") (str "tag0")
        { fs := markedFS (str "tag0"), calls := [] }).1 :=
  have h := marker_scoped mockApplication (str "owner/other") (str "owner/repo")
    (str "owner") (str "other") (str "owner") (str "repo")
    (by decide) (by decide) (by decide) (by decide) (by decide) (by decide) (by decide)
  have h2 := (h.2 { fs := markedFS (str "tag0"), calls := [] } (str "v9")).2
    (markedFS_wellFormed (str "tag0"))
  ⟨h.1, (h2.1 (str "tag0")).mpr (by decide), h2.2 (str "tag0")⟩

/-- C7, as stated, fails when the requested output path leads to the tag marker. Run
`grm -o .grm/owner/repo owner/repo` in `/work` with the marker holding `tag0`, the latest
release tagged `tag1` and the HTTP server down: `downloadFile` fails, `Fetch` returns its
error, and the marker, truncated by `os.Create`, no longer holds `tag0`. The same happens
with the spellings `./.grm/owner/repo` and `/work/.grm/owner/repo` of the output path. -/
theorem Fetch_tag_kept_counterexample :
    (findOwnerAndRepo aliasedApplication aliasedApplication.ownerAndRepo =
        .done (str "owner", str "repo", none) ∧
      filepath.Join [aliasedApplication.workingDir, str "owner", str "repo"] =
        str ".grm/owner/repo" ∧
      (downloadFile aliasedApplication downRemote (str ".grm/owner/repo")
          (str "http://github.com/release/tarball.tar")
          (atDownload aliasedApplication { fs := markedFS (str "tag0"), calls := [] }
            (str "owner") (str "repo") (str "http://github.com/release/tarball.tar")
            (str ".grm/owner/repo"))).1 =
        some (str "Get http://github.com/release/tarball.tar: dial tcp: connection refused") ∧
      (Fetch aliasedApplication downRemote { fs := markedFS (str "tag0"), calls := [] }).1 =
        .done (some
          (str "Get http://github.com/release/tarball.tar: dial tcp: connection refused")) ∧
      (markedFS (str "tag0")).lookup (str ".grm/owner/repo") =
        some (Node.file (str "tag0") true true) ∧
      (Fetch aliasedApplication downRemote
          { fs := markedFS (str "tag0"), calls := [] }).2.fs.lookup (str ".grm/owner/repo") =
        some (Node.file [] true true)) ∧
    ((Fetch dotAliasedApplication downRemote { fs := markedFS (str "tag0"), calls := [] }).1 =
        .done (some
          (str "Get http://github.com/release/tarball.tar: dial tcp: connection refused")) ∧
      (Fetch dotAliasedApplication downRemote
          { fs := markedFS (str "tag0"), calls := [] }).2.fs.lookup (str ".grm/owner/repo") =
        some (Node.file [] true true)) ∧
    ((Fetch absAliasedApplication downRemote { fs := markedFS (str "tag0"), calls := [] }).1 =
        .done (some
          (str "Get http://github.com/release/tarball.tar: dial tcp: connection refused")) ∧
      (Fetch absAliasedApplication downRemote
          { fs := markedFS (str "tag0"), calls := [] }).2.fs.lookup (str ".grm/owner/repo") =
        some (Node.file [] true true)) :=
  ⟨⟨by decide, by decide, by decide, by decide, by decide, by decide⟩,
    ⟨by decide, by decide⟩, ⟨by decide, by decide⟩⟩

/-- C7, amended. Every run of `Fetch` is of one of two kinds. A run that reaches
`downloadFile` (the identifier parses, `assertTag` returns no error, the download URL and
the output path are found): `downloadFile` fails exactly when `os.Create` of the output
path fails, or the GET fails, or the write of the body fails, or the stream of the body
ends with a read error, and in each case `Fetch` returns that error and ends in the file
system and with the calls that step left, with no call after it; `downloadFile` returns no
error only when all four succeed. After a failed download the output path, once created,
still leads to a regular file, and, provided the output path does not lead to the entry
the marker path leads to, the marker reads as before the call. In the log of the run the
calls of `downloadFile` come right after the release lookup, the read of the marker and
the progress message, and the calls after them (those of `writeTag`) are made only when
`downloadFile` returned no error. A run that does not reach `downloadFile` leaves the file
system as it was and makes no call but the release lookup and the read of the marker.
Hence in every run: a path that leads to another entry, or to another content, after the
run than before it belongs to a run in which `downloadFile` was reached and either returned
no error or was given an output path that leads to the same entry as that path. -/
theorem Fetch_tag_after_download (a : application) (env : Remote) (w : World) :
    (∀ owner repo url output,
      findOwnerAndRepo a a.ownerAndRepo = .done (owner, repo, none) →
      (assertTag a owner repo (GetTagName (env.GetLatestRelease owner repo).1)
        (w.logged (.getLatestRelease owner repo))).1 = none →
      findDownloadURL a (env.GetLatestRelease owner repo).1 = .done (url, none) →
      findOutputPath a url = .done output →
      (∀ e, os.Create w.fs output = .error e →
        (Fetch a env w).1 = .done (some e) ∧ (Fetch a env w).2.fs = w.fs ∧
        (Fetch a env w).2.calls =
          (atDownload a w owner repo url output).calls ++ [.create output]) ∧
      (∀ fs1 f e, os.Create w.fs output = .ok (fs1, f) → env.Get url = .error e →
        (Fetch a env w).1 = .done (some e) ∧ (Fetch a env w).2.fs = fs1 ∧
        (Fetch a env w).2.calls =
          (atDownload a w owner repo url output).calls ++ [.create output, .httpGet url]) ∧
      (∀ fs1 f resp e, os.Create w.fs output = .ok (fs1, f) → env.Get url = .ok resp →
        (os.Write fs1 f resp.body).2 = some e →
        (Fetch a env w).1 = .done (some e) ∧
        (Fetch a env w).2.fs = (os.Write fs1 f resp.body).1 ∧
        (Fetch a env w).2.calls =
          (atDownload a w owner repo url output).calls ++
            [.create output, .httpGet url, .write output resp.body]) ∧
      (∀ fs1 f resp e, os.Create w.fs output = .ok (fs1, f) → env.Get url = .ok resp →
        (os.Write fs1 f resp.body).2 = none → resp.readErr = some e →
        (Fetch a env w).1 = .done (some e) ∧
        (Fetch a env w).2.fs = (os.Write fs1 f resp.body).1 ∧
        (Fetch a env w).2.calls =
          (atDownload a w owner repo url output).calls ++
            [.create output, .httpGet url, .write output resp.body]) ∧
      ((downloadFile a env output url (atDownload a w owner repo url output)).1 = none ↔
        ∃ fs1 f resp, os.Create w.fs output = .ok (fs1, f) ∧ env.Get url = .ok resp ∧
          (os.Write fs1 f resp.body).2 = none ∧ resp.readErr = none) ∧
      (∀ err, (downloadFile a env output url (atDownload a w owner repo url output)).1 =
          some err →
        (Fetch a env w).1 = .done (some err) ∧
        (Fetch a env w).2.fs =
          (downloadFile a env output url (atDownload a w owner repo url output)).2.fs ∧
        (Fetch a env w).2.calls =
          (downloadFile a env output url (atDownload a w owner repo url output)).2.calls ∧
        (∀ fs1 f, os.Create w.fs output = .ok (fs1, f) →
          ∃ content, (Fetch a env w).2.fs.lookup output =
            some (Node.file content true true)) ∧
        ((∀ k, w.fs.resolve output = .ok k →
            w.fs.resolve (filepath.Join [a.workingDir, owner, repo]) ≠ .ok k) →
          (Fetch a env w).2.fs.lookup (filepath.Join [a.workingDir, owner, repo]) =
            w.fs.lookup (filepath.Join [a.workingDir, owner, repo]))) ∧
      (∃ dl rest,
        (downloadFile a env output url (atDownload a w owner repo url output)).2.calls =
          (atDownload a w owner repo url output).calls ++ dl ∧
        (dl = [.create output] ∨ dl = [.create output, .httpGet url] ∨
          ∃ data, dl = [.create output, .httpGet url, .write output data]) ∧
        (Fetch a env w).2.calls =
          (downloadFile a env output url (atDownload a w owner repo url output)).2.calls ++
            rest ∧
        ((downloadFile a env output url (atDownload a w owner repo url output)).1 ≠ none →
          rest = []))) ∧
    ((¬ ∃ owner repo url output,
        findOwnerAndRepo a a.ownerAndRepo = .done (owner, repo, none) ∧
        (assertTag a owner repo (GetTagName (env.GetLatestRelease owner repo).1)
          (w.logged (.getLatestRelease owner repo))).1 = none ∧
        findDownloadURL a (env.GetLatestRelease owner repo).1 = .done (url, none) ∧
        findOutputPath a url = .done output) →
      (Fetch a env w).2.fs = w.fs ∧
      ((Fetch a env w).2.calls = w.calls ∨
        ∃ owner repo, (Fetch a env w).2.calls =
          w.calls ++ [.getLatestRelease owner repo,
                      .readFile (filepath.Join [a.workingDir, owner, repo])])) ∧
    (∀ name, (Fetch a env w).2.fs.lookup name ≠ w.fs.lookup name →
      ∃ owner repo url output,
        findOwnerAndRepo a a.ownerAndRepo = .done (owner, repo, none) ∧
        (assertTag a owner repo (GetTagName (env.GetLatestRelease owner repo).1)
          (w.logged (.getLatestRelease owner repo))).1 = none ∧
        findDownloadURL a (env.GetLatestRelease owner repo).1 = .done (url, none) ∧
        findOutputPath a url = .done output ∧
        ((downloadFile a env output url (atDownload a w owner repo url output)).1 = none ∨
          ∃ k, w.fs.resolve output = .ok k ∧ w.fs.resolve name = .ok k)) := by
  refine ⟨?_, Fetch_stopped a env w, ?_⟩
  swap
  · intro name hchg
    by_cases hreach : ∃ owner repo url output,
        findOwnerAndRepo a a.ownerAndRepo = .done (owner, repo, none) ∧
        (assertTag a owner repo (GetTagName (env.GetLatestRelease owner repo).1)
          (w.logged (.getLatestRelease owner repo))).1 = none ∧
        findDownloadURL a (env.GetLatestRelease owner repo).1 = .done (url, none) ∧
        findOutputPath a url = .done output
    · obtain ⟨owner, repo, url, output, hparse, hassert, hurl, hout⟩ := hreach
      refine ⟨owner, repo, url, output, hparse, hassert, hurl, hout, ?_⟩
      cases hdl : (downloadFile a env output url (atDownload a w owner repo url output)).1 with
      | none => exact Or.inl rfl
      | some err =>
        right
        by_contra hno
        apply hchg
        rw [Fetch_download_failed a env w owner repo url output err hparse hassert hurl hout
          hdl]
        apply downloadFile_keeps a env output url (atDownload a w owner repo url output) name
        intro k hk hn
        exact hno ⟨k, hk, hn⟩
    · exact absurd (by rw [(Fetch_stopped a env w hreach).1]) hchg
  intro owner repo url output hparse hassert hurl hout
  have hfail := fun err hdl =>
    Fetch_download_failed a env w owner repo url output err hparse hassert hurl hout hdl
  obtain ⟨dl, hdlcalls, hshape⟩ :=
    downloadFile_calls a env output url (atDownload a w owner repo url output)
  refine ⟨?_, ?_, ?_, ?_, downloadFile_none_iff a env output url _, ?_, ?_⟩
  · intro e hcr
    have hd := downloadFile_create_failed a env output url
      (atDownload a w owner repo url output) e hcr
    rw [hfail e (by rw [hd]), hd]
    exact ⟨rfl, rfl, rfl⟩
  · intro fs1 f e hcr hget
    have hd := downloadFile_get_failed a env output url
      (atDownload a w owner repo url output) fs1 f e hcr hget
    rw [hfail e (by rw [hd]), hd]
    exact ⟨rfl, rfl, rfl⟩
  · intro fs1 f resp e hcr hget hwr
    have hd := downloadFile_write_failed a env output url
      (atDownload a w owner repo url output) fs1 f resp e hcr hget hwr
    have hname : f.name = output := (Create_ok _ _ _ _ hcr).1
    rw [hfail e (by rw [hd]), hd, hname]
    exact ⟨rfl, rfl, rfl⟩
  · intro fs1 f resp e hcr hget hwr hre
    have hd := downloadFile_written a env output url
      (atDownload a w owner repo url output) fs1 f resp hcr hget hwr
    have hname : f.name = output := (Create_ok _ _ _ _ hcr).1
    rw [hfail e (by rw [hd]; exact hre), hd, hname]
    exact ⟨rfl, rfl, rfl⟩
  · intro err herr
    have hfinal := hfail err herr
    refine ⟨by rw [hfinal], by rw [hfinal], by rw [hfinal], ?_, ?_⟩
    · intro fs1 f hcr
      rw [hfinal]
      exact downloadFile_output_stays a env output url
        (atDownload a w owner repo url output) fs1 f hcr
    · intro hne
      rw [hfinal]
      exact downloadFile_keeps a env output url (atDownload a w owner repo url output) _ hne
  · cases hdl : (downloadFile a env output url (atDownload a w owner repo url output)).1 with
    | some err =>
      refine ⟨dl, [], hdlcalls, hshape, ?_, fun _ => rfl⟩
      rw [hfail err hdl]
      simp
    | none =>
      obtain ⟨wt, hwt, _⟩ := writeTag_calls a owner repo
        (GetTagName (env.GetLatestRelease owner repo).1)
        (downloadFile a env output url (atDownload a w owner repo url output)).2
      cases hres : (writeTag a owner repo (GetTagName (env.GetLatestRelease owner repo).1)
          (downloadFile a env output url (atDownload a w owner repo url output)).2).1 with
      | some err5 =>
        refine ⟨dl, wt, hdlcalls, hshape, ?_, fun h => absurd rfl h⟩
        rw [Fetch_writeTag_failed a env w owner repo url output err5 hparse hassert hurl hout
          hdl hres]
        exact hwt
      | none =>
        refine ⟨dl, wt ++ [.report (str "Done.\n")], hdlcalls, hshape, ?_,
          fun h => absurd rfl h⟩
        rw [Fetch_all_ok a env w owner repo url output hparse hassert hurl hout hdl hres]
        simp [World.report, World.logged, hwt]

/-- Witness of C7 (amended), three runs in `/work` with the marker holding `tag0`.
`grm -o out.bin owner/repo` with the HTTP server down: `Fetch` returns the error of the
GET and the marker reads as before. The same with a server that drops the connection
after three bytes: `Fetch` returns the read error of the stream. And
`grm -a asset.file -o output.file owner/repo` for a release without that asset: the run
stops before `downloadFile` and the file system is as it was. -/
theorem Fetch_tag_after_download_witness :
    ((Fetch tarballApplication downRemote { fs := markedFS (str "tag0"), calls := [] }).1 =
        .done (some
          (str "Get http://github.com/release/tarball.tar: dial tcp: connection refused")) ∧
      (Fetch tarballApplication downRemote
          { fs := markedFS (str "tag0"), calls := [] }).2.fs.lookup
          (filepath.Join [tarballApplication.workingDir, str "owner", str "repo"]) =
        (markedFS (str "tag0")).lookup
          (filepath.Join [tarballApplication.workingDir, str "owner", str "repo"])) ∧
    (Fetch tarballApplication brokenStreamRemote
        { fs := markedFS (str "tag0"), calls := [] }).1 =
      .done (some (str "unexpected EOF")) ∧
    (Fetch mockApplication otherAssetRemote
        { fs := markedFS (str "tag0"), calls := [] }).2.fs = markedFS (str "tag0") := by
  refine ⟨?_, ?_, ?_⟩
  · have h := ((Fetch_tag_after_download tarballApplication downRemote
      { fs := markedFS (str "tag0"), calls := [] }).1 (str "owner") (str "repo")
      (str "http://github.com/release/tarball.tar") (str "out.bin")
      (by decide) (by decide) (by decide) (by decide)).2.2.2.2.2.1
      (str "Get http://github.com/release/tarball.tar: dial tcp: connection refused")
      (by decide)
    refine ⟨h.1, h.2.2.2.2 ?_⟩
    intro k hk hm
    have hout : (markedFS (str "tag0")).resolve (str "out.bin") =
        .ok [str "work", str "out.bin"] := by decide
    rw [show ({ fs := markedFS (str "tag0"), calls := [] } : World).fs =
      markedFS (str "tag0") from rfl] at hk hm
    rw [hout] at hk
    cases hk
    exact absurd hm (by decide)
  · exact (((Fetch_tag_after_download tarballApplication brokenStreamRemote
      { fs := markedFS (str "tag0"), calls := [] }).1 (str "owner") (str "repo")
      (str "http://github.com/release/tarball.tar") (str "out.bin")
      (by decide) (by decide) (by decide) (by decide)).2.2.2.1
      ((markedFS (str "tag0")).set [str "work", str "out.bin"] (Node.file [] true true))
      { name := str "out.bin", key := [str "work", str "out.bin"] }
      { body := str "ASS", readErr := some (str "unexpected EOF") }
      (str "unexpected EOF") rfl rfl (by decide) rfl).1
  · refine ((Fetch_tag_after_download mockApplication otherAssetRemote
      { fs := markedFS (str "tag0"), calls := [] }).2.1 ?_).1
    rintro ⟨o, r, u, out, hp, _, hu, _⟩
    have hp2 : findOwnerAndRepo mockApplication mockApplication.ownerAndRepo =
        .done (str "owner", str "repo", none) := by decide
    rw [hp2] at hp
    injection hp with hp
    injection hp with ho hp
    injection hp with hr _
    subst ho hr
    have hu2 : findDownloadURL mockApplication
        (otherAssetRemote.GetLatestRelease (str "owner") (str "repo")).1 =
        .done ([], some (str "Can\x27t find \x27asset.file\x27 in release assets")) := by
      decide
    rw [hu2] at hu
    cases hu

/-- C9, as stated, fails in six ways; in each run the identifier parses, the release is
tagged `tag1`, the download URL resolves, no marker holds `tag1` and the GET succeeds with
body `ASSET`. With `grm -o missing-dir/output.file owner/repo` in an empty directory
`Fetch` returns the error of `os.Create`. On a device with room for three bytes it returns
the error of the write. Where `.grm` is a regular file it returns the error of
`os.MkdirAll` and no marker is written. Where the marker path is a directory it returns
the error of `os.Create` of the marker. With `grm -o ./.grm/owner/repo owner/repo` and a
marker holding `tag0` it returns no error and the output path, which leads to the marker,
holds `tag1` and not `ASSET`. With `grm -o .grm owner/repo` in an empty directory the
output file takes the place of the directory of the marker, `os.MkdirAll` fails and no
marker is written. -/
theorem Fetch_success_counterexample :
    (Fetch missingDirApplication testRemote { fs := emptyFS, calls := [] }).1 =
      .done (some (str "open missing-dir/output.file: no such file or directory")) ∧
    (Fetch mockApplication testRemote { fs := fullFS, calls := [] }).1 =
      .done (some (str "write output.file: no space left on device")) ∧
    ((Fetch mockApplication testRemote { fs := blockedFS, calls := [] }).1 =
        .done (some (str "mkdir .grm: not a directory")) ∧
      (Fetch mockApplication testRemote { fs := blockedFS, calls := [] }).2.fs.lookup
          (str ".grm/owner/repo") = none) ∧
    (Fetch mockApplication testRemote { fs := markerDirFS, calls := [] }).1 =
      .done (some (str "open .grm/owner/repo: is a directory")) ∧
    (findOutputPath dotAliasedApplication (str "http://github.com/release/tarball.tar") =
        .done (str "./.grm/owner/repo") ∧
      testRemote.Get (str "http://github.com/release/tarball.tar") =
        .ok { body := str "ASSET", readErr := none } ∧
      (Fetch dotAliasedApplication testRemote
          { fs := markedFS (str "tag0"), calls := [] }).1 = .done none ∧
      (Fetch dotAliasedApplication testRemote
          { fs := markedFS (str "tag0"), calls := [] }).2.fs.lookup
          (str "./.grm/owner/repo") = some (Node.file (str "tag1") true true)) ∧
    ((Fetch dirAliasedApplication testRemote { fs := emptyFS, calls := [] }).1 =
        .done (some (str "mkdir .grm: not a directory")) ∧
      (Fetch dirAliasedApplication testRemote { fs := emptyFS, calls := [] }).2.fs.lookup
          (str ".grm") = some (Node.file (str "ASSET") true true) ∧
      (Fetch dirAliasedApplication testRemote { fs := emptyFS, calls := [] }).2.fs.lookup
          (str ".grm/owner/repo") = none) :=
  ⟨by decide, by decide, ⟨by decide, by decide⟩, by decide,
    ⟨by decide, by decide, by decide, by decide⟩, ⟨by decide, by decide, by decide⟩⟩

/-- C9, amended. If the identifier parses, the latest release is found, the download URL
resolves (no asset requested, or an asset of the requested name exists), the marker does
not read as the tag of the release, the GET succeeds with the complete body `body`, and
moreover the file system at the start is such that `os.Create` can make the output file,
`os.MkdirAll` can make the directory of the marker and `os.Create` can then make the
marker, the output file is not the marker, the output path does not lead to a directory
once the directory of the marker is made, and the device has room for the body and the
tag, then `Fetch` returns no error,
the output path leads to a file that holds exactly `body` and the marker path leads to a
file that holds exactly the tag of the release. -/
theorem Fetch_success (a : application) (env : Remote) (w : World)
    (owner repo url output body : GoString) (release : RepositoryRelease)
    (fs1 fs2 : FileSystem) (fout fmark : File)
    (hparse : findOwnerAndRepo a a.ownerAndRepo = .done (owner, repo, none))
    (hrel : (env.GetLatestRelease owner repo).1 = some release)
    (hurl : findDownloadURL a (some release) = .done (url, none))
    (hout : findOutputPath a url = .done output)
    (hmarker : ioutil.ReadFile w.fs (filepath.Join [a.workingDir, owner, repo]) ≠
      .ok (GetTagName (some release)))
    (hget : env.Get url = .ok { body := body, readErr := none })
    (hcreate : os.Create w.fs output = .ok (fs1, fout))
    (hdir : (os.MkdirAll w.fs
      (filepath.Dir (filepath.Join [a.workingDir, owner, repo]))).2 = none)
    (hmk : os.Create (os.MkdirAll w.fs
      (filepath.Dir (filepath.Join [a.workingDir, owner, repo]))).1
      (filepath.Join [a.workingDir, owner, repo]) = .ok (fs2, fmark))
    (hne : fout.key ≠ fmark.key)
    (hnotdir : (os.MkdirAll w.fs
      (filepath.Dir (filepath.Join [a.workingDir, owner, repo]))).1.lookup output ≠
        some Node.dir)
    (hroom : body.length + (GetTagName (some release)).length ≤ w.fs.free) :
    (Fetch a env w).1 = .done none ∧
    (Fetch a env w).2.fs.lookup output = some (Node.file body true true) ∧
    (Fetch a env w).2.fs.lookup (filepath.Join [a.workingDir, owner, repo]) =
      some (Node.file (GetTagName (some release)) true true) := by
  have hassert : (assertTag a owner repo (GetTagName (env.GetLatestRelease owner repo).1)
      (w.logged (.getLatestRelease owner repo))).1 = none := by
    rw [assertTag_none_iff, hrel]
    exact hmarker
  have hurl2 : findDownloadURL a (env.GetLatestRelease owner repo).1 = .done (url, none) := by
    rw [hrel]; exact hurl
  obtain ⟨hwr, hbnode, hbfree, hsim⟩ := download_sim w.fs fs1 output body fout hcreate
    (by omega)
  have hnotdir' : (os.MkdirAll w.fs
      (filepath.Dir (filepath.Join [a.workingDir, owner, repo]))).1.node fout.key ≠
        some Node.dir := by
    intro hc
    obtain ⟨_, hres, hknil, _⟩ := Create_ok _ _ _ _ hcreate
    have hg := MkdirAll_grown w.fs (filepath.Dir (filepath.Join [a.workingDir, owner, repo]))
    apply hnotdir
    refine (lookup_eq_some _ _ _).mpr ⟨fout.key, ?_, ?_⟩
    · exact resolve_mono w.fs _ hg.1 (fun q hq => hg.dir q hq) output fout.key hres
    · rw [entry_of_ne_nil _ _ hknil, hc]
  have hdlres := downloadFile_written a env output url (atDownload a w owner repo url output)
    fs1 fout { body := body, readErr := none } hcreate hget hwr
  have hdl : (downloadFile a env output url (atDownload a w owner repo url output)).1 =
      none := by rw [hdlres]
  have hdlfs : (downloadFile a env output url (atDownload a w owner repo url output)).2.fs =
      (os.Write fs1 fout body).1 := by rw [hdlres]
  obtain ⟨hwt, hknode, hkcwd, hkdirs⟩ := writeTag_sim a owner repo (GetTagName (some release))
    (downloadFile a env output url (atDownload a w owner repo url output)).2
    w.fs fs2 fmark fout.key (by rw [hdlfs]; exact hsim) hdir hmk hne hnotdir'
    (by rw [hdlfs]; omega)
  have hwt2 : (writeTag a owner repo (GetTagName (env.GetLatestRelease owner repo).1)
      (downloadFile a env output url (atDownload a w owner repo url output)).2).1 = none := by
    rw [hrel]; exact hwt
  have hfinal := Fetch_all_ok a env w owner repo url output hparse hassert hurl2 hout hdl
    hwt2
  rw [hrel] at hfinal
  rw [hfinal]
  refine ⟨rfl, ?_, ?_⟩
  · show (writeTag a owner repo (GetTagName (some release))
      (downloadFile a env output url (atDownload a w owner repo url output)).2).2.fs.lookup
        output = some (Node.file body true true)
    obtain ⟨_, hres, hknil, _⟩ := Create_ok _ _ _ _ hcreate
    refine (lookup_eq_some _ _ _).mpr ⟨fout.key, ?_, ?_⟩
    · apply resolve_mono _ _ hkcwd hkdirs
      rw [hdlfs]
      exact (resolve_congr _ _ hsim.dirEquiv output fout.key).mpr hres
    · rw [entry_of_ne_nil _ _ hknil, hknode, hdlfs, hbnode]
  · exact writeTag_ok_lookup a owner repo (GetTagName (some release)) _ hwt

/-- Witness of C9 (amended): the end-to-end test, `asset.file` of `owner/repo` fetched to
`output.file` in an empty directory; and `grm -o out.bin owner/repo` where the marker holds
the older tag `tag0`, which is replaced by `tag1`. -/
theorem Fetch_success_witness :
    ((Fetch mockApplication testRemote { fs := emptyFS, calls := [] }).1 = .done none ∧
      (Fetch mockApplication testRemote { fs := emptyFS, calls := [] }).2.fs.lookup
          (str "output.file") = some (Node.file (str "ASSET") true true) ∧
      (Fetch mockApplication testRemote { fs := emptyFS, calls := [] }).2.fs.lookup
          (filepath.Join [mockApplication.workingDir, str "owner", str "repo"]) =
        some (Node.file (GetTagName (some testRelease)) true true)) ∧
    ((Fetch tarballApplication testRemote
        { fs := markedFS (str "tag0"), calls := [] }).1 = .done none ∧
      (Fetch tarballApplication testRemote
          { fs := markedFS (str "tag0"), calls := [] }).2.fs.lookup (str "out.bin") =
        some (Node.file (str "ASSET") true true) ∧
      (Fetch tarballApplication testRemote
          { fs := markedFS (str "tag0"), calls := [] }).2.fs.lookup
          (filepath.Join [tarballApplication.workingDir, str "owner", str "repo"]) =
        some (Node.file (GetTagName (some testRelease)) true true)) :=
  ⟨Fetch_success mockApplication testRemote { fs := emptyFS, calls := [] }
    (str "owner") (str "repo") (str "http://github.com/release/asset.file")
    (str "output.file") (str "ASSET") testRelease
    (emptyFS.set [str "work", str "output.file"] (Node.file [] true true))
    ((os.MkdirAll emptyFS (str ".grm/owner")).1.set
      [str "work", str ".grm", str "owner", str "repo"] (Node.file [] true true))
    { name := str "output.file", key := [str "work", str "output.file"] }
    { name := str ".grm/owner/repo", key := [str "work", str ".grm", str "owner", str "repo"] }
    (by decide) (by decide) (by decide) (by decide) (by decide) (by decide) rfl
    (by decide) rfl (by decide) (by decide) (by decide),
   Fetch_success tarballApplication testRemote { fs := markedFS (str "tag0"), calls := [] }
    (str "owner") (str "repo") (str "http://github.com/release/tarball.tar")
    (str "out.bin") (str "ASSET") testRelease
    ((markedFS (str "tag0")).set [str "work", str "out.bin"] (Node.file [] true true))
    { ((os.MkdirAll (markedFS (str "tag0")) (str ".grm/owner")).1.set
        [str "work", str ".grm", str "owner", str "repo"] (Node.file [] true true)) with
      free := (os.MkdirAll (markedFS (str "tag0")) (str ".grm/owner")).1.free +
        (str "tag0").length }
    { name := str "out.bin", key := [str "work", str "out.bin"] }
    { name := str ".grm/owner/repo", key := [str "work", str ".grm", str "owner", str "repo"] }
    (by decide) (by decide) (by decide) (by decide) (by decide) (by decide) rfl
    (by decide) rfl (by decide) (by decide) (by decide)⟩

end Grm
